import Mathlib

/-! # A set-associative cache simulator

Shallow embedding of `src/cache_sim/cache_sim.cpp` and the properties of its
access state machine.

Conventions of the embedding.

* C++ `int` configuration fields and the `long long` counters and time stamps
  are `Int`; the counters grow by at most one per access, so no run of fewer
  than `2^63` accesses reaches their limit and they are left unbounded.
* `uint32_t` values (addresses, block ids, tags) are `Nat`; a C++ `int` that
  meets a `uint32_t` operand is converted with `toU32`.
* Undefined or aborting behaviour of the C++ program (division by zero, signed
  overflow, a vector of negative size, indexing outside a vector) is an
  explicit `Fault`.
* The globals `config`, `stats`, `global_time`, `seen_blocks` and the simulator
  object are the fields of one `Machine` value that `access` transforms.
* Addresses are `uint32_t`; the theorems quantify over all natural numbers,
  which covers every address the program can read.
* `rand()` is an extra argument of `access`: the number the call would return.
* The members `index_bits` and `block_offset_bits` are written by the
  constructor through floating-point `log2` and never read; they are omitted.
-/

namespace CacheSim

/-- Ways in which the C++ program leaves defined behaviour. -/
inductive Fault where
  | divByZero
  | overflow
  | lengthError
  | outOfRange
  deriving DecidableEq

deriving instance DecidableEq for Except

/-- The `Config` struct (lines 16-23). -/
structure Config where
  cache_size : Int
  block_size : Int
  associativity : Int
  replacement_policy : String
  write_policy : String
  write_allocate : Int
  deriving DecidableEq

/-- The `CacheBlock` struct with its member initialisers (lines 26-32). -/
structure CacheBlock where
  valid : Bool := false
  dirty : Bool := false
  tag : Nat := 0
  last_access_time : Int := 0
  insertion_time : Int := 0
  deriving DecidableEq

/-- The `Stats` struct with its member initialisers (lines 35-47). -/
structure Stats where
  total_loads : Int := 0
  total_stores : Int := 0
  load_hits : Int := 0
  load_misses : Int := 0
  store_hits : Int := 0
  store_misses : Int := 0
  compulsory_misses : Int := 0
  capacity_misses : Int := 0
  conflict_misses : Int := 0
  memory_reads : Int := 0
  memory_writes : Int := 0
  deriving DecidableEq

/-- Data members of `class CacheSimulator` (lines 62-64). -/
structure CacheSimulator where
  sets : List (List CacheBlock)
  num_sets : Int
  ways : Int
  deriving DecidableEq

/-- The globals of lines 50-53 together with the simulator object of `main`.
`seen_blocks` is a `std::set`; it is kept as a list that `access` extends only
by an id it does not contain. -/
structure Machine where
  config : Config
  stats : Stats
  global_time : Int
  seen_blocks : List Nat
  cache : CacheSimulator
  deriving DecidableEq

/-- One record of the trace: operation code, address, and the value `rand()`
would return if this access called it. -/
structure Access where
  type : Char
  addr : Nat
  rnd : Nat
  deriving DecidableEq

/-- Values representable in a 32-bit C++ `int`. -/
def isInt32 (x : Int) : Prop := -2147483648 ≤ x ∧ x < 2147483648

instance (x : Int) : Decidable (isInt32 x) := by
  unfold isInt32; infer_instance

/-- A configuration whose integer fields fit the `int` members of `Config`. -/
def Config.representable (cfg : Config) : Prop :=
  isInt32 cfg.cache_size ∧ isInt32 cfg.block_size ∧ isInt32 cfg.associativity ∧
    isInt32 cfg.write_allocate

instance (cfg : Config) : Decidable cfg.representable := by
  unfold Config.representable; infer_instance

/-- Conversion of an `int` to `uint32_t` (usual arithmetic conversions). -/
def toU32 (x : Int) : Nat := (x % 4294967296).toNat

/-- Signed `int * int`; leaving the range is undefined behaviour. -/
def intMul (a b : Int) : Except Fault Int :=
  if isInt32 (a * b) then .ok (a * b) else .error .overflow

/-- Signed `int / int`, truncating; a zero divisor or `INT_MIN / -1` is
undefined behaviour. -/
def intDiv (a b : Int) : Except Fault Int :=
  if b = 0 then .error .divByZero
  else if isInt32 (a.tdiv b) then .ok (a.tdiv b) else .error .overflow

/-- The geometry computed by the constructor (lines 70-77): `(num_sets, ways)`. -/
def geometry (cfg : Config) : Except Fault (Int × Int) :=
  if cfg.associativity = 0 then
    match intDiv cfg.cache_size cfg.block_size with
    | .error e => .error e
    | .ok ways => .ok (1, ways)
  else
    match intMul cfg.block_size cfg.associativity with
    | .error e => .error e
    | .ok d =>
      match intDiv cfg.cache_size d with
      | .error e => .error e
      | .ok num_sets => .ok (num_sets, cfg.associativity)

/-- The constructor `CacheSimulator(Config cfg)` (lines 69-84). The row
`vector<CacheBlock>(ways)` and `sets.resize(num_sets, row)` take their sizes as
`size_t`, so a negative size is a length error. -/
def CacheSimulator.construct (cfg : Config) : Except Fault CacheSimulator :=
  match geometry cfg with
  | .error e => .error e
  | .ok (num_sets, ways) =>
    if ways < 0 then .error .lengthError
    else if num_sets < 0 then .error .lengthError
    else .ok { sets := List.replicate num_sets.toNat (List.replicate ways.toNat {})
               num_sets := num_sets
               ways := ways }

/-- State at the first call of `access` in `main` (lines 250-251): the globals
at their initialisers, `config` as parsed, the simulator built from it. -/
def start (cfg : Config) : Except Fault Machine :=
  match CacheSimulator.construct cfg with
  | .error e => .error e
  | .ok c => .ok { config := cfg, stats := {}, global_time := 0, seen_blocks := [], cache := c }

/-- The helper `get_block_address` (lines 56-58): `addr / config.block_size` in
unsigned arithmetic. -/
def get_block_address (config : Config) (addr : Nat) : Except Fault Nat :=
  if toU32 config.block_size = 0 then .error .divByZero
  else .ok (addr / toU32 config.block_size)

/-- Read of `sets[index][i]`. -/
def readSlot (sets : List (List CacheBlock)) (index i : Nat) : Except Fault CacheBlock :=
  match sets[index]? with
  | none => .error .outOfRange
  | some row =>
    match row[i]? with
    | none => .error .outOfRange
    | some b => .ok b

/-- Assignment to members of `sets[index][i]`: the slot becomes `f` of itself. -/
def writeSlot (sets : List (List CacheBlock)) (index i : Nat) (f : CacheBlock → CacheBlock) :
    Except Fault (List (List CacheBlock)) :=
  match sets[index]? with
  | none => .error .outOfRange
  | some row =>
    match row[i]? with
    | none => .error .outOfRange
    | some b => .ok (sets.set index (row.set i (f b)))

/-- Address decomposition of `access` (lines 88-95): `(block_addr, index, tag)`. -/
def decompose (w : Machine) (addr : Nat) : Except Fault (Nat × Nat × Nat) :=
  match get_block_address w.config addr with
  | .error e => .error e
  | .ok block_addr =>
    if toU32 w.cache.num_sets = 0 then .error .divByZero
    else if w.config.associativity = 0 then .ok (block_addr, 0, block_addr)
    else .ok (block_addr, block_addr % toU32 w.cache.num_sets,
              block_addr / toU32 w.cache.num_sets)

/-- The scan shared by the hit-check loop (lines 101-107) and the empty-way loop
(lines 165-170), with `n` iterations left at way `i`: the first way whose slot
satisfies `p`, reading `sets[index][i]` at every iteration. -/
def firstWay (p : CacheBlock → Bool) (sets : List (List CacheBlock)) (index : Nat) :
    Nat → Nat → Except Fault (Option Nat)
  | 0, _ => .ok none
  | n + 1, i =>
    match readSlot sets index i with
    | .error e => .error e
    | .ok b => if p b = true then .ok (some i) else firstWay p sets index n (i + 1)

/-- The condition of the hit check (line 102). -/
def isHit (tag : Nat) (b : CacheBlock) : Bool := b.valid && decide (b.tag = tag)

/-- The condition of the empty check (line 166). -/
def isEmpty (b : CacheBlock) : Bool := !b.valid

/-- The hit-check loop (lines 101-107): the first way that is valid and holds
`tag`. -/
def hitCheck (sets : List (List CacheBlock)) (index tag : Nat) (n i : Nat) :
    Except Fault (Option Nat) :=
  firstWay (isHit tag) sets index n i

/-- The empty-way loop (lines 165-170): the first way that is not valid. -/
def emptyCheck (sets : List (List CacheBlock)) (index : Nat) (n i : Nat) :
    Except Fault (Option Nat) :=
  firstWay isEmpty sets index n i

/-- The minimum scan shared by the LRU loop (lines 175-181, `key` is
`last_access_time`) and the FIFO loop (lines 184-190, `key` is
`insertion_time`), carrying `min_time` and `replace_way` (`none` is `-1`). -/
def minScan (key : CacheBlock → Int) (sets : List (List CacheBlock)) (index : Nat) :
    Nat → Nat → Int → Option Nat → Except Fault (Int × Option Nat)
  | 0, _, min_time, replace_way => .ok (min_time, replace_way)
  | n + 1, i, min_time, replace_way =>
    match readSlot sets index i with
    | .error e => .error e
    | .ok b =>
      if min_time = -1 ∨ key b < min_time then
        minScan key sets index n (i + 1) (key b) (some i)
      else minScan key sets index n (i + 1) min_time replace_way

/-- Statistics update of lines 110-117. -/
def countAccess (stats : Stats) (type : Char) (hit : Bool) : Stats :=
  if type = 'R' then
    if hit then
      { stats with total_loads := stats.total_loads + 1, load_hits := stats.load_hits + 1 }
    else
      { stats with total_loads := stats.total_loads + 1, load_misses := stats.load_misses + 1 }
  else
    if hit then
      { stats with total_stores := stats.total_stores + 1, store_hits := stats.store_hits + 1 }
    else
      { stats with total_stores := stats.total_stores + 1,
                   store_misses := stats.store_misses + 1 }

/-- Replace the sets of the simulator. -/
def Machine.withSets (w : Machine) (sets : List (List CacheBlock)) : Machine :=
  { w with cache := { w.cache with sets := sets } }

/-- The statement `stats.memory_writes++`. -/
def Machine.countWrite (w : Machine) : Machine :=
  { w with stats := { w.stats with memory_writes := w.stats.memory_writes + 1 } }

/-- The statement `stats.memory_reads++`. -/
def Machine.countRead (w : Machine) : Machine :=
  { w with stats := { w.stats with memory_reads := w.stats.memory_reads + 1 } }

/-- The write handling shared by the hit case (lines 127-135) and the install
(lines 210-217): a store counts a memory write under `WRITE_THROUGH` and marks
the slot dirty otherwise. -/
def storeEffect (w : Machine) (type : Char) (index way : Nat) : Except Fault Machine :=
  if type = 'W' then
    if w.config.write_policy = "WRITE_THROUGH" then .ok w.countWrite
    else
      match writeSlot w.cache.sets index way (fun b => { b with dirty := true }) with
      | .error e => .error e
      | .ok sets => .ok (w.withSets sets)
  else .ok w

/-- The hit case (lines 120-136). -/
def hitCase (w : Machine) (type : Char) (index hit_way : Nat) : Except Fault Machine :=
  if w.config.replacement_policy = "LRU" then
    match writeSlot w.cache.sets index hit_way
        (fun b => { b with last_access_time := w.global_time }) with
    | .error e => .error e
    | .ok sets => storeEffect (w.withSets sets) type index hit_way
  else storeEffect w type index hit_way

/-- Miss classification (lines 140-148). -/
def classifyMiss (w : Machine) (block_addr : Nat) : Machine :=
  if block_addr ∈ w.seen_blocks then
    if w.config.associativity = 0 then
      { w with stats := { w.stats with capacity_misses := w.stats.capacity_misses + 1 } }
    else
      { w with stats := { w.stats with conflict_misses := w.stats.conflict_misses + 1 } }
  else
    { w with stats := { w.stats with compulsory_misses := w.stats.compulsory_misses + 1 }
             seen_blocks := block_addr :: w.seen_blocks }

/-- Choice of the eviction candidate in a set without an invalid way
(lines 174-194); `none` is a `replace_way` still at `-1`. -/
def chooseVictim (w : Machine) (index rnd : Nat) : Except Fault (Option Nat) :=
  if w.config.replacement_policy = "LRU" then
    match minScan CacheBlock.last_access_time w.cache.sets index w.cache.ways.toNat 0 (-1) none with
    | .error e => .error e
    | .ok r => .ok r.2
  else if w.config.replacement_policy = "FIFO" then
    match minScan CacheBlock.insertion_time w.cache.sets index w.cache.ways.toNat 0 (-1) none with
    | .error e => .error e
    | .ok r => .ok r.2
  else if w.cache.ways = 0 then .error .divByZero
  else .ok (some (Int.tmod (rnd : Int) w.cache.ways).toNat)

/-- The replacement way (lines 162-200): the first invalid way, else the
eviction candidate, whose dirty content is written back under `WRITE_BACK`.
Returns the way and the machine after the write-back accounting. -/
def findWay (w : Machine) (index rnd : Nat) : Except Fault (Nat × Machine) :=
  match emptyCheck w.cache.sets index w.cache.ways.toNat 0 with
  | .error e => .error e
  | .ok (some way) => .ok (way, w)
  | .ok none =>
    match chooseVictim w index rnd with
    | .error e => .error e
    | .ok none => .error .outOfRange
    | .ok (some way) =>
      match readSlot w.cache.sets index way with
      | .error e => .error e
      | .ok b =>
        if b.dirty = true ∧ w.config.write_policy = "WRITE_BACK" then .ok (way, w.countWrite)
        else .ok (way, w)

/-- The block written by the insertion (lines 203-207). -/
def newBlock (tag : Nat) (global_time : Int) : CacheBlock :=
  { valid := true, dirty := false, tag := tag,
    last_access_time := global_time, insertion_time := global_time }

/-- Insertion of the new block and the store handling after it (lines 203-217). -/
def install (w : Machine) (type : Char) (index way tag : Nat) : Except Fault Machine :=
  match writeSlot w.cache.sets index way (fun _ => newBlock tag w.global_time) with
  | .error e => .error e
  | .ok sets => storeEffect (w.withSets sets) type index way

/-- The miss case (lines 138-219). -/
def missCase (w : Machine) (type : Char) (block_addr index tag rnd : Nat) :
    Except Fault Machine :=
  let w1 := classifyMiss w block_addr
  if type = 'W' ∧ w1.config.write_allocate = 0 then .ok w1.countWrite
  else
    match findWay w1.countRead index rnd with
    | .error e => .error e
    | .ok (way, w2) => install w2 type index way tag

/-- The hit check of `access` on an address (lines 88-107): the decomposition
and the way that hits, if any. -/
def lookup (w : Machine) (addr : Nat) : Except Fault ((Nat × Nat × Nat) × Option Nat) :=
  match decompose w addr with
  | .error e => .error e
  | .ok (block_addr, index, tag) =>
    match hitCheck w.cache.sets index tag w.cache.ways.toNat 0 with
    | .error e => .error e
    | .ok hit_way => .ok ((block_addr, index, tag), hit_way)

/-- The method `CacheSimulator::access` (lines 86-220). -/
def access (w : Machine) (type : Char) (addr rnd : Nat) : Except Fault Machine :=
  let w1 := { w with global_time := w.global_time + 1 }
  match lookup w1 addr with
  | .error e => .error e
  | .ok ((block_addr, index, tag), hit_way) =>
    let w2 := { w1 with stats := countAccess w1.stats type hit_way.isSome }
    match hit_way with
    | some way => hitCase w2 type index way
    | none => missCase w2 type block_addr index tag rnd

/-- The replay loop of `main` (lines 258-260). -/
def run (w : Machine) : List Access → Except Fault Machine
  | [] => .ok w
  | a :: rest =>
    match access w a.type a.addr a.rnd with
    | .error e => .error e
    | .ok w1 => run w1 rest

/-- States the replay reaches from the start state of a configuration. -/
def Reachable (cfg : Config) (w : Machine) : Prop :=
  ∃ w0 tr, start cfg = .ok w0 ∧ run w0 tr = .ok w

/-- A load record. -/
def ld (addr : Nat) : Access := { type := 'R', addr := addr, rnd := 0 }

/-- A store record. -/
def st (addr : Nat) : Access := { type := 'W', addr := addr, rnd := 0 }

/-- The configuration of the end-to-end example. -/
def exampleConfig : Config :=
  { cache_size := 16, block_size := 4, associativity := 1,
    replacement_policy := "LRU", write_policy := "WRITE_BACK", write_allocate := 1 }

/-! ## Notions used by the statements and their proofs -/

/-- Way `k` of `row` is the lowest-indexed way whose `key` is the minimum over
the row. -/
def IsFirstMin (key : CacheBlock → Int) (row : List CacheBlock) (k : Nat) : Prop :=
  ∃ bk, row[k]? = some bk ∧
    (∀ (j : Nat) (b : CacheBlock), row[j]? = some b → key bk ≤ key b) ∧
    (∀ (j : Nat) (b : CacheBlock), j < k → row[j]? = some b → key bk < key b)

/-- The slot left by a hit (lines 122-135): touched under LRU, dirtied by a
store unless the write policy is `WRITE_THROUGH`. -/
def hitBlock (cfg : Config) (type : Char) (global_time : Int) (b : CacheBlock) : CacheBlock :=
  { b with
    last_access_time :=
      if cfg.replacement_policy = "LRU" then global_time else b.last_access_time
    dirty := if type = 'W' ∧ cfg.write_policy ≠ "WRITE_THROUGH" then true else b.dirty }

/-- The slot left by an install (lines 203-217). -/
def installedBlock (cfg : Config) (type : Char) (tag : Nat) (global_time : Int) : CacheBlock :=
  { newBlock tag global_time with
    dirty := if type = 'W' ∧ cfg.write_policy ≠ "WRITE_THROUGH" then true else false }

/-- The machine with slot `way` of set `index` replaced by `b`, and one memory
write counted when `wt` holds. -/
def Machine.putSlot (w : Machine) (index way : Nat) (row : List CacheBlock) (b : CacheBlock)
    (wt : Bool) : Machine :=
  if wt = true then (w.withSets (w.cache.sets.set index (row.set way b))).countWrite
  else w.withSets (w.cache.sets.set index (row.set way b))

/-- The machine after the clock tick (line 87) and the hit/miss counters
(lines 110-117). -/
def counted (w : Machine) (type : Char) (hit : Bool) : Machine :=
  { w with global_time := w.global_time + 1, stats := countAccess w.stats type hit }

/-- The machine a miss leaves before any slot is touched: clock ticked, miss
counted and classified (lines 87, 110-117, 140-148). -/
def missBase (w : Machine) (type : Char) (block_addr : Nat) : Machine :=
  classifyMiss (counted w type false) block_addr

/-- The write-back accounting of `findWay` on the evicted slot `b`. -/
def evictCount (w : Machine) (b : CacheBlock) : Machine :=
  if b.dirty = true ∧ w.config.write_policy = "WRITE_BACK" then w.countWrite else w

/-- The geometry a successfully constructed simulator has and every access
keeps: a non-zero block size, `num_sets >= 1` sets of `ways >= 1` slots each. -/
structure WF (w : Machine) : Prop where
  block_size : toU32 w.config.block_size ≠ 0
  num_sets_pos : 1 ≤ w.cache.num_sets
  num_sets_u32 : w.cache.num_sets < 4294967296
  ways_pos : 1 ≤ w.cache.ways
  sets_length : w.cache.sets.length = w.cache.num_sets.toNat
  row_length : ∀ row ∈ w.cache.sets, row.length = w.cache.ways.toNat

/-- Slot `c` occurs in some set of the machine. -/
def Machine.holds (w : Machine) (c : CacheBlock) : Prop :=
  ∃ row ∈ w.cache.sets, c ∈ row

/-- Time stamps of a state: the clock is not negative and every slot carries
stamps between zero and the clock. -/
def Stamped (w : Machine) : Prop :=
  0 ≤ w.global_time ∧ ∀ c, w.holds c →
    0 ≤ c.last_access_time ∧ c.last_access_time ≤ w.global_time ∧
    0 ≤ c.insertion_time ∧ c.insertion_time ≤ w.global_time

/-- The two time stamps of a slot. -/
def stamps (b : CacheBlock) : Int × Int := (b.last_access_time, b.insertion_time)

/-- The time stamps of all slots, set by set. -/
def stampsOf (sets : List (List CacheBlock)) : List (List (Int × Int)) :=
  sets.map (List.map stamps)

/-- Every access of the trace is a hit when the trace is replayed from `w`. -/
def allHit : Machine → List Access → Prop
  | _, [] => True
  | w, a :: rest =>
    ∃ d way w1, lookup w a.addr = .ok (d, some way) ∧
      access w a.type a.addr a.rnd = .ok w1 ∧ allHit w1 rest

/-- The statistics without the two memory-traffic counters. -/
def Stats.core (s : Stats) : Stats := { s with memory_reads := 0, memory_writes := 0 }

/-- The bookkeeping of an access that only depends on its outcome: the clock,
the hit/miss counters and, on a miss, the classification. -/
def account (w : Machine) (type : Char) (block_addr : Nat) (hit : Bool) : Machine :=
  if hit = true then counted w type true else missBase w type block_addr

/-- The two sums of the hit/miss counters. -/
def Stats.balanced (s : Stats) : Prop :=
  s.load_hits + s.load_misses = s.total_loads ∧ s.store_hits + s.store_misses = s.total_stores

/-- The sum of the three miss classes against the two miss counters. -/
def Stats.classified (s : Stats) : Prop :=
  s.compulsory_misses + s.capacity_misses + s.conflict_misses = s.load_misses + s.store_misses

/-- The trace that alternates between the addresses `a` and `b`, starting
with `a`, with the given operation codes and random draws. -/
def alternate (a b : Nat) : List (Char × Nat) → List Access
  | [] => []
  | op :: rest => { type := op.1, addr := a, rnd := op.2 } :: alternate b a rest

/-- The trace `R 0x0, R 0x4, R 0x0` of the end-to-end example. -/
def exampleTrace : List Access := [ld 0, ld 4, ld 0]

/-- The start state of the example configuration: four sets of one way. -/
def exampleStart : Machine :=
  { config := exampleConfig, stats := {}, global_time := 0, seen_blocks := [],
    cache := { sets := [[{}], [{}], [{}], [{}]], num_sets := 4, ways := 1 } }

/-- A configuration of two sets of three ways under LRU. -/
def lruConfig : Config :=
  { cache_size := 96, block_size := 16, associativity := 3,
    replacement_policy := "LRU", write_policy := "WRITE_BACK", write_allocate := 1 }

/-- The state of `lruConfig` after loads of the blocks A, B, C (addresses 16,
48, 80: tags 0, 1, 2 of set 1) in this order. -/
def lruFull : Machine :=
  { config := lruConfig
    stats := { total_loads := 3, load_misses := 3, compulsory_misses := 3, memory_reads := 3 }
    global_time := 3
    seen_blocks := [5, 3, 1]
    cache := { sets := [[{}, {}, {}],
                        [{ valid := true, tag := 0, last_access_time := 1, insertion_time := 1 },
                         { valid := true, tag := 1, last_access_time := 2, insertion_time := 2 },
                         { valid := true, tag := 2, last_access_time := 3, insertion_time := 3 }]]
               num_sets := 2, ways := 3 } }

/-- A configuration of one set of two ways under FIFO. -/
def fifoConfig : Config :=
  { cache_size := 32, block_size := 16, associativity := 2,
    replacement_policy := "FIFO", write_policy := "WRITE_BACK", write_allocate := 1 }

/-- The state of `fifoConfig` after a load of block A (address 0), a load of
block B (address 16), and then a load and a store that hit A. -/
def fifoFull : Machine :=
  { config := fifoConfig
    stats := { total_loads := 3, total_stores := 1, load_hits := 1, store_hits := 1,
               load_misses := 2, compulsory_misses := 2, memory_reads := 2 }
    global_time := 4
    seen_blocks := [1, 0]
    cache := { sets := [[{ valid := true, dirty := true, tag := 0, last_access_time := 1,
                           insertion_time := 1 },
                         { valid := true, tag := 1, last_access_time := 2,
                           insertion_time := 2 }]]
               num_sets := 1, ways := 2 } }

/-- A configuration of two sets of one way under `WRITE_THROUGH`. -/
def wtConfig : Config :=
  { cache_size := 8, block_size := 4, associativity := 1,
    replacement_policy := "LRU", write_policy := "WRITE_THROUGH", write_allocate := 1 }

/-- The state of `wtConfig` after a store miss and a store hit on address 0. -/
def wtStored : Machine :=
  { config := wtConfig
    stats := { total_stores := 2, store_hits := 1, store_misses := 1, compulsory_misses := 1,
               memory_reads := 1, memory_writes := 2 }
    global_time := 2
    seen_blocks := [0]
    cache := { sets := [[{ valid := true, tag := 0, last_access_time := 2,
                           insertion_time := 1 }], [{}]]
               num_sets := 2, ways := 1 } }

/-- The block a store miss installs under write-back: valid, dirty, stamped
with the clock of the access. -/
def dirtyBlock (tag : Nat) (global_time : Int) : CacheBlock :=
  { valid := true, dirty := true, tag := tag,
    last_access_time := global_time, insertion_time := global_time }

/-- The start state of a direct-mapped write-back cache of two sets. -/
def wbStart : Machine :=
  { config := { wtConfig with write_policy := "WRITE_BACK" }
    stats := {}, global_time := 0, seen_blocks := []
    cache := { sets := [[{}], [{}]], num_sets := 2, ways := 1 } }

/-- A fully associative configuration: one set of two ways. -/
def faConfig : Config :=
  { cache_size := 8, block_size := 4, associativity := 0,
    replacement_policy := "LRU", write_policy := "WRITE_BACK", write_allocate := 1 }

/-- The state of the write-back start state `wbStart` after a store to
address 0: set 0 holds a dirty block, set 1 is still invalid. -/
def wbStored : Machine :=
  { config := { wtConfig with write_policy := "WRITE_BACK" }
    stats := { total_stores := 1, store_misses := 1, compulsory_misses := 1, memory_reads := 1 }
    global_time := 1
    seen_blocks := [0]
    cache := { sets := [[{ valid := true, dirty := true, tag := 0, last_access_time := 1,
                           insertion_time := 1 }], [{}]]
               num_sets := 2, ways := 1 } }

/-- The number of accesses in the replay of a trace from `w` that have block
id `b` and are counted as a compulsory miss (the count stops where the replay
faults). -/
def compulsoryFor (b : Nat) : Machine → List Access → Nat
  | _, [] => 0
  | w, a :: rest =>
    match access w a.type a.addr a.rnd with
    | .error _ => 0
    | .ok w1 =>
      (if get_block_address w.config a.addr = .ok b ∧
          w1.stats.compulsory_misses = w.stats.compulsory_misses + 1 then 1 else 0) +
        compulsoryFor b w1 rest

/-- A degenerate configuration: `block_size * associativity` exceeds
`cache_size`, so the derived `num_sets` is 0. -/
def noSetsConfig : Config := { exampleConfig with associativity := 8 }

/-- A degenerate fully associative configuration: `block_size` exceeds
`cache_size`, so the derived `ways` is 0. -/
def noWaysConfig : Config :=
  { exampleConfig with cache_size := 4, block_size := 8, associativity := 0 }

/-- No two ways of the row hold valid slots with the same tag. -/
def NoDupTags (row : List CacheBlock) : Prop :=
  ∀ (i j : Nat) (b c : CacheBlock), row[i]? = some b → row[j]? = some c →
    b.valid = true → c.valid = true → b.tag = c.tag → i = j

/-- Every set has as many slots as the member `ways` says. -/
def RowsFit (w : Machine) : Prop :=
  ∀ row ∈ w.cache.sets, row.length = w.cache.ways.toNat

/-- The block id that a slot of set `index` with tag `tag` stands for: the
inverse of the address decomposition (lines 89-95). -/
def blockOf (w : Machine) (index tag : Nat) : Nat :=
  if w.config.associativity = 0 then tag else tag * toU32 w.cache.num_sets + index

/-- Every valid slot holds a block whose id is in the seen-block ledger. -/
def LedgerCovers (w : Machine) : Prop :=
  ∀ (index way : Nat) (row : List CacheBlock) (c : CacheBlock),
    w.cache.sets[index]? = some row → row[way]? = some c → c.valid = true →
    blockOf w index c.tag ∈ w.seen_blocks

/-- The block id of a trace record under a configuration:
`address / block_size`. -/
def blockId (cfg : Config) (a : Access) : Nat := a.addr / toU32 cfg.block_size

/-! ## Slots, rows and the scanning loops -/

theorem readSlot_row {sets : List (List CacheBlock)} {index : Nat} {row : List CacheBlock}
    (h : sets[index]? = some row) (i : Nat) :
    readSlot sets index i = match row[i]? with
      | none => .error .outOfRange
      | some b => .ok b := by
  simp [readSlot, h]

theorem readSlot_ok {sets : List (List CacheBlock)} {index i : Nat} {b : CacheBlock} :
    readSlot sets index i = .ok b ↔ ∃ row, sets[index]? = some row ∧ row[i]? = some b := by
  unfold readSlot
  split
  · rename_i h; simp [h]
  · rename_i row h
    split
    · rename_i h2; simp [h, h2]
    · rename_i c h2; simp [h, h2]

theorem writeSlot_row {sets : List (List CacheBlock)} {index : Nat} {row : List CacheBlock}
    (h : sets[index]? = some row) (i : Nat) (f : CacheBlock → CacheBlock) :
    writeSlot sets index i f = match row[i]? with
      | none => .error .outOfRange
      | some b => .ok (sets.set index (row.set i (f b))) := by
  simp [writeSlot, h]

theorem writeSlot_ok {sets sets1 : List (List CacheBlock)} {index i : Nat}
    {f : CacheBlock → CacheBlock} :
    writeSlot sets index i f = .ok sets1 ↔
      ∃ row b, sets[index]? = some row ∧ row[i]? = some b ∧
        sets1 = sets.set index (row.set i (f b)) := by
  unfold writeSlot
  split
  · rename_i h; simp [h]
  · rename_i row h
    split
    · rename_i h2; simp [h, h2]
    · rename_i c h2; simp [h, h2, eq_comm]

/-- What a completed first-way scan over ways `i .. i+n-1` of a row returns. -/
theorem firstWay_spec {p : CacheBlock → Bool} {sets : List (List CacheBlock)} {index : Nat}
    {row : List CacheBlock} (h : sets[index]? = some row) :
    ∀ (n i : Nat) (r : Option Nat), firstWay p sets index n i = .ok r →
      match r with
      | some k => i ≤ k ∧ k < i + n ∧ (∃ b, row[k]? = some b ∧ p b = true) ∧
          ∀ j, i ≤ j → j < k → ∃ b, row[j]? = some b ∧ p b = false
      | none => ∀ j, i ≤ j → j < i + n → ∃ b, row[j]? = some b ∧ p b = false := by
  intro n
  induction n with
  | zero =>
    intro i r hr
    simp only [firstWay, Except.ok.injEq] at hr
    subst hr
    intro j h1 h2
    omega
  | succ n ih =>
    intro i r hr
    rw [firstWay, readSlot_row h] at hr
    cases hb : row[i]? with
    | none => simp [hb] at hr
    | some b =>
      simp only [hb] at hr
      by_cases hp : p b = true
      · simp only [hp, if_true, Except.ok.injEq] at hr
        subst hr
        exact ⟨le_refl _, by omega, ⟨b, hb, hp⟩, fun j h1 h2 => by omega⟩
      · simp only [hp, if_false] at hr
        have := ih (i + 1) r hr
        cases r with
        | some k =>
          obtain ⟨h1, h2, h3, h4⟩ := this
          refine ⟨by omega, by omega, h3, fun j hj1 hj2 => ?_⟩
          by_cases hji : j = i
          · subst hji
            exact ⟨b, hb, by simpa using hp⟩
          · exact h4 j (by omega) hj2
        | none =>
          refine fun j hj1 hj2 => ?_
          by_cases hji : j = i
          · subst hji
            exact ⟨b, hb, by simpa using hp⟩
          · exact this j (by omega) (by omega)

/-- A first-way scan that stays inside the row completes. -/
theorem firstWay_total {p : CacheBlock → Bool} {sets : List (List CacheBlock)} {index : Nat}
    {row : List CacheBlock} (h : sets[index]? = some row) :
    ∀ (n i : Nat), i + n ≤ row.length → ∃ r, firstWay p sets index n i = .ok r := by
  intro n
  induction n with
  | zero => intro i _; exact ⟨none, rfl⟩
  | succ n ih =>
    intro i hi
    have hlt : i < row.length := by omega
    rw [firstWay, readSlot_row h, List.getElem?_eq_getElem hlt]
    by_cases hp : p row[i] = true
    · exact ⟨some i, by simp [hp]⟩
    · obtain ⟨r, hr⟩ := ih (i + 1) (by omega)
      exact ⟨r, by simp [hp, hr]⟩

/-- Loop invariant rule for the minimum scan: a property of
`(i, min_time, replace_way)` kept by every iteration holds when the loop ends,
and a scan that stays inside the row completes. -/
theorem minScan_inv (key : CacheBlock → Int) {sets : List (List CacheBlock)} {index : Nat}
    {row : List CacheBlock} (h : sets[index]? = some row)
    (P : Nat → Int → Option Nat → Prop)
    (hstep : ∀ i m rw b, row[i]? = some b → P i m rw →
      P (i + 1) (if m = -1 ∨ key b < m then key b else m)
        (if m = -1 ∨ key b < m then some i else rw)) :
    ∀ (n i : Nat) (m : Int) (rw : Option Nat), i + n ≤ row.length → P i m rw →
      ∃ m1 rw1, minScan key sets index n i m rw = .ok (m1, rw1) ∧ P (i + n) m1 rw1 := by
  intro n
  induction n with
  | zero => intro i m rw _ hP; exact ⟨m, rw, rfl, hP⟩
  | succ n ih =>
    intro i m rw hi hP
    have hlt : i < row.length := by omega
    have hb : row[i]? = some row[i] := List.getElem?_eq_getElem hlt
    have hs := hstep i m rw row[i] hb hP
    rw [minScan, readSlot_row h, hb]
    by_cases hc : m = -1 ∨ key row[i] < m
    · simp only [hc, if_true] at hs ⊢
      obtain ⟨m1, rw1, h1, h2⟩ := ih (i + 1) _ _ (by omega) hs
      exact ⟨m1, rw1, h1, by rwa [show i + (n + 1) = i + 1 + n by omega]⟩
    · simp only [hc, if_false] at hs ⊢
      obtain ⟨m1, rw1, h1, h2⟩ := ih (i + 1) _ _ (by omega) hs
      exact ⟨m1, rw1, h1, by rwa [show i + (n + 1) = i + 1 + n by omega]⟩

/-- On a non-empty row none of whose keys is the sentinel `-1`, a minimum scan
over the whole row ends at the lowest-indexed way holding the minimum key. -/
theorem minScan_firstMin (key : CacheBlock → Int) {sets : List (List CacheBlock)} {index : Nat}
    {row : List CacheBlock} (h : sets[index]? = some row) (hne : 0 < row.length)
    (hkey : ∀ b ∈ row, key b ≠ -1) :
    ∃ m k, minScan key sets index row.length 0 (-1) none = .ok (m, some k) ∧
      IsFirstMin key row k := by
  have := minScan_inv key h
    (fun i m rw => (i = 0 ∧ m = -1 ∧ rw = none) ∨
      ∃ k bk, rw = some k ∧ k < i ∧ row[k]? = some bk ∧ m = key bk ∧
        (∀ j b, j < i → row[j]? = some b → key bk ≤ key b) ∧
        (∀ j b, j < k → row[j]? = some b → key bk < key b))
    (by
      intro i m rw b hb hP
      have hbm : key b ≠ -1 := hkey b (List.getElem?_mem hb)
      rcases hP with ⟨h0, hm, hrw⟩ | ⟨k, bk, hrw, hk, hbk, hm, hall, hlow⟩
      · subst h0 hm hrw
        right
        refine ⟨0, b, by simp, by omega, hb, by simp, ?_, ?_⟩
        · intro j c hj hc
          have : j = 0 := by omega
          subst this
          rw [hb] at hc; cases hc; exact le_refl _
        · intro j c hj; omega
      · right
        have hm1 : m ≠ -1 := by
          rw [hm]; exact hkey bk (List.getElem?_mem hbk)
        by_cases hlt : key b < m
        · refine ⟨i, b, by simp [hlt], by omega, hb, by simp [hlt], ?_, ?_⟩
          · intro j c hj hc
            by_cases hji : j = i
            · subst hji; rw [hb] at hc; cases hc; exact le_refl _
            · have := hall j c (by omega) hc
              omega
          · intro j c hj hc
            have := hall j c hj hc
            omega
        · have hc : ¬ (m = -1 ∨ key b < m) := by
            intro hor
            rcases hor with h1 | h1
            · exact hm1 h1
            · exact hlt h1
          refine ⟨k, bk, by rw [if_neg hc]; exact hrw, by omega, hbk,
            by rw [if_neg hc]; exact hm, ?_, hlow⟩
          intro j c hj hc
          by_cases hji : j = i
          · subst hji; rw [hb] at hc; cases hc; omega
          · exact hall j c (by omega) hc)
    row.length 0 (-1) none (by omega) (Or.inl ⟨rfl, rfl, rfl⟩)
  obtain ⟨m1, rw1, h1, h2⟩ := this
  rcases h2 with ⟨h0, _, _⟩ | ⟨k, bk, hrw, hk, hbk, hm, hall, hlow⟩
  · omega
  · subst hrw
    refine ⟨m1, k, h1, bk, hbk, ?_, hlow⟩
    intro j c hc
    have hj : j < row.length := by
      by_contra hcon
      rw [List.getElem?_eq_none (by omega)] at hc
      cases hc
    exact hall j c (by simpa using hj) hc

/-- A minimum scan over a non-empty row always ends with a way of the row. -/
theorem minScan_range (key : CacheBlock → Int) {sets : List (List CacheBlock)} {index : Nat}
    {row : List CacheBlock} (h : sets[index]? = some row) (hne : 0 < row.length) :
    ∃ m k, minScan key sets index row.length 0 (-1) none = .ok (m, some k) ∧
      k < row.length := by
  have := minScan_inv key h
    (fun i m rw => (i = 0 ∧ m = -1 ∧ rw = none) ∨ ∃ k, rw = some k ∧ k < i)
    (by
      intro i m rw b hb hP
      right
      rcases hP with ⟨h0, hm, hrw⟩ | ⟨k, hrw, hk⟩
      · subst h0 hm hrw
        exact ⟨0, by simp, by omega⟩
      · by_cases hc : m = -1 ∨ key b < m
        · exact ⟨i, by simp [hc], by omega⟩
        · exact ⟨k, by simp [hc, hrw], by omega⟩)
    row.length 0 (-1) none (by omega) (Or.inl ⟨rfl, rfl, rfl⟩)
  obtain ⟨m1, rw1, h1, h2⟩ := this
  rcases h2 with ⟨h0, _, _⟩ | ⟨k, hrw, hk⟩
  · omega
  · subst hrw
    exact ⟨m1, k, h1, by simpa using hk⟩

/-! ## Closed forms of the hit and install paths -/

theorem set_set_row (sets : List (List CacheBlock)) (index way : Nat) (row : List CacheBlock)
    (b c : CacheBlock) :
    (sets.set index (row.set way b)).set index ((row.set way b).set way c) =
      sets.set index (row.set way c) := by
  simp [List.set_set]

theorem set_self_row {sets : List (List CacheBlock)} {index way : Nat} {row : List CacheBlock}
    {b : CacheBlock} (h : sets[index]? = some row) (hb : row[way]? = some b) :
    sets.set index (row.set way b) = sets := by
  have h1 : row.set way b = row := by
    apply List.ext_getElem?
    intro j
    rw [List.getElem?_set]
    by_cases hj : way = j
    · subst hj
      simp only [if_true]
      have : way < row.length := by
        by_contra hc
        rw [List.getElem?_eq_none (by omega)] at hb
        cases hb
      simp [this, hb]
    · simp [hj]
  rw [h1]
  apply List.ext_getElem?
  intro j
  rw [List.getElem?_set]
  by_cases hj : index = j
  · subst hj
    have : index < sets.length := by
      by_contra hc
      rw [List.getElem?_eq_none (by omega)] at h
      cases h
    simp [this, h]
  · simp [hj]

theorem getElem?_lt {α : Type} {l : List α} {i : Nat} {a : α} (h : l[i]? = some a) :
    i < l.length := by
  by_contra hc
  rw [List.getElem?_eq_none (by omega)] at h
  cases h

theorem writeSlot_after_set {sets : List (List CacheBlock)} {index way : Nat}
    {row : List CacheBlock} {b c : CacheBlock} (h : sets[index]? = some row)
    (hb : row[way]? = some b) (f : CacheBlock → CacheBlock) :
    writeSlot (sets.set index (row.set way c)) index way f =
      .ok (sets.set index (row.set way (f c))) := by
  have h1 := getElem?_lt h
  have h2 := getElem?_lt hb
  have e1 : (sets.set index (row.set way c))[index]? = some (row.set way c) := by
    simp [List.getElem?_set, h1]
  rw [writeSlot_row e1]
  have e2 : (row.set way c)[way]? = some c := by simp [List.getElem?_set, h2]
  simp only [e2, set_set_row]

/-- Closed form of the store handling on a slot that exists. -/
theorem storeEffect_eq {w : Machine} {type : Char} {index way : Nat} {row : List CacheBlock}
    {b : CacheBlock} (h : w.cache.sets[index]? = some row) (hb : row[way]? = some b) :
    storeEffect w type index way =
      .ok (w.putSlot index way row
        { b with dirty := if type = 'W' ∧ w.config.write_policy ≠ "WRITE_THROUGH" then true
                          else b.dirty }
        (decide (type = 'W' ∧ w.config.write_policy = "WRITE_THROUGH"))) := by
  unfold storeEffect Machine.putSlot
  by_cases ht : type = 'W'
  · by_cases hp : w.config.write_policy = "WRITE_THROUGH"
    · simp [ht, hp, set_self_row h hb, Machine.withSets]
    · simp [ht, hp, writeSlot_row h, hb]
  · simp [ht, set_self_row h hb, Machine.withSets]

theorem putSlot_after_set {w : Machine} {index way : Nat} {row : List CacheBlock}
    {c d : CacheBlock} {wt : Bool} :
    (w.withSets (w.cache.sets.set index (row.set way c))).putSlot index way (row.set way c) d wt =
      w.putSlot index way row d wt := by
  simp [Machine.putSlot, Machine.withSets, set_set_row]

/-- Closed form of the hit case on a slot that exists. -/
theorem hitCase_eq {w : Machine} {type : Char} {index way : Nat} {row : List CacheBlock}
    {b : CacheBlock} (h : w.cache.sets[index]? = some row) (hb : row[way]? = some b) :
    hitCase w type index way =
      .ok (w.putSlot index way row (hitBlock w.config type w.global_time b)
        (decide (type = 'W' ∧ w.config.write_policy = "WRITE_THROUGH"))) := by
  have h1 := getElem?_lt h
  have h2 := getElem?_lt hb
  unfold hitCase
  by_cases hp : w.config.replacement_policy = "LRU"
  · simp only [hp, if_true, writeSlot_row h, hb]
    have e1 : (w.withSets (w.cache.sets.set index
        (row.set way { b with last_access_time := w.global_time }))).cache.sets[index]? =
        some (row.set way { b with last_access_time := w.global_time }) := by
      simp [Machine.withSets, List.getElem?_set, h1]
    have e2 : (row.set way { b with last_access_time := w.global_time })[way]? =
        some { b with last_access_time := w.global_time } := by
      simp [List.getElem?_set, h2]
    rw [storeEffect_eq e1 e2, putSlot_after_set]
    simp [hitBlock, hp, Machine.withSets]
  · simp only [hp, if_false]
    rw [storeEffect_eq h hb]
    simp [hitBlock, hp]

/-- Closed form of the install on a slot that exists. -/
theorem install_eq {w : Machine} {type : Char} {index way tag : Nat} {row : List CacheBlock}
    {b : CacheBlock} (h : w.cache.sets[index]? = some row) (hb : row[way]? = some b) :
    install w type index way tag =
      .ok (w.putSlot index way row (installedBlock w.config type tag w.global_time)
        (decide (type = 'W' ∧ w.config.write_policy = "WRITE_THROUGH"))) := by
  have h1 := getElem?_lt h
  have h2 := getElem?_lt hb
  unfold install
  simp only [writeSlot_row h, hb]
  have e1 : (w.withSets (w.cache.sets.set index
      (row.set way (newBlock tag w.global_time)))).cache.sets[index]? =
      some (row.set way (newBlock tag w.global_time)) := by
    simp [Machine.withSets, List.getElem?_set, h1]
  have e2 : (row.set way (newBlock tag w.global_time))[way]? =
      some (newBlock tag w.global_time) := by
    simp [List.getElem?_set, h2]
  rw [storeEffect_eq e1 e2, putSlot_after_set]
  simp [installedBlock, newBlock, Machine.withSets]

/-- An install outside the vectors is a fault. -/
theorem install_ok {w w1 : Machine} {type : Char} {index way tag : Nat}
    (h : install w type index way tag = .ok w1) :
    ∃ row b, w.cache.sets[index]? = some row ∧ row[way]? = some b := by
  unfold install at h
  cases hw : writeSlot w.cache.sets index way (fun _ => newBlock tag w.global_time) with
  | error e => simp [hw] at h
  | ok sets1 =>
    obtain ⟨row, b, h1, h2, _⟩ := writeSlot_ok.mp hw
    exact ⟨row, b, h1, h2⟩

/-! ## Case analysis of one access -/

theorem access_eq (w : Machine) (type : Char) (addr rnd : Nat) :
    access w type addr rnd =
      match lookup w addr with
      | .error e => .error e
      | .ok ((_, index, _), some way) => hitCase (counted w type true) type index way
      | .ok ((block_addr, index, tag), none) =>
        missCase (counted w type false) type block_addr index tag rnd := by
  unfold access
  have e : lookup { w with global_time := w.global_time + 1 } addr = lookup w addr := rfl
  dsimp only
  rw [e]
  cases h : lookup w addr with
  | error e => rfl
  | ok v =>
    obtain ⟨⟨b, i, t⟩, hw⟩ := v
    cases hw <;> rfl

theorem firstWay_row {p : CacheBlock → Bool} {sets : List (List CacheBlock)} {index n i : Nat}
    {r : Option Nat} (h : firstWay p sets index (n + 1) i = .ok r) :
    ∃ row, sets[index]? = some row := by
  rw [firstWay] at h
  cases hs : readSlot sets index i with
  | error e => simp [hs] at h
  | ok b =>
    obtain ⟨row, h1, _⟩ := readSlot_ok.mp hs
    exact ⟨row, h1⟩

theorem firstWay_some_row {p : CacheBlock → Bool} {sets : List (List CacheBlock)}
    {index n i k : Nat} (h : firstWay p sets index n i = .ok (some k)) :
    ∃ row, sets[index]? = some row := by
  cases n with
  | zero => simp [firstWay] at h
  | succ n => exact firstWay_row h

/-- A hit returned by `lookup` names a valid slot of the indexed set holding
the tag, and no lower way of that set does. -/
theorem lookup_hit {w : Machine} {addr block_addr index tag way : Nat}
    (h : lookup w addr = .ok ((block_addr, index, tag), some way)) :
    decompose w addr = .ok (block_addr, index, tag) ∧
    ∃ row b, w.cache.sets[index]? = some row ∧ row[way]? = some b ∧ isHit tag b = true ∧
      way < w.cache.ways.toNat ∧
      ∀ j, j < way → ∃ c, row[j]? = some c ∧ isHit tag c = false := by
  unfold lookup at h
  cases hd : decompose w addr with
  | error e => simp [hd] at h
  | ok d =>
    obtain ⟨blk, idx, tg⟩ := d
    simp only [hd] at h
    cases hh : hitCheck w.cache.sets idx tg w.cache.ways.toNat 0 with
    | error e => simp [hh] at h
    | ok r =>
      simp only [hh, Except.ok.injEq, Prod.mk.injEq] at h
      obtain ⟨⟨h1, h2, h3⟩, h4⟩ := h
      subst h1 h2 h3 h4
      refine ⟨rfl, ?_⟩
      obtain ⟨row, hrow⟩ := firstWay_some_row hh
      have := firstWay_spec hrow _ _ _ hh
      obtain ⟨_, hlt, ⟨b, hb, hp⟩, hlow⟩ := this
      exact ⟨row, b, hrow, hb, hp, by omega, fun j hj => hlow j (by omega) hj⟩

/-- A miss returned by `lookup`: every way scanned is invalid or holds another
tag. -/
theorem lookup_miss {w : Machine} {addr block_addr index tag : Nat}
    (h : lookup w addr = .ok ((block_addr, index, tag), none)) :
    decompose w addr = .ok (block_addr, index, tag) ∧
    hitCheck w.cache.sets index tag w.cache.ways.toNat 0 = .ok none := by
  unfold lookup at h
  cases hd : decompose w addr with
  | error e => simp [hd] at h
  | ok d =>
    obtain ⟨blk, idx, tg⟩ := d
    simp only [hd] at h
    cases hh : hitCheck w.cache.sets idx tg w.cache.ways.toNat 0 with
    | error e => simp [hh] at h
    | ok r =>
      simp only [hh, Except.ok.injEq, Prod.mk.injEq] at h
      obtain ⟨⟨h1, h2, h3⟩, h4⟩ := h
      subst h1 h2 h3 h4
      exact ⟨rfl, hh⟩

/-- What `findWay` returns: a slot of the indexed set that is either the first
invalid way, or the eviction candidate of a set without invalid way, in which
case a dirty candidate is written back under `WRITE_BACK`. -/
theorem findWay_spec {w w2 : Machine} {index rnd way : Nat}
    (h : findWay w index rnd = .ok (way, w2)) :
    ∃ row b, w.cache.sets[index]? = some row ∧ row[way]? = some b ∧
      ((emptyCheck w.cache.sets index w.cache.ways.toNat 0 = .ok (some way) ∧
          b.valid = false ∧ w2 = w) ∨
       (emptyCheck w.cache.sets index w.cache.ways.toNat 0 = .ok none ∧
          chooseVictim w index rnd = .ok (some way) ∧
          w2 = if b.dirty = true ∧ w.config.write_policy = "WRITE_BACK" then w.countWrite
               else w)) := by
  unfold findWay at h
  cases he : emptyCheck w.cache.sets index w.cache.ways.toNat 0 with
  | error e => simp [he] at h
  | ok r =>
    cases r with
    | some k =>
      simp only [he, Except.ok.injEq, Prod.mk.injEq] at h
      obtain ⟨h1, h2⟩ := h
      subst h1 h2
      obtain ⟨row, hrow⟩ := firstWay_some_row he
      obtain ⟨_, _, ⟨b, hb, hp⟩, _⟩ := firstWay_spec hrow _ _ _ he
      exact ⟨row, b, hrow, hb, Or.inl ⟨rfl, by simpa [isEmpty] using hp, rfl⟩⟩
    | none =>
      simp only [he] at h
      cases hv : chooseVictim w index rnd with
      | error e => simp [hv] at h
      | ok v =>
        cases v with
        | none => simp [hv] at h
        | some k =>
          simp only [hv] at h
          cases hs : readSlot w.cache.sets index k with
          | error e => simp [hs] at h
          | ok b =>
            simp only [hs] at h
            obtain ⟨row, hrow, hb⟩ := readSlot_ok.mp hs
            by_cases hc : b.dirty = true ∧ w.config.write_policy = "WRITE_BACK"
            · simp only [hc, and_self, if_true, Except.ok.injEq, Prod.mk.injEq] at h
              obtain ⟨h1, h2⟩ := h
              subst h1 h2
              exact ⟨row, b, hrow, hb, Or.inr ⟨rfl, rfl, by simp [hc]⟩⟩
            · simp only [hc, if_false, Except.ok.injEq, Prod.mk.injEq] at h
              obtain ⟨h1, h2⟩ := h
              subst h1 h2
              exact ⟨row, b, hrow, hb, Or.inr ⟨rfl, rfl, by simp [hc]⟩⟩

/-! ## Projections of the bookkeeping steps -/

@[simp] theorem counted_config (w : Machine) (t : Char) (h : Bool) :
    (counted w t h).config = w.config := rfl
@[simp] theorem counted_cache (w : Machine) (t : Char) (h : Bool) :
    (counted w t h).cache = w.cache := rfl
@[simp] theorem counted_time (w : Machine) (t : Char) (h : Bool) :
    (counted w t h).global_time = w.global_time + 1 := rfl
@[simp] theorem counted_seen (w : Machine) (t : Char) (h : Bool) :
    (counted w t h).seen_blocks = w.seen_blocks := rfl
@[simp] theorem counted_stats (w : Machine) (t : Char) (h : Bool) :
    (counted w t h).stats = countAccess w.stats t h := rfl

@[simp] theorem classifyMiss_config (w : Machine) (b : Nat) :
    (classifyMiss w b).config = w.config := by
  unfold classifyMiss; split <;> [split; skip] <;> rfl
@[simp] theorem classifyMiss_cache (w : Machine) (b : Nat) :
    (classifyMiss w b).cache = w.cache := by
  unfold classifyMiss; split <;> [split; skip] <;> rfl
@[simp] theorem classifyMiss_time (w : Machine) (b : Nat) :
    (classifyMiss w b).global_time = w.global_time := by
  unfold classifyMiss; split <;> [split; skip] <;> rfl

@[simp] theorem countWrite_config (w : Machine) : w.countWrite.config = w.config := rfl
@[simp] theorem countWrite_cache (w : Machine) : w.countWrite.cache = w.cache := rfl
@[simp] theorem countWrite_time (w : Machine) : w.countWrite.global_time = w.global_time := rfl
@[simp] theorem countWrite_seen (w : Machine) : w.countWrite.seen_blocks = w.seen_blocks := rfl
@[simp] theorem countRead_config (w : Machine) : w.countRead.config = w.config := rfl
@[simp] theorem countRead_cache (w : Machine) : w.countRead.cache = w.cache := rfl
@[simp] theorem countRead_time (w : Machine) : w.countRead.global_time = w.global_time := rfl
@[simp] theorem countRead_seen (w : Machine) : w.countRead.seen_blocks = w.seen_blocks := rfl

@[simp] theorem withSets_config (w : Machine) (s : List (List CacheBlock)) :
    (w.withSets s).config = w.config := rfl
@[simp] theorem withSets_sets (w : Machine) (s : List (List CacheBlock)) :
    (w.withSets s).cache.sets = s := rfl
@[simp] theorem withSets_num_sets (w : Machine) (s : List (List CacheBlock)) :
    (w.withSets s).cache.num_sets = w.cache.num_sets := rfl
@[simp] theorem withSets_ways (w : Machine) (s : List (List CacheBlock)) :
    (w.withSets s).cache.ways = w.cache.ways := rfl
@[simp] theorem withSets_time (w : Machine) (s : List (List CacheBlock)) :
    (w.withSets s).global_time = w.global_time := rfl
@[simp] theorem withSets_seen (w : Machine) (s : List (List CacheBlock)) :
    (w.withSets s).seen_blocks = w.seen_blocks := rfl
@[simp] theorem withSets_stats (w : Machine) (s : List (List CacheBlock)) :
    (w.withSets s).stats = w.stats := rfl

@[simp] theorem putSlot_config (w : Machine) (i k : Nat) (row : List CacheBlock)
    (b : CacheBlock) (wt : Bool) : (w.putSlot i k row b wt).config = w.config := by
  unfold Machine.putSlot; split <;> rfl
@[simp] theorem putSlot_sets (w : Machine) (i k : Nat) (row : List CacheBlock)
    (b : CacheBlock) (wt : Bool) :
    (w.putSlot i k row b wt).cache.sets = w.cache.sets.set i (row.set k b) := by
  unfold Machine.putSlot; split <;> rfl
@[simp] theorem putSlot_num_sets (w : Machine) (i k : Nat) (row : List CacheBlock)
    (b : CacheBlock) (wt : Bool) :
    (w.putSlot i k row b wt).cache.num_sets = w.cache.num_sets := by
  unfold Machine.putSlot; split <;> rfl
@[simp] theorem putSlot_ways (w : Machine) (i k : Nat) (row : List CacheBlock)
    (b : CacheBlock) (wt : Bool) : (w.putSlot i k row b wt).cache.ways = w.cache.ways := by
  unfold Machine.putSlot; split <;> rfl
@[simp] theorem putSlot_time (w : Machine) (i k : Nat) (row : List CacheBlock)
    (b : CacheBlock) (wt : Bool) : (w.putSlot i k row b wt).global_time = w.global_time := by
  unfold Machine.putSlot; split <;> rfl
@[simp] theorem putSlot_seen (w : Machine) (i k : Nat) (row : List CacheBlock)
    (b : CacheBlock) (wt : Bool) : (w.putSlot i k row b wt).seen_blocks = w.seen_blocks := by
  unfold Machine.putSlot; split <;> rfl

@[simp] theorem missBase_config (w : Machine) (t : Char) (b : Nat) :
    (missBase w t b).config = w.config := by simp [missBase]
@[simp] theorem missBase_cache (w : Machine) (t : Char) (b : Nat) :
    (missBase w t b).cache = w.cache := by simp [missBase]
@[simp] theorem missBase_time (w : Machine) (t : Char) (b : Nat) :
    (missBase w t b).global_time = w.global_time + 1 := by simp [missBase]

@[simp] theorem evictCount_config (w : Machine) (b : CacheBlock) :
    (evictCount w b).config = w.config := by
  unfold evictCount; split <;> rfl
@[simp] theorem evictCount_cache (w : Machine) (b : CacheBlock) :
    (evictCount w b).cache = w.cache := by
  unfold evictCount; split <;> rfl
@[simp] theorem evictCount_time (w : Machine) (b : CacheBlock) :
    (evictCount w b).global_time = w.global_time := by
  unfold evictCount; split <;> rfl
@[simp] theorem evictCount_seen (w : Machine) (b : CacheBlock) :
    (evictCount w b).seen_blocks = w.seen_blocks := by
  unfold evictCount; split <;> rfl

theorem chooseVictim_congr {w : Machine} (w2 : Machine) (hc : w.config = w2.config)
    (hs : w.cache = w2.cache) (index rnd : Nat) :
    chooseVictim w index rnd = chooseVictim w2 index rnd := by
  unfold chooseVictim
  rw [hc, hs]

/-- The outcomes of a completed access: a hit on a slot, a store miss without
allocation, or a miss that installs, either into the first invalid way or over
the eviction candidate of a set without invalid way. -/
theorem access_cases {w w1 : Machine} {type : Char} {addr rnd : Nat}
    (h : access w type addr rnd = .ok w1) :
    ∃ blk idx tag, decompose w addr = .ok (blk, idx, tag) ∧
      ((∃ way row b, lookup w addr = .ok ((blk, idx, tag), some way) ∧
          w.cache.sets[idx]? = some row ∧ row[way]? = some b ∧ isHit tag b = true ∧
          w1 = (counted w type true).putSlot idx way row
            (hitBlock w.config type (w.global_time + 1) b)
            (decide (type = 'W' ∧ w.config.write_policy = "WRITE_THROUGH"))) ∨
       (lookup w addr = .ok ((blk, idx, tag), none) ∧
          (type = 'W' ∧ w.config.write_allocate = 0) ∧
          w1 = (missBase w type blk).countWrite) ∨
       (lookup w addr = .ok ((blk, idx, tag), none) ∧
          ¬ (type = 'W' ∧ w.config.write_allocate = 0) ∧
          ∃ way row b, w.cache.sets[idx]? = some row ∧ row[way]? = some b ∧
            ((emptyCheck w.cache.sets idx w.cache.ways.toNat 0 = .ok (some way) ∧
                b.valid = false ∧
                w1 = ((missBase w type blk).countRead).putSlot idx way row
                  (installedBlock w.config type tag (w.global_time + 1))
                  (decide (type = 'W' ∧ w.config.write_policy = "WRITE_THROUGH"))) ∨
             (emptyCheck w.cache.sets idx w.cache.ways.toNat 0 = .ok none ∧
                chooseVictim w idx rnd = .ok (some way) ∧
                w1 = (evictCount (missBase w type blk).countRead b).putSlot idx way row
                  (installedBlock w.config type tag (w.global_time + 1))
                  (decide (type = 'W' ∧ w.config.write_policy = "WRITE_THROUGH")))))) := by
  rw [access_eq] at h
  cases hl : lookup w addr with
  | error e => simp [hl] at h
  | ok v =>
    obtain ⟨⟨blk, idx, tag⟩, hw⟩ := v
    cases hw with
    | some way =>
      simp only [hl] at h
      obtain ⟨hd, row, b, hrow, hb, hp, _, _⟩ := lookup_hit hl
      refine ⟨blk, idx, tag, hd, Or.inl ⟨way, row, b, rfl, hrow, hb, hp, ?_⟩⟩
      have e := @hitCase_eq (counted w type true) type idx way row b (by simpa using hrow) hb
      rw [e] at h
      simp only [Except.ok.injEq] at h
      rw [← h]
      simp
    | none =>
      simp only [hl] at h
      obtain ⟨hd, _⟩ := lookup_miss hl
      refine ⟨blk, idx, tag, hd, Or.inr ?_⟩
      unfold missCase at h
      by_cases hc : type = 'W' ∧ w.config.write_allocate = 0
      · left
        refine ⟨rfl, hc, ?_⟩
        simp only [classifyMiss_config, counted_config, hc, and_self, if_true,
          Except.ok.injEq] at h
        rw [← h]; simp [missBase, hc.1]
      · right
        refine ⟨rfl, hc, ?_⟩
        simp only [classifyMiss_config, counted_config, hc, if_false] at h
        cases hf : findWay (classifyMiss (counted w type false) blk).countRead idx rnd with
        | error e => simp [hf] at h
        | ok r =>
          obtain ⟨way, w2⟩ := r
          simp only [hf] at h
          obtain ⟨row, b, hrow, hb, hcase⟩ := findWay_spec hf
          simp only [countRead_cache, classifyMiss_cache, counted_cache] at hrow hcase
          refine ⟨way, row, b, hrow, hb, ?_⟩
          rcases hcase with ⟨he, hv, hw2⟩ | ⟨he, hv, hw2⟩
          · left
            subst hw2
            rw [install_eq (by simpa using hrow) hb] at h
            simp only [Except.ok.injEq] at h
            refine ⟨he, hv, ?_⟩
            rw [← h]
            simp [missBase]
          · right
            have hv2 : chooseVictim w idx rnd = .ok (some way) := by
              rw [← hv]
              exact chooseVictim_congr _ (by simp) (by simp) idx rnd
            have hw3 : w2 = evictCount (missBase w type blk).countRead b := by
              rw [hw2]; simp [evictCount, missBase]
            subst hw3
            rw [install_eq (by simpa using hrow) hb] at h
            simp only [Except.ok.injEq] at h
            refine ⟨he, hv2, ?_⟩
            rw [← h]
            simp [missBase]

/-! ## Geometry: the shape invariant and the absence of faults -/

theorem WF.toU32_num_sets {w : Machine} (h : WF w) :
    toU32 w.cache.num_sets = w.cache.num_sets.toNat := by
  unfold toU32
  have h1 := h.num_sets_pos
  have h2 := h.num_sets_u32
  rw [Int.emod_eq_of_lt (by omega) h2]

theorem WF.row_of {w : Machine} (h : WF w) {index : Nat} {row : List CacheBlock}
    (hr : w.cache.sets[index]? = some row) : row.length = w.cache.ways.toNat :=
  h.row_length row (List.getElem?_mem hr)

/-- The decomposition of an address, in closed form. -/
theorem decompose_eq {w : Machine} (h : WF w) (addr : Nat) :
    decompose w addr = .ok (addr / toU32 w.config.block_size,
      (if w.config.associativity = 0 then 0
        else (addr / toU32 w.config.block_size) % w.cache.num_sets.toNat),
      (if w.config.associativity = 0 then addr / toU32 w.config.block_size
        else (addr / toU32 w.config.block_size) / w.cache.num_sets.toNat)) := by
  have h0 := h.block_size
  have h1 := h.num_sets_pos
  have h2 : toU32 w.cache.num_sets ≠ 0 := by rw [h.toU32_num_sets]; omega
  unfold decompose get_block_address
  simp only [h0, if_false, h2]
  by_cases ha : w.config.associativity = 0
  · simp [ha]
  · simp [ha, h.toU32_num_sets]

theorem decompose_index_lt {w : Machine} (h : WF w) {addr blk idx tag : Nat}
    (hd : decompose w addr = .ok (blk, idx, tag)) : idx < w.cache.sets.length := by
  rw [decompose_eq h] at hd
  simp only [Except.ok.injEq, Prod.mk.injEq] at hd
  obtain ⟨_, h2, _⟩ := hd
  have h1 := h.num_sets_pos
  rw [h.sets_length, ← h2]
  split
  · omega
  · exact Nat.mod_lt _ (by omega)

theorem shape_set {sets : List (List CacheBlock)} {n index way : Nat} {row : List CacheBlock}
    {b : CacheBlock} (hs : ∀ r ∈ sets, r.length = n) (hr : sets[index]? = some row) :
    ∀ r ∈ sets.set index (row.set way b), r.length = n := by
  intro r hmem
  rcases List.mem_or_eq_of_mem_set hmem with h1 | h1
  · exact hs r h1
  · rw [h1, List.length_set]
    exact hs row (List.getElem?_mem hr)

/-- What every completed access leaves alone: the configuration, the geometry
members, and the clock advanced by one. -/
theorem access_frame {w w1 : Machine} {type : Char} {addr rnd : Nat}
    (h : access w type addr rnd = .ok w1) :
    w1.config = w.config ∧ w1.cache.num_sets = w.cache.num_sets ∧
      w1.cache.ways = w.cache.ways ∧ w1.global_time = w.global_time + 1 := by
  obtain ⟨blk, idx, tag, _, hc⟩ := access_cases h
  rcases hc with ⟨way, row, b, _, _, _, _, e⟩ | ⟨_, _, e⟩ |
    ⟨_, _, way, row, b, _, _, ⟨_, _, e⟩ | ⟨_, _, e⟩⟩ <;> subst e <;> simp

/-- The shape invariant is kept by every completed access. -/
theorem access_wf {w w1 : Machine} {type : Char} {addr rnd : Nat} (hw : WF w)
    (h : access w type addr rnd = .ok w1) : WF w1 := by
  obtain ⟨hcfg, hns, hwy, _⟩ := access_frame h
  have key : w1.cache.sets.length = w.cache.sets.length ∧
      ∀ r ∈ w1.cache.sets, r.length = w.cache.ways.toNat := by
    obtain ⟨blk, idx, tag, _, hc⟩ := access_cases h
    rcases hc with ⟨way, row, b, _, hrow, _, _, e⟩ | ⟨_, _, e⟩ |
      ⟨_, _, way, row, b, hrow, _, ⟨_, _, e⟩ | ⟨_, _, e⟩⟩ <;> subst e
    · simp only [putSlot_sets, counted_cache, List.length_set, true_and]
      exact shape_set hw.row_length hrow
    · simp only [countWrite_cache, missBase_cache, true_and]
      exact hw.row_length
    · simp only [putSlot_sets, countRead_cache, missBase_cache, List.length_set, true_and]
      exact shape_set hw.row_length hrow
    · simp only [putSlot_sets, evictCount_cache, countRead_cache, missBase_cache,
        List.length_set, true_and]
      exact shape_set hw.row_length hrow
  exact {
    block_size := by rw [hcfg]; exact hw.block_size
    num_sets_pos := by rw [hns]; exact hw.num_sets_pos
    num_sets_u32 := by rw [hns]; exact hw.num_sets_u32
    ways_pos := by rw [hwy]; exact hw.ways_pos
    sets_length := by rw [key.1, hns]; exact hw.sets_length
    row_length := by rw [hwy]; exact key.2 }

theorem lookup_total {w : Machine} (h : WF w) (addr : Nat) :
    ∃ blk idx tag hw row, lookup w addr = .ok ((blk, idx, tag), hw) ∧
      decompose w addr = .ok (blk, idx, tag) ∧ w.cache.sets[idx]? = some row := by
  obtain ⟨blk, idx, tag, hd⟩ : ∃ blk idx tag, decompose w addr = .ok (blk, idx, tag) :=
    ⟨_, _, _, decompose_eq h addr⟩
  have hlt := decompose_index_lt h hd
  have hrow : w.cache.sets[idx]? = some w.cache.sets[idx] := List.getElem?_eq_getElem hlt
  obtain ⟨r, hr⟩ := firstWay_total (p := isHit tag) hrow w.cache.ways.toNat 0
    (by rw [h.row_of hrow]; omega)
  refine ⟨blk, idx, tag, r, _, ?_, hd, hrow⟩
  unfold lookup
  rw [hd]
  simp only [hitCheck, hr]

/-- In a well-shaped machine the eviction candidate exists for every policy
and every random draw, and is a way of the set. -/
theorem chooseVictim_total {w : Machine} (h : WF w) {index : Nat} {row : List CacheBlock}
    (hrow : w.cache.sets[index]? = some row) (rnd : Nat) :
    ∃ k, chooseVictim w index rnd = .ok (some k) ∧ k < row.length := by
  have hlen := h.row_of hrow
  have hw := h.ways_pos
  have hpos : 0 < row.length := by omega
  unfold chooseVictim
  by_cases h1 : w.config.replacement_policy = "LRU"
  · obtain ⟨m, k, hk, hlt⟩ := minScan_range CacheBlock.last_access_time hrow hpos
    rw [hlen] at hk
    exact ⟨k, by simp [h1, hk], hlt⟩
  · by_cases h2 : w.config.replacement_policy = "FIFO"
    · obtain ⟨m, k, hk, hlt⟩ := minScan_range CacheBlock.insertion_time hrow hpos
      rw [hlen] at hk
      exact ⟨k, by simp [h1, h2, hk], hlt⟩
    · have h3 : w.cache.ways ≠ 0 := by omega
      refine ⟨(Int.tmod (rnd : Int) w.cache.ways).toNat,
        by simp only [h1, h2, h3, if_false], ?_⟩
      have a1 : 0 ≤ Int.tmod (rnd : Int) w.cache.ways := Int.tmod_nonneg _ (by omega)
      have a2 : Int.tmod (rnd : Int) w.cache.ways < w.cache.ways :=
        Int.tmod_lt_of_pos _ (by omega)
      omega

/-- A well-shaped machine completes every access: no division by zero and no
index outside the vectors, whatever the operation, address and random draw. -/
theorem access_total {w : Machine} (h : WF w) (type : Char) (addr rnd : Nat) :
    ∃ w1, access w type addr rnd = .ok w1 := by
  obtain ⟨blk, idx, tag, hw, row, hl, hd, hrow⟩ := lookup_total h addr
  have hlen := h.row_of hrow
  rw [access_eq, hl]
  cases hw with
  | some way =>
    obtain ⟨_, row2, b, hrow2, hb, _⟩ := lookup_hit hl
    exact ⟨_, hitCase_eq (w := counted w type true) (by simpa using hrow2) hb⟩
  | none =>
    simp only
    unfold missCase
    by_cases hc : type = 'W' ∧ w.config.write_allocate = 0
    · exact ⟨(classifyMiss (counted w type false) blk).countWrite,
        by simp only [classifyMiss_config, counted_config, hc, and_self, if_true]⟩
    · simp only [classifyMiss_config, counted_config, hc, if_false]
      have hrow3 : (classifyMiss (counted w type false) blk).countRead.cache.sets[idx]? =
          some row := by simpa using hrow
      have hfw : ∃ way w2, findWay (classifyMiss (counted w type false) blk).countRead idx rnd
          = .ok (way, w2) := by
        unfold findWay
        obtain ⟨r, hr⟩ := firstWay_total (p := isEmpty) hrow3
          (classifyMiss (counted w type false) blk).countRead.cache.ways.toNat 0
          (by simp [hlen])
        simp only [emptyCheck, hr]
        cases r with
        | some k => exact ⟨k, _, rfl⟩
        | none =>
          obtain ⟨k, hk, hlt⟩ := chooseVictim_total h hrow rnd
          rw [chooseVictim_congr (classifyMiss (counted w type false) blk).countRead
            (by simp) (by simp)] at hk
          simp only [hk, readSlot_row hrow3, List.getElem?_eq_getElem hlt]
          split <;> exact ⟨_, _, rfl⟩
      obtain ⟨way, w2, hf⟩ := hfw
      simp only [hf]
      obtain ⟨row4, b, hrow4, hb, hcase⟩ := findWay_spec hf
      have hw2 : w2.cache.sets[idx]? = some row4 := by
        rcases hcase with ⟨_, _, e⟩ | ⟨_, _, e⟩
        · rw [e]; exact hrow4
        · rw [e]; split <;> exact hrow4
      exact ⟨_, install_eq hw2 hb⟩

/-- The replay of any trace from a well-shaped machine completes, and ends
well-shaped. -/
theorem run_total {w : Machine} (h : WF w) (tr : List Access) :
    ∃ w1, run w tr = .ok w1 ∧ WF w1 := by
  induction tr generalizing w with
  | nil => exact ⟨w, rfl, h⟩
  | cons a rest ih =>
    obtain ⟨w1, h1⟩ := access_total h a.type a.addr a.rnd
    obtain ⟨w2, h2, h3⟩ := ih (access_wf h h1)
    exact ⟨w2, by simp only [run, h1, h2], h3⟩

/-- Induction rule for the replay: a property kept by every completed access
holds after every completed run. -/
theorem run_induct (P : Machine → Prop)
    (hstep : ∀ w w1 type addr rnd, P w → access w type addr rnd = .ok w1 → P w1) :
    ∀ (tr : List Access) (w w1 : Machine), P w → run w tr = .ok w1 → P w1 := by
  intro tr
  induction tr with
  | nil =>
    intro w w1 hP h
    simp only [run, Except.ok.injEq] at h
    exact h ▸ hP
  | cons a rest ih =>
    intro w w1 hP h
    rw [run] at h
    cases ha : access w a.type a.addr a.rnd with
    | error e => simp [ha] at h
    | ok w2 =>
      simp only [ha] at h
      exact ih w2 w1 (hstep w w2 _ _ _ hP ha) h

/-! ## The start state -/

theorem intDiv_ok {a b q : Int} (h : intDiv a b = .ok q) :
    b ≠ 0 ∧ q = a.tdiv b ∧ isInt32 q := by
  unfold intDiv at h
  by_cases hb : b = 0
  · simp [hb] at h
  · by_cases hq : isInt32 (a.tdiv b)
    · simp only [hb, hq, if_false, if_true, Except.ok.injEq] at h
      exact ⟨hb, h.symm, h ▸ hq⟩
    · simp [hb, hq] at h

theorem intMul_ok {a b d : Int} (h : intMul a b = .ok d) : d = a * b := by
  unfold intMul at h
  by_cases hq : isInt32 (a * b)
  · simp only [hq, if_true, Except.ok.injEq] at h
    exact h.symm
  · simp [hq] at h

theorem geometry_ok {cfg : Config} {ns wy : Int} (h : geometry cfg = .ok (ns, wy)) :
    cfg.block_size ≠ 0 ∧ ns < 4294967296 ∧
      ((cfg.associativity = 0 ∧ ns = 1 ∧ wy = cfg.cache_size.tdiv cfg.block_size) ∨
       (cfg.associativity ≠ 0 ∧ wy = cfg.associativity ∧
          ns = cfg.cache_size.tdiv (cfg.block_size * cfg.associativity))) := by
  unfold geometry at h
  by_cases ha : cfg.associativity = 0
  · simp only [ha, if_true] at h
    cases hd : intDiv cfg.cache_size cfg.block_size with
    | error e => simp [hd] at h
    | ok q =>
      simp only [hd, Except.ok.injEq, Prod.mk.injEq] at h
      obtain ⟨h1, h2, _⟩ := intDiv_ok hd
      obtain ⟨e1, e2⟩ := h
      subst e1 e2
      exact ⟨h1, by omega, Or.inl ⟨ha, rfl, h2⟩⟩
  · simp only [ha, if_false] at h
    cases hm : intMul cfg.block_size cfg.associativity with
    | error e => simp [hm] at h
    | ok d =>
      simp only [hm] at h
      cases hd : intDiv cfg.cache_size d with
      | error e => simp [hd] at h
      | ok q =>
        simp only [hd, Except.ok.injEq, Prod.mk.injEq] at h
        obtain ⟨h1, h2, h3⟩ := intDiv_ok hd
        have hm2 := intMul_ok hm
        obtain ⟨e1, e2⟩ := h
        subst e1 e2
        refine ⟨?_, ?_, Or.inr ⟨ha, rfl, by rw [h2, hm2]⟩⟩
        · intro hb
          rw [hm2, hb] at h1
          simp at h1
        · unfold isInt32 at h3
          omega

/-- The start state, unfolded. -/
theorem start_ok {cfg : Config} {w0 : Machine} (h : start cfg = .ok w0) :
    ∃ ns wy, geometry cfg = .ok (ns, wy) ∧ 0 ≤ ns ∧ 0 ≤ wy ∧
      w0 = { config := cfg, stats := {}, global_time := 0, seen_blocks := [],
             cache := { sets := List.replicate ns.toNat (List.replicate wy.toNat {}),
                        num_sets := ns, ways := wy } } := by
  unfold start CacheSimulator.construct at h
  cases hg : geometry cfg with
  | error e => simp [hg] at h
  | ok g =>
    obtain ⟨ns, wy⟩ := g
    simp only [hg] at h
    by_cases h1 : wy < 0
    · simp [h1] at h
    · by_cases h2 : ns < 0
      · simp [h1, h2] at h
      · simp only [h1, h2, if_false, Except.ok.injEq] at h
        exact ⟨ns, wy, rfl, by omega, by omega, h.symm⟩

/-- The start state of a representable configuration with at least one set and
one way is well shaped. -/
theorem start_wf {cfg : Config} {w0 : Machine} (hrep : cfg.representable)
    (h : start cfg = .ok w0) (hns : 1 ≤ w0.cache.num_sets) (hwy : 1 ≤ w0.cache.ways) :
    WF w0 := by
  obtain ⟨ns, wy, hg, h1, h2, e⟩ := start_ok h
  obtain ⟨hb, hlt, _⟩ := geometry_ok hg
  subst e
  simp only at hns hwy
  exact {
    block_size := by
      obtain ⟨_, ⟨hb1, hb2⟩, _⟩ := hrep
      simp only [toU32]
      omega
    num_sets_pos := hns
    num_sets_u32 := hlt
    ways_pos := hwy
    sets_length := by simp
    row_length := by
      intro row hrow
      rw [List.eq_of_mem_replicate hrow]
      simp }

theorem start_stats {cfg : Config} {w0 : Machine} (h : start cfg = .ok w0) :
    w0.stats = {} ∧ w0.seen_blocks = [] ∧ w0.global_time = 0 ∧ w0.config = cfg := by
  obtain ⟨ns, wy, _, _, _, e⟩ := start_ok h
  subst e
  exact ⟨rfl, rfl, rfl, rfl⟩

/-! ## Slots of reachable states -/

theorem holds_of_slot {w : Machine} {index way : Nat} {row : List CacheBlock} {b : CacheBlock}
    (hrow : w.cache.sets[index]? = some row) (hb : row[way]? = some b) : w.holds b :=
  ⟨row, List.getElem?_mem hrow, List.getElem?_mem hb⟩

theorem mem_set_set {sets : List (List CacheBlock)} {index way : Nat} {row r : List CacheBlock}
    {b c : CacheBlock} (hrow : sets[index]? = some row)
    (hr : r ∈ sets.set index (row.set way b)) (hc : c ∈ r) :
    (∃ r0 ∈ sets, c ∈ r0) ∨ c = b := by
  rcases List.mem_or_eq_of_mem_set hr with h1 | h1
  · exact Or.inl ⟨r, h1, hc⟩
  · subst h1
    rcases List.mem_or_eq_of_mem_set hc with h2 | h2
    · exact Or.inl ⟨row, List.getElem?_mem hrow, h2⟩
    · exact Or.inr h2

/-- Where the slots of the state after an access come from: a slot is an old
slot, or the hit slot after the hit handling, or the installed block. -/
theorem access_holds {w w1 : Machine} {type : Char} {addr rnd : Nat}
    (h : access w type addr rnd = .ok w1) {c : CacheBlock} (hc : w1.holds c) :
    w.holds c ∨
    (∃ b, w.holds b ∧ b.valid = true ∧ c = hitBlock w.config type (w.global_time + 1) b) ∨
    (∃ tag, ¬ (type = 'W' ∧ w.config.write_allocate = 0) ∧
      c = installedBlock w.config type tag (w.global_time + 1)) := by
  obtain ⟨r, hr, hcr⟩ := hc
  obtain ⟨blk, idx, tag, _, hcase⟩ := access_cases h
  rcases hcase with ⟨way, row, b, _, hrow, hb, hp, e⟩ | ⟨_, _, e⟩ |
    ⟨_, hna, way, row, b, hrow, hb, ⟨_, _, e⟩ | ⟨_, _, e⟩⟩ <;> subst e
  · simp only [putSlot_sets, counted_cache] at hr
    rcases mem_set_set hrow hr hcr with h1 | h1
    · exact Or.inl h1
    · refine Or.inr (Or.inl ⟨b, holds_of_slot hrow hb, ?_, h1⟩)
      simp only [isHit, Bool.and_eq_true] at hp
      exact hp.1
  · simp only [countWrite_cache, missBase_cache] at hr
    exact Or.inl ⟨r, hr, hcr⟩
  · simp only [putSlot_sets, countRead_cache, missBase_cache] at hr
    rcases mem_set_set hrow hr hcr with h1 | h1
    · exact Or.inl h1
    · exact Or.inr (Or.inr ⟨tag, hna, h1⟩)
  · simp only [putSlot_sets, evictCount_cache, countRead_cache, missBase_cache] at hr
    rcases mem_set_set hrow hr hcr with h1 | h1
    · exact Or.inl h1
    · exact Or.inr (Or.inr ⟨tag, hna, h1⟩)

/-- Frame of a completed replay. -/
theorem run_frame {w w1 : Machine} {tr : List Access} (h : run w tr = .ok w1) :
    w1.config = w.config ∧ w1.cache.num_sets = w.cache.num_sets ∧
      w1.cache.ways = w.cache.ways ∧ w1.global_time = w.global_time + tr.length := by
  induction tr generalizing w with
  | nil =>
    simp only [run, Except.ok.injEq] at h
    subst h
    simp
  | cons a rest ih =>
    rw [run] at h
    cases ha : access w a.type a.addr a.rnd with
    | error e => simp [ha] at h
    | ok w2 =>
      simp only [ha] at h
      obtain ⟨h1, h2, h3, h4⟩ := ih h
      obtain ⟨g1, g2, g3, g4⟩ := access_frame ha
      refine ⟨by rw [h1, g1], by rw [h2, g2], by rw [h3, g3], ?_⟩
      rw [h4, g4, List.length_cons]
      push_cast
      omega

theorem reachable_config {cfg : Config} {w : Machine} (h : Reachable cfg w) :
    w.config = cfg := by
  obtain ⟨w0, tr, h0, hr⟩ := h
  rw [(run_frame hr).1, (start_stats h0).2.2.2]

/-- Reachable states with at least one set and one way are well shaped. -/
theorem reachable_wf {cfg : Config} {w : Machine} (hrep : cfg.representable)
    (h : Reachable cfg w) (hns : 1 ≤ w.cache.num_sets) (hwy : 1 ≤ w.cache.ways) : WF w := by
  obtain ⟨w0, tr, h0, hr⟩ := h
  obtain ⟨_, h2, h3, _⟩ := run_frame hr
  have hw0 : WF w0 := start_wf hrep h0 (by rw [← h2]; exact hns) (by rw [← h3]; exact hwy)
  obtain ⟨w2, hr2, hw2⟩ := run_total hw0 tr
  rw [hr] at hr2
  cases hr2
  exact hw2

theorem access_stamped {w w1 : Machine} {type : Char} {addr rnd : Nat} (hs : Stamped w)
    (h : access w type addr rnd = .ok w1) : Stamped w1 := by
  obtain ⟨h0, hall⟩ := hs
  obtain ⟨_, _, _, ht⟩ := access_frame h
  refine ⟨by omega, ?_⟩
  intro c hc
  rw [ht]
  rcases access_holds h hc with h1 | ⟨b, hb, _, e⟩ | ⟨tag, _, e⟩
  · have := hall c h1
    omega
  · have := hall b hb
    subst e
    simp only [hitBlock]
    split <;> omega
  · subst e
    simp only [installedBlock, newBlock]
    omega

theorem start_holds {cfg : Config} {w0 : Machine} (h : start cfg = .ok w0) {c : CacheBlock}
    (hc : w0.holds c) : c = {} := by
  obtain ⟨ns, wy, _, _, _, e⟩ := start_ok h
  subst e
  obtain ⟨row, hrow, hmem⟩ := hc
  simp only at hrow
  rw [List.eq_of_mem_replicate hrow] at hmem
  exact List.eq_of_mem_replicate hmem

theorem reachable_stamped {cfg : Config} {w : Machine} (h : Reachable cfg w) : Stamped w := by
  obtain ⟨w0, tr, h0, hr⟩ := h
  refine run_induct Stamped (fun _ _ _ _ _ hs ha => access_stamped hs ha) tr w0 w ?_ hr
  refine ⟨by rw [(start_stats h0).2.2.1], ?_⟩
  intro c hc
  rw [start_holds h0 hc, (start_stats h0).2.2.1]
  simp

/-! ## Eviction -/

/-- In a well-shaped state a miss that installs into a set without invalid way
completes, and overwrites the eviction candidate of the configured policy. -/
theorem access_evict {w : Machine} (hw : WF w) {type : Char} {addr blk idx tag : Nat}
    (rnd : Nat) {row : List CacheBlock}
    (hl : lookup w addr = .ok ((blk, idx, tag), none))
    (hna : ¬ (type = 'W' ∧ w.config.write_allocate = 0))
    (hrow : w.cache.sets[idx]? = some row) (hfull : ∀ b ∈ row, b.valid = true) :
    ∃ k b, chooseVictim w idx rnd = .ok (some k) ∧ row[k]? = some b ∧
      access w type addr rnd = .ok
        ((evictCount (missBase w type blk).countRead b).putSlot idx k row
          (installedBlock w.config type tag (w.global_time + 1))
          (decide (type = 'W' ∧ w.config.write_policy = "WRITE_THROUGH"))) := by
  obtain ⟨w1, h1⟩ := access_total hw type addr rnd
  obtain ⟨blk2, idx2, tag2, _, hcase⟩ := access_cases h1
  rcases hcase with ⟨way, row2, b, hl2, _⟩ | ⟨_, hc, _⟩ |
    ⟨hl2, _, way, row2, b, hrow2, hb, hcase2⟩
  · rw [hl] at hl2
    simp at hl2
  · exact absurd hc hna
  · rw [hl] at hl2
    simp only [Except.ok.injEq, Prod.mk.injEq, and_true] at hl2
    obtain ⟨e1, e2, e3⟩ := hl2
    subst e1 e2 e3
    rw [hrow] at hrow2
    cases hrow2
    rcases hcase2 with ⟨_, hv, _⟩ | ⟨_, hv, e⟩
    · have := hfull b (List.getElem?_mem hb)
      rw [hv] at this
      cases this
    · exact ⟨way, b, hv, hb, by rw [h1, e]⟩

/-- Under LRU the eviction candidate of a reachable state is the
lowest-indexed way with the minimum `last_access_time` of its set. -/
theorem chooseVictim_lru {w : Machine} (hw : WF w) (hs : Stamped w)
    (hp : w.config.replacement_policy = "LRU") {index : Nat} {row : List CacheBlock}
    (hrow : w.cache.sets[index]? = some row) (rnd k : Nat)
    (hk : chooseVictim w index rnd = .ok (some k)) :
    IsFirstMin CacheBlock.last_access_time row k := by
  have hlen := hw.row_of hrow
  have hwy := hw.ways_pos
  obtain ⟨m, k2, h1, h2⟩ := minScan_firstMin CacheBlock.last_access_time hrow (by omega)
    (by
      intro b hb
      have := (hs.2 b ⟨row, List.getElem?_mem hrow, hb⟩).1
      omega)
  unfold chooseVictim at hk
  rw [hlen] at h1
  simp only [hp, if_true, h1, Except.ok.injEq, Option.some.injEq] at hk
  exact hk ▸ h2

/-- Under FIFO the eviction candidate of a reachable state is the
lowest-indexed way with the minimum `insertion_time` of its set. -/
theorem chooseVictim_fifo {w : Machine} (hw : WF w) (hs : Stamped w)
    (hp : w.config.replacement_policy = "FIFO") {index : Nat} {row : List CacheBlock}
    (hrow : w.cache.sets[index]? = some row) (rnd k : Nat)
    (hk : chooseVictim w index rnd = .ok (some k)) :
    IsFirstMin CacheBlock.insertion_time row k := by
  have hlen := hw.row_of hrow
  have hwy := hw.ways_pos
  obtain ⟨m, k2, h1, h2⟩ := minScan_firstMin CacheBlock.insertion_time hrow (by omega)
    (by
      intro b hb
      have := (hs.2 b ⟨row, List.getElem?_mem hrow, hb⟩).2.2.1
      omega)
  unfold chooseVictim at hk
  rw [hlen] at h1
  have hne : ¬ w.config.replacement_policy = "LRU" := by rw [hp]; decide
  rw [if_neg hne, if_pos hp, h1] at hk
  simp only [Except.ok.injEq, Option.some.injEq] at hk
  exact hk ▸ h2

/-! ## Time stamps and hits -/

theorem stampsOf_set {sets : List (List CacheBlock)} {index way : Nat} {row : List CacheBlock}
    {b c : CacheBlock} (hrow : sets[index]? = some row) (hb : row[way]? = some b)
    (hc : stamps c = stamps b) :
    stampsOf (sets.set index (row.set way c)) = stampsOf sets := by
  unfold stampsOf
  rw [List.map_set, List.map_set, hc, ← hc]
  have h1 : (List.map stamps row)[way]? = some (stamps c) := by
    rw [List.getElem?_map, hb, hc]; rfl
  have h2 : (List.map (List.map stamps) sets)[index]? = some (List.map stamps row) := by
    rw [List.getElem?_map, hrow]; rfl
  have e1 : (List.map stamps row).set way (stamps c) = List.map stamps row := by
    apply List.ext_getElem?
    intro j
    rw [List.getElem?_set]
    by_cases hj : way = j
    · subst hj
      simp only [if_true, getElem?_lt h1, h1]
    · simp only [hj, if_false]
  rw [e1]
  apply List.ext_getElem?
  intro j
  rw [List.getElem?_set]
  by_cases hj : index = j
  · subst hj
    simp only [if_true, getElem?_lt h2, h2]
  · simp only [hj, if_false]

/-- Reading a slot of two caches with the same stamps fails in both or gives
slots with the same stamps. -/
theorem readSlot_stamps {sets sets1 : List (List CacheBlock)} (h : stampsOf sets1 = stampsOf sets)
    (index i : Nat) :
    (∃ e, readSlot sets1 index i = .error e ∧ readSlot sets index i = .error e) ∨
    (∃ b1 b, readSlot sets1 index i = .ok b1 ∧ readSlot sets index i = .ok b ∧
      stamps b1 = stamps b) := by
  have h1 := congrArg (fun l => l[index]?) h
  simp only [stampsOf, List.getElem?_map] at h1
  cases hr1 : sets1[index]? with
  | none =>
    cases hr : sets[index]? with
    | none => exact Or.inl ⟨.outOfRange, by simp [readSlot, hr1], by simp [readSlot, hr]⟩
    | some row => rw [hr1, hr] at h1; cases h1
  | some row1 =>
    cases hr : sets[index]? with
    | none => rw [hr1, hr] at h1; cases h1
    | some row =>
      rw [hr1, hr] at h1
      simp only [Option.map_some', Option.some.injEq] at h1
      have h2 := congrArg (fun l => l[i]?) h1
      simp only [List.getElem?_map] at h2
      rw [readSlot_row hr1, readSlot_row hr]
      cases hb1 : row1[i]? with
      | none =>
        cases hb : row[i]? with
        | none => exact Or.inl ⟨.outOfRange, rfl, rfl⟩
        | some b => rw [hb1, hb] at h2; cases h2
      | some b1 =>
        cases hb : row[i]? with
        | none => rw [hb1, hb] at h2; cases h2
        | some b =>
          rw [hb1, hb] at h2
          simp only [Option.map_some', Option.some.injEq] at h2
          exact Or.inr ⟨b1, b, rfl, rfl, h2⟩

/-- The minimum scan only depends on the stamps. -/
theorem minScan_stamps {key : CacheBlock → Int} {sets sets1 : List (List CacheBlock)}
    (h : stampsOf sets1 = stampsOf sets)
    (hkey : ∀ b1 b, stamps b1 = stamps b → key b1 = key b) (index : Nat) :
    ∀ (n i : Nat) (m : Int) (rw : Option Nat),
      minScan key sets1 index n i m rw = minScan key sets index n i m rw := by
  intro n
  induction n with
  | zero => intro i m rw; rfl
  | succ n ih =>
    intro i m rw
    rw [minScan, minScan]
    rcases readSlot_stamps h index i with ⟨e, h1, h2⟩ | ⟨b1, b, h1, h2, h3⟩
    · rw [h1, h2]
    · rw [h1, h2]
      simp only [hkey b1 b h3, ih]

theorem chooseVictim_stamps {w w1 : Machine} (hc : w1.config = w.config)
    (hw : w1.cache.ways = w.cache.ways)
    (h : stampsOf w1.cache.sets = stampsOf w.cache.sets) (index rnd : Nat) :
    chooseVictim w1 index rnd = chooseVictim w index rnd := by
  unfold chooseVictim
  rw [hc, hw,
    @minScan_stamps CacheBlock.last_access_time _ _ h (fun b1 b hb => congrArg Prod.fst hb) index,
    @minScan_stamps CacheBlock.insertion_time _ _ h (fun b1 b hb => congrArg Prod.snd hb) index]

/-- Closed form of a hit: the access completes and rewrites the hit slot. -/
theorem access_hit {w : Machine} {addr blk idx tag way : Nat} (type : Char) (rnd : Nat)
    (hl : lookup w addr = .ok ((blk, idx, tag), some way)) :
    ∃ row b, w.cache.sets[idx]? = some row ∧ row[way]? = some b ∧ isHit tag b = true ∧
      access w type addr rnd = .ok ((counted w type true).putSlot idx way row
        (hitBlock w.config type (w.global_time + 1) b)
        (decide (type = 'W' ∧ w.config.write_policy = "WRITE_THROUGH"))) := by
  obtain ⟨_, row, b, hrow, hb, hp, _⟩ := lookup_hit hl
  refine ⟨row, b, hrow, hb, hp, ?_⟩
  rw [access_eq, hl]
  exact @hitCase_eq (counted w type true) type idx way row b (by simpa using hrow) hb

/-- Without LRU a hit leaves all stamps as they are. -/
theorem hit_stamps {w w1 : Machine} {type : Char} {addr rnd : Nat} {d : Nat × Nat × Nat}
    {way : Nat} (hp : w.config.replacement_policy ≠ "LRU")
    (hl : lookup w addr = .ok (d, some way)) (h : access w type addr rnd = .ok w1) :
    stampsOf w1.cache.sets = stampsOf w.cache.sets := by
  obtain ⟨blk, idx, tag⟩ := d
  obtain ⟨row, b, hrow, hb, _, hacc⟩ := access_hit type rnd hl
  rw [hacc] at h
  simp only [Except.ok.injEq] at h
  subst h
  simp only [putSlot_sets, counted_cache]
  exact stampsOf_set hrow hb (by simp [stamps, hitBlock, hp])

theorem allHit_stamps {tr : List Access} :
    ∀ {w w1 : Machine}, w.config.replacement_policy ≠ "LRU" → allHit w tr →
      run w tr = .ok w1 → stampsOf w1.cache.sets = stampsOf w.cache.sets := by
  induction tr with
  | nil =>
    intro w w1 _ _ hr
    simp only [run, Except.ok.injEq] at hr
    rw [hr]
  | cons a rest ih =>
    intro w w1 hp hall hr
    obtain ⟨d, way, w2, hl, hacc, hrest⟩ := hall
    rw [run, hacc] at hr
    simp only at hr
    have hp2 : w2.config.replacement_policy ≠ "LRU" := by
      rw [(access_frame hacc).1]; exact hp
    rw [ih hp2 hrest hr, hit_stamps hp hl hacc]

theorem allHit_run {tr : List Access} :
    ∀ {w : Machine}, allHit w tr → ∃ w1, run w tr = .ok w1 := by
  induction tr with
  | nil => intro w _; exact ⟨w, rfl⟩
  | cons a rest ih =>
    intro w hall
    obtain ⟨d, way, w2, _, hacc, hrest⟩ := hall
    obtain ⟨w1, h1⟩ := ih hrest
    exact ⟨w1, by rw [run, hacc]; exact h1⟩

/-! ## Hit, miss and classification counters -/

theorem putSlot_core (w : Machine) (i k : Nat) (row : List CacheBlock) (b : CacheBlock)
    (wt : Bool) : (w.putSlot i k row b wt).stats.core = w.stats.core := by
  unfold Machine.putSlot; split <;> rfl

theorem evictCount_core (w : Machine) (b : CacheBlock) :
    (evictCount w b).stats.core = w.stats.core := by
  unfold evictCount; split <;> rfl

/-- Every completed access changes the counters other than the memory traffic,
and the ledger, exactly as `account` says for its outcome. -/
theorem access_core {w w1 : Machine} {type : Char} {addr rnd : Nat}
    (h : access w type addr rnd = .ok w1) :
    ∃ blk idx tag hw, lookup w addr = .ok ((blk, idx, tag), hw) ∧
      w1.stats.core = (account w type blk hw.isSome).stats.core ∧
      w1.seen_blocks = (account w type blk hw.isSome).seen_blocks ∧
      w1.config = w.config := by
  obtain ⟨blk, idx, tag, _, hc⟩ := access_cases h
  rcases hc with ⟨way, row, b, hl, _, _, _, e⟩ | ⟨hl, _, e⟩ |
    ⟨hl, _, way, row, b, _, _, ⟨_, _, e⟩ | ⟨_, _, e⟩⟩ <;>
    refine ⟨blk, idx, tag, _, hl, ?_⟩ <;> subst e
  · simp [account, putSlot_core]
  · simp only [account, Option.isSome_none, Bool.false_eq_true, if_false, countWrite_seen,
      countWrite_config, missBase_config, and_true]
    rfl
  · simp only [account, Option.isSome_none, Bool.false_eq_true, if_false, putSlot_core,
      putSlot_seen, putSlot_config, countRead_seen, countRead_config, missBase_config, and_true]
    rfl
  · simp only [account, Option.isSome_none, Bool.false_eq_true, if_false, putSlot_core,
      evictCount_core, putSlot_seen, evictCount_seen, putSlot_config, evictCount_config,
      countRead_seen, countRead_config, missBase_config, and_true]
    rfl

theorem core_balanced {s s1 : Stats} (h : s1.core = s.core) (hb : s.balanced) : s1.balanced := by
  have e1 := congrArg Stats.load_hits h
  have e2 := congrArg Stats.load_misses h
  have e3 := congrArg Stats.total_loads h
  have e4 := congrArg Stats.store_hits h
  have e5 := congrArg Stats.store_misses h
  have e6 := congrArg Stats.total_stores h
  simp only [Stats.core] at e1 e2 e3 e4 e5 e6
  unfold Stats.balanced at hb ⊢
  omega

theorem countAccess_balanced {s : Stats} (type : Char) (hit : Bool) (hb : s.balanced) :
    (countAccess s type hit).balanced := by
  unfold Stats.balanced at hb ⊢
  unfold countAccess
  split <;> split <;> simp only <;> omega

theorem classifyMiss_balanced {w : Machine} (blk : Nat) (hb : w.stats.balanced) :
    (classifyMiss w blk).stats.balanced := by
  unfold classifyMiss
  split <;> [split; skip] <;> exact hb

theorem account_balanced {w : Machine} (type : Char) (blk : Nat) (hit : Bool)
    (hb : w.stats.balanced) : (account w type blk hit).stats.balanced := by
  unfold account
  split
  · exact countAccess_balanced type true hb
  · exact classifyMiss_balanced blk (countAccess_balanced type false hb)

theorem core_classified {s s1 : Stats} (h : s1.core = s.core) (hb : s.classified) :
    s1.classified := by
  have e1 := congrArg Stats.compulsory_misses h
  have e2 := congrArg Stats.capacity_misses h
  have e3 := congrArg Stats.conflict_misses h
  have e4 := congrArg Stats.load_misses h
  have e5 := congrArg Stats.store_misses h
  simp only [Stats.core] at e1 e2 e3 e4 e5
  unfold Stats.classified at hb ⊢
  omega

theorem countAccess_classes (s : Stats) (type : Char) (hit : Bool) :
    (countAccess s type hit).compulsory_misses = s.compulsory_misses ∧
    (countAccess s type hit).capacity_misses = s.capacity_misses ∧
    (countAccess s type hit).conflict_misses = s.conflict_misses ∧
    (countAccess s type hit).load_misses + (countAccess s type hit).store_misses =
      s.load_misses + s.store_misses + (if hit = true then 0 else 1) := by
  unfold countAccess
  by_cases ht : type = 'R' <;> cases hit <;> simp [ht] <;> omega

theorem classifyMiss_classes (w : Machine) (blk : Nat) :
    (classifyMiss w blk).stats.load_misses = w.stats.load_misses ∧
    (classifyMiss w blk).stats.store_misses = w.stats.store_misses ∧
    (classifyMiss w blk).stats.compulsory_misses + (classifyMiss w blk).stats.capacity_misses +
      (classifyMiss w blk).stats.conflict_misses =
      w.stats.compulsory_misses + w.stats.capacity_misses + w.stats.conflict_misses + 1 := by
  unfold classifyMiss
  by_cases h1 : blk ∈ w.seen_blocks
  · by_cases h2 : w.config.associativity = 0 <;> simp [h1, h2] <;> omega
  · simp [h1]; omega

theorem account_classified {w : Machine} (type : Char) (blk : Nat) (hit : Bool)
    (hb : w.stats.classified) : (account w type blk hit).stats.classified := by
  unfold Stats.classified at hb ⊢
  unfold account
  cases hit with
  | true =>
    obtain ⟨h1, h2, h3, h4⟩ := countAccess_classes w.stats type true
    simp only [if_true, counted_stats] at h4 ⊢
    omega
  | false =>
    obtain ⟨h1, h2, h3, h4⟩ := countAccess_classes w.stats type false
    obtain ⟨h5, h6, h7⟩ := classifyMiss_classes (counted w type false) blk
    simp only [Bool.false_eq_true, if_false, counted_stats, missBase] at h4 h5 h6 h7 ⊢
    omega

/-! ## Memory traffic counters -/

theorem countAccess_traffic (s : Stats) (type : Char) (hit : Bool) :
    (countAccess s type hit).memory_reads = s.memory_reads ∧
    (countAccess s type hit).memory_writes = s.memory_writes := by
  unfold countAccess
  by_cases ht : type = 'R' <;> cases hit <;> simp [ht]

theorem classifyMiss_traffic (w : Machine) (blk : Nat) :
    (classifyMiss w blk).stats.memory_reads = w.stats.memory_reads ∧
    (classifyMiss w blk).stats.memory_writes = w.stats.memory_writes := by
  unfold classifyMiss
  by_cases h1 : blk ∈ w.seen_blocks
  · by_cases h2 : w.config.associativity = 0 <;> simp [h1, h2]
  · simp [h1]

theorem missBase_traffic (w : Machine) (type : Char) (blk : Nat) :
    (missBase w type blk).stats.memory_reads = w.stats.memory_reads ∧
    (missBase w type blk).stats.memory_writes = w.stats.memory_writes := by
  obtain ⟨h1, h2⟩ := classifyMiss_traffic (counted w type false) blk
  obtain ⟨h3, h4⟩ := countAccess_traffic w.stats type false
  unfold missBase
  rw [h1, h2]
  exact ⟨h3, h4⟩

/-- Closed form of a store miss under no-write-allocate. -/
theorem access_store_noalloc {w : Machine} {addr blk idx tag : Nat} (rnd : Nat)
    (hwa : w.config.write_allocate = 0)
    (hl : lookup w addr = .ok ((blk, idx, tag), none)) :
    access w 'W' addr rnd = .ok (missBase w 'W' blk).countWrite := by
  rw [access_eq, hl]
  simp only [missCase, classifyMiss_config, counted_config, hwa, and_self, if_true]
  rfl

theorem putSlot_traffic (w : Machine) (i k : Nat) (row : List CacheBlock) (b : CacheBlock)
    (wt : Bool) :
    (w.putSlot i k row b wt).stats.memory_reads = w.stats.memory_reads ∧
    (w.putSlot i k row b wt).stats.memory_writes =
      w.stats.memory_writes + (if wt = true then 1 else 0) := by
  unfold Machine.putSlot
  cases wt <;> simp [Machine.countWrite, Machine.withSets]

theorem evictCount_traffic (w : Machine) (b : CacheBlock) :
    (evictCount w b).stats.memory_reads = w.stats.memory_reads ∧
    (evictCount w b).stats.memory_writes = w.stats.memory_writes +
      (if b.dirty = true ∧ w.config.write_policy = "WRITE_BACK" then 1 else 0) := by
  unfold evictCount
  by_cases h : b.dirty = true ∧ w.config.write_policy = "WRITE_BACK"
  · simp only [h, and_self, if_true]
    exact ⟨rfl, rfl⟩
  · simp only [h, if_false, add_zero, and_self]

theorem countRead_traffic (w : Machine) :
    w.countRead.stats.memory_reads = w.stats.memory_reads + 1 ∧
    w.countRead.stats.memory_writes = w.stats.memory_writes := ⟨rfl, rfl⟩

/-- In a well-shaped state, an empty check that finds nothing means that every
way of the set is valid. -/
theorem emptyCheck_none_full {w : Machine} (hw : WF w) {index : Nat} {row : List CacheBlock}
    (hrow : w.cache.sets[index]? = some row)
    (he : emptyCheck w.cache.sets index w.cache.ways.toNat 0 = .ok none) :
    ∀ b ∈ row, b.valid = true := by
  intro b hb
  obtain ⟨j, hj, hbj⟩ := List.getElem_of_mem hb
  have hspec := firstWay_spec hrow _ _ _ he
  simp only at hspec
  obtain ⟨c, hc1, hc2⟩ := hspec j (by omega) (by rw [← hw.row_of hrow]; omega)
  rw [List.getElem?_eq_getElem hj, hbj] at hc1
  cases hc1
  simpa [isEmpty] using hc2

theorem run_wf {w w1 : Machine} {tr : List Access} (hw : WF w) (h : run w tr = .ok w1) :
    WF w1 := by
  obtain ⟨w2, h2, hw2⟩ := run_total hw tr
  rw [h] at h2
  cases h2
  exact hw2

/-! ## Miss classes -/

/-- The classification counters and the ledger after the bookkeeping of a hit. -/
theorem account_hit_classes (w : Machine) (type : Char) (blk : Nat) :
    (account w type blk true).stats.compulsory_misses = w.stats.compulsory_misses ∧
    (account w type blk true).stats.capacity_misses = w.stats.capacity_misses ∧
    (account w type blk true).stats.conflict_misses = w.stats.conflict_misses ∧
    (account w type blk true).seen_blocks = w.seen_blocks := by
  obtain ⟨h1, h2, h3, _⟩ := countAccess_classes w.stats type true
  simp only [account, if_true, counted_stats, counted_seen]
  exact ⟨h1, h2, h3, trivial⟩

/-- The classification counters and the ledger after the bookkeeping of a
miss (lines 140-148): a block id not in the ledger is entered and counted as
compulsory; otherwise the miss is counted as capacity when `associativity` is
0 and as conflict when it is not. -/
theorem account_miss_classes (w : Machine) (type : Char) (blk : Nat) :
    (account w type blk false).stats.compulsory_misses =
      w.stats.compulsory_misses + (if blk ∈ w.seen_blocks then 0 else 1) ∧
    (account w type blk false).stats.capacity_misses =
      w.stats.capacity_misses +
        (if blk ∈ w.seen_blocks ∧ w.config.associativity = 0 then 1 else 0) ∧
    (account w type blk false).stats.conflict_misses =
      w.stats.conflict_misses +
        (if blk ∈ w.seen_blocks ∧ w.config.associativity ≠ 0 then 1 else 0) ∧
    (account w type blk false).seen_blocks =
      (if blk ∈ w.seen_blocks then w.seen_blocks else blk :: w.seen_blocks) := by
  obtain ⟨h1, h2, h3, _⟩ := countAccess_classes w.stats type false
  simp only [account, Bool.false_eq_true, if_false, missBase, classifyMiss, counted_seen,
    counted_config, counted_stats]
  by_cases hs : blk ∈ w.seen_blocks
  · by_cases ha : w.config.associativity = 0
    · simp only [hs, ha, if_true, and_self, ne_eq, not_true_eq_false, and_false, if_false]
      rw [h1, h2, h3]
      simp
    · simp only [hs, ha, if_true, if_false, and_false, ne_eq, not_false_eq_true, and_self]
      rw [h1, h2, h3]
      simp
  · simp only [hs, if_false, false_and]
    rw [h1, h2, h3]
    simp

/-- The classification counters and the ledger after a completed access. -/
theorem access_classes {w w1 : Machine} {type : Char} {addr rnd : Nat}
    (h : access w type addr rnd = .ok w1) :
    ∃ blk idx tag hw, lookup w addr = .ok ((blk, idx, tag), hw) ∧
      w1.stats.compulsory_misses = (account w type blk hw.isSome).stats.compulsory_misses ∧
      w1.stats.capacity_misses = (account w type blk hw.isSome).stats.capacity_misses ∧
      w1.stats.conflict_misses = (account w type blk hw.isSome).stats.conflict_misses ∧
      w1.seen_blocks = (account w type blk hw.isSome).seen_blocks := by
  obtain ⟨blk, idx, tag, hw, hl, hcore, hseen, _⟩ := access_core h
  have e1 := congrArg Stats.compulsory_misses hcore
  have e2 := congrArg Stats.capacity_misses hcore
  have e3 := congrArg Stats.conflict_misses hcore
  simp only [Stats.core] at e1 e2 e3
  exact ⟨blk, idx, tag, hw, hl, e1, e2, e3, hseen⟩

/-! ## Runs: counters kept along a replay -/

theorem run_balanced {w w1 : Machine} {tr : List Access} (hb : w.stats.balanced)
    (h : run w tr = .ok w1) : w1.stats.balanced := by
  refine run_induct (fun m => m.stats.balanced) ?_ tr w w1 hb h
  intro m m1 type addr rnd hm hacc
  obtain ⟨blk, idx, tag, hw, _, hcore, _⟩ := access_core hacc
  exact core_balanced hcore (account_balanced type blk hw.isSome hm)

theorem run_classified {w w1 : Machine} {tr : List Access} (hb : w.stats.classified)
    (h : run w tr = .ok w1) : w1.stats.classified := by
  refine run_induct (fun m => m.stats.classified) ?_ tr w w1 hb h
  intro m m1 type addr rnd hm hacc
  obtain ⟨blk, idx, tag, hw, _, hcore, _⟩ := access_core hacc
  exact core_classified hcore (account_classified type blk hw.isSome hm)

theorem countAccess_totals (s : Stats) (type : Char) (hit : Bool) :
    (countAccess s type hit).total_loads + (countAccess s type hit).total_stores =
      s.total_loads + s.total_stores + 1 := by
  unfold countAccess
  by_cases ht : type = 'R' <;> cases hit <;> simp [ht] <;> omega

theorem classifyMiss_hits (w : Machine) (blk : Nat) :
    (classifyMiss w blk).stats.total_loads = w.stats.total_loads ∧
    (classifyMiss w blk).stats.total_stores = w.stats.total_stores ∧
    (classifyMiss w blk).stats.load_hits = w.stats.load_hits ∧
    (classifyMiss w blk).stats.store_hits = w.stats.store_hits := by
  unfold classifyMiss
  by_cases h1 : blk ∈ w.seen_blocks
  · by_cases h2 : w.config.associativity = 0 <;> simp [h1, h2]
  · simp [h1]

/-- Every completed access counts one load or one store. -/
theorem access_totals {w w1 : Machine} {type : Char} {addr rnd : Nat}
    (h : access w type addr rnd = .ok w1) :
    w1.stats.total_loads + w1.stats.total_stores =
      w.stats.total_loads + w.stats.total_stores + 1 := by
  obtain ⟨blk, idx, tag, hw, _, hcore, _⟩ := access_core h
  have e1 := congrArg Stats.total_loads hcore
  have e2 := congrArg Stats.total_stores hcore
  simp only [Stats.core] at e1 e2
  rw [e1, e2]
  unfold account
  cases hw.isSome with
  | true => exact countAccess_totals w.stats type true
  | false =>
    obtain ⟨g1, g2, _, _⟩ := classifyMiss_hits (counted w type false) blk
    simp only [Bool.false_eq_true, if_false, missBase]
    rw [g1, g2]
    exact countAccess_totals w.stats type false

theorem run_totals {tr : List Access} :
    ∀ {w w1 : Machine}, run w tr = .ok w1 →
      w1.stats.total_loads + w1.stats.total_stores =
        w.stats.total_loads + w.stats.total_stores + tr.length := by
  induction tr with
  | nil =>
    intro w w1 h
    simp only [run, Except.ok.injEq] at h
    subst h
    simp
  | cons a rest ih =>
    intro w w1 h
    rw [run] at h
    cases ha : access w a.type a.addr a.rnd with
    | error e => simp [ha] at h
    | ok w2 =>
      simp only [ha] at h
      have h1 := ih h
      have h2 := access_totals ha
      rw [List.length_cons]
      push_cast
      omega

/-- A miss leaves the hit counters alone. -/
theorem account_miss_hits (w : Machine) (type : Char) (blk : Nat) :
    (account w type blk false).stats.load_hits = w.stats.load_hits ∧
    (account w type blk false).stats.store_hits = w.stats.store_hits := by
  obtain ⟨_, _, g3, g4⟩ := classifyMiss_hits (counted w type false) blk
  simp only [account, Bool.false_eq_true, if_false, missBase]
  rw [g3, g4]
  simp only [counted_stats, countAccess]
  by_cases ht : type = 'R' <;> simp [ht]

/-! ## Direct-mapped sets -/

theorem set_one {sets : List (List CacheBlock)} {idx : Nat} {s c : CacheBlock}
    (hrow : sets[idx]? = some [s]) :
    (sets.set idx ([s].set 0 c))[idx]? = some [c] := by
  simp [List.getElem?_set, getElem?_lt hrow]

theorem slot_one {s b : CacheBlock} {way : Nat} (h : [s][way]? = some b) :
    way = 0 ∧ b = s := by
  have hlt := getElem?_lt h
  simp only [List.length_singleton, Nat.lt_one_iff] at hlt
  subst hlt
  simp only [List.getElem?_cons_zero, Option.some.injEq] at h
  exact ⟨rfl, h.symm⟩

theorem account_core_hit (w : Machine) (type : Char) (blk : Nat) :
    (counted w type true).stats.core = (account w type blk true).stats.core ∧
    (counted w type true).seen_blocks = (account w type blk true).seen_blocks := by
  simp [account]

theorem account_core_miss (w : Machine) (type : Char) (blk : Nat) :
    (missBase w type blk).stats.core = (account w type blk false).stats.core ∧
    (missBase w type blk).seen_blocks = (account w type blk false).seen_blocks := by
  simp [account]

/-- One completed access in a well-shaped machine with a single way per set:
the slot of the indexed set before and after, and the bookkeeping, by outcome. -/
theorem access_one_way {w w1 : Machine} (hw : WF w) (hway : w.cache.ways = 1)
    {type : Char} {addr rnd blk idx tag : Nat}
    (hd : decompose w addr = .ok (blk, idx, tag))
    (h : access w type addr rnd = .ok w1) :
    ∃ s s1, w.cache.sets[idx]? = some [s] ∧ w1.cache.sets[idx]? = some [s1] ∧
      w1.stats.core = (account w type blk (isHit tag s)).stats.core ∧
      w1.seen_blocks = (account w type blk (isHit tag s)).seen_blocks ∧
      ((isHit tag s = true ∧ s1 = hitBlock w.config type (w.global_time + 1) s) ∨
       (isHit tag s = false ∧ (type = 'W' ∧ w.config.write_allocate = 0) ∧ s1 = s) ∨
       (isHit tag s = false ∧ ¬ (type = 'W' ∧ w.config.write_allocate = 0) ∧
          s1 = installedBlock w.config type tag (w.global_time + 1))) := by
  have hlt := decompose_index_lt hw hd
  have hrow0 : w.cache.sets[idx]? = some w.cache.sets[idx] := List.getElem?_eq_getElem hlt
  have hlen : (w.cache.sets[idx]).length = 1 := by
    rw [hw.row_of hrow0, hway]; rfl
  obtain ⟨s, hs⟩ := List.length_eq_one.mp hlen
  rw [hs] at hrow0
  have hmiss : lookup w addr = .ok ((blk, idx, tag), none) → isHit tag s = false := by
    intro hl
    obtain ⟨_, hh⟩ := lookup_miss hl
    have hspec := firstWay_spec hrow0 _ _ _ hh
    simp only at hspec
    obtain ⟨c, hc1, hc2⟩ := hspec 0 (le_refl _) (by rw [hway]; decide)
    simp only [List.getElem?_cons_zero, Option.some.injEq] at hc1
    rw [hc1]
    exact hc2
  obtain ⟨blk2, idx2, tag2, hd2, hcase⟩ := access_cases h
  rw [hd] at hd2
  simp only [Except.ok.injEq, Prod.mk.injEq] at hd2
  obtain ⟨e1, e2, e3⟩ := hd2
  subst e1 e2 e3
  rcases hcase with ⟨way, row, b, hl, hrow, hb, hp, e⟩ | ⟨hl, hc, e⟩ |
    ⟨hl, hna, way, row, b, hrow, hb, hcase2⟩
  · rw [hrow0] at hrow
    cases hrow
    obtain ⟨hz, hbs⟩ := slot_one hb
    subst hz hbs
    refine ⟨b, hitBlock w.config type (w.global_time + 1) b, hrow0, ?_, ?_, ?_,
      Or.inl ⟨hp, rfl⟩⟩
    · subst e
      simp only [putSlot_sets, counted_cache]
      exact set_one hrow0
    · subst e
      rw [hp, putSlot_core]
      exact (account_core_hit w type blk).1
    · subst e
      rw [hp, putSlot_seen]
      exact (account_core_hit w type blk).2
  · have hf := hmiss hl
    refine ⟨s, s, hrow0, ?_, ?_, ?_, Or.inr (Or.inl ⟨hf, hc, rfl⟩)⟩
    · subst e
      simpa using hrow0
    · subst e
      rw [hf]
      exact (account_core_miss w type blk).1
    · subst e
      rw [hf]
      exact (account_core_miss w type blk).2
  · have hf := hmiss hl
    rw [hrow0] at hrow
    cases hrow
    obtain ⟨hz, hbs⟩ := slot_one hb
    subst hz hbs
    refine ⟨b, installedBlock w.config type tag (w.global_time + 1), hrow0, ?_, ?_, ?_,
      Or.inr (Or.inr ⟨hf, hna, rfl⟩)⟩
    · rcases hcase2 with ⟨_, _, e⟩ | ⟨_, _, e⟩ <;> subst e
      · simp only [putSlot_sets, countRead_cache, missBase_cache]
        exact set_one hrow0
      · simp only [putSlot_sets, evictCount_cache, countRead_cache, missBase_cache]
        exact set_one hrow0
    · rw [hf]
      rcases hcase2 with ⟨_, _, e⟩ | ⟨_, _, e⟩ <;> subst e
      · rw [putSlot_core]
        exact (account_core_miss w type blk).1
      · rw [putSlot_core, evictCount_core]
        exact (account_core_miss w type blk).1
    · rw [hf]
      rcases hcase2 with ⟨_, _, e⟩ | ⟨_, _, e⟩ <;> subst e
      · rw [putSlot_seen]
        exact (account_core_miss w type blk).2
      · rw [putSlot_seen, evictCount_seen]
        exact (account_core_miss w type blk).2

theorem alternate_length (ops : List (Char × Nat)) :
    ∀ a b, (alternate a b ops).length = ops.length := by
  induction ops with
  | nil => intro a b; rfl
  | cons op rest ih => intro a b; simp [alternate, ih]

theorem decompose_congr {w w1 : Machine} (hc : w1.config = w.config)
    (hn : w1.cache.num_sets = w.cache.num_sets) (addr : Nat) :
    decompose w1 addr = decompose w addr := by
  unfold decompose
  rw [hc, hn]

theorem isHit_hitBlock (cfg : Config) (type : Char) (gt : Int) (tag : Nat) (s : CacheBlock) :
    isHit tag (hitBlock cfg type gt s) = isHit tag s := by
  simp [isHit, hitBlock]

theorem isHit_installedBlock (cfg : Config) (type : Char) (gt : Int) (tag tag2 : Nat) :
    isHit tag2 (installedBlock cfg type tag gt) = decide (tag = tag2) := by
  simp [isHit, installedBlock, newBlock]

/-- Replay of an alternating trace over two blocks of one set of a
direct-mapped cache, from a state in which a block outside the ledger is not
resident: nothing is counted as capacity, the compulsory misses are the first
accesses to the blocks outside the ledger, and when every access installs and
the first block is not resident, no access hits. -/
theorem alternate_run (ops : List (Char × Nat)) :
    ∀ (w : Machine) (x y bx bz idx tx tz : Nat),
      WF w → w.cache.ways = 1 → w.config.associativity ≠ 0 →
      decompose w x = .ok (bx, idx, tx) → decompose w y = .ok (bz, idx, tz) →
      bx ≠ bz → tx ≠ tz →
      (∀ s, w.cache.sets[idx]? = some [s] →
        (bx ∉ w.seen_blocks → isHit tx s = false) ∧
        (bz ∉ w.seen_blocks → isHit tz s = false)) →
      ∃ w1, run w (alternate x y ops) = .ok w1 ∧
        w1.stats.capacity_misses = w.stats.capacity_misses ∧
        w1.stats.compulsory_misses = w.stats.compulsory_misses +
          (if 1 ≤ ops.length ∧ bx ∉ w.seen_blocks then 1 else 0) +
          (if 2 ≤ ops.length ∧ bz ∉ w.seen_blocks then 1 else 0) ∧
        ((∀ op ∈ ops, ¬ (op.1 = 'W' ∧ w.config.write_allocate = 0)) →
          (∀ s, w.cache.sets[idx]? = some [s] → isHit tx s = false) →
          w1.stats.load_hits = w.stats.load_hits ∧
          w1.stats.store_hits = w.stats.store_hits) := by
  induction ops with
  | nil =>
    intro w x y bx bz idx tx tz _ _ _ _ _ _ _ _
    exact ⟨w, rfl, rfl, by simp, fun _ _ => ⟨rfl, rfl⟩⟩
  | cons op rest ih =>
    intro w x y bx bz idx tx tz hw hway hassoc hdx hdz hb ht hinv
    obtain ⟨w1, hacc⟩ := access_total hw op.1 x op.2
    have hw1 := access_wf hw hacc
    obtain ⟨hcfg, hns, hwy, _⟩ := access_frame hacc
    obtain ⟨s, s1, hrow, hrow1, hcore, hseen, hcase⟩ := access_one_way hw hway hdx hacc
    obtain ⟨inv1, inv2⟩ := hinv s hrow
    have ecap := congrArg Stats.capacity_misses hcore
    have ecom := congrArg Stats.compulsory_misses hcore
    have elh := congrArg Stats.load_hits hcore
    have esh := congrArg Stats.store_hits hcore
    simp only [Stats.core] at ecap ecom elh esh
    -- the step, by outcome
    have step : w1.stats.capacity_misses = w.stats.capacity_misses ∧
        w1.stats.compulsory_misses =
          w.stats.compulsory_misses + (if bx ∉ w.seen_blocks then 1 else 0) ∧
        bx ∈ w1.seen_blocks ∧ (bz ∉ w1.seen_blocks ↔ bz ∉ w.seen_blocks) ∧
        (isHit tx s = false → w1.stats.load_hits = w.stats.load_hits ∧
          w1.stats.store_hits = w.stats.store_hits) := by
      cases hh : isHit tx s with
      | true =>
        rw [hh] at ecap ecom hseen
        obtain ⟨g1, g2, _, g4⟩ := account_hit_classes w op.1 bx
        have hin : bx ∈ w.seen_blocks := by
          by_contra hc
          rw [inv1 hc] at hh
          cases hh
        rw [ecap, ecom, hseen, g1, g2, g4]
        simp [hin]
      | false =>
        rw [hh] at ecap ecom hseen elh esh
        obtain ⟨g1, g2, _, g4⟩ := account_miss_classes w op.1 bx
        obtain ⟨g5, g6⟩ := account_miss_hits w op.1 bx
        rw [ecap, ecom, hseen, elh, esh, g1, g2, g4, g5, g6]
        refine ⟨by simp [hassoc], ?_, ?_, ?_, fun _ => ⟨rfl, rfl⟩⟩
        · by_cases hin : bx ∈ w.seen_blocks <;> simp [hin]
        · by_cases hin : bx ∈ w.seen_blocks <;> simp [hin]
        · by_cases hin : bx ∈ w.seen_blocks
          · simp [hin]
          · simp [hin, Ne.symm hb]
    obtain ⟨scap, scom, sin, sz, shits⟩ := step
    -- the invariant for the rest of the trace, with the roles swapped
    have hinv1 : ∀ c, w1.cache.sets[idx]? = some [c] →
        (bz ∉ w1.seen_blocks → isHit tz c = false) ∧
        (bx ∉ w1.seen_blocks → isHit tx c = false) := by
      intro c hc
      rw [hrow1] at hc
      simp only [Option.some.injEq, List.cons.injEq, and_true] at hc
      subst hc
      refine ⟨fun hz => ?_, fun hx => absurd sin hx⟩
      rcases hcase with ⟨_, e⟩ | ⟨_, _, e⟩ | ⟨_, _, e⟩
      · rw [e, isHit_hitBlock]
        exact inv2 (sz.mp hz)
      · rw [e]
        exact inv2 (sz.mp hz)
      · rw [e, isHit_installedBlock]
        simp [ht]
    obtain ⟨w2, hrun, rcap, rcom, rhits⟩ := ih w1 y x bz bx idx tz tx hw1
      (by rw [hwy]; exact hway) (by rw [hcfg]; exact hassoc)
      (by rw [decompose_congr hcfg hns]; exact hdz)
      (by rw [decompose_congr hcfg hns]; exact hdx) (Ne.symm hb) (Ne.symm ht) hinv1
    refine ⟨w2, by simp only [alternate, run, hacc, hrun], by rw [rcap, scap], ?_, ?_⟩
    · rw [rcom, scom]
      have hlen : (op :: rest).length = rest.length + 1 := rfl
      rw [hlen]
      by_cases hx : bx ∈ w.seen_blocks <;> by_cases hz : bz ∈ w.seen_blocks <;>
        by_cases hl : 1 ≤ rest.length <;>
        simp [hx, hz, hl, sin, sz]
    · intro hall hmiss
      have hf := hmiss s hrow
      obtain ⟨h1, h2⟩ := shits hf
      have hna : ¬ (op.1 = 'W' ∧ w.config.write_allocate = 0) :=
        hall op (List.mem_cons_self _ _)
      have hs1 : ∀ c, w1.cache.sets[idx]? = some [c] → isHit tz c = false := by
        intro c hc
        rw [hrow1] at hc
        simp only [Option.some.injEq, List.cons.injEq, and_true] at hc
        subst hc
        rcases hcase with ⟨e, _⟩ | ⟨_, e, _⟩ | ⟨_, _, e⟩
        · rw [hf] at e; cases e
        · exact absurd e hna
        · rw [e, isHit_installedBlock]
          simp [ht]
      obtain ⟨h3, h4⟩ := rhits
        (fun o ho => by rw [hcfg]; exact hall o (List.mem_cons_of_mem _ ho)) hs1
      exact ⟨by rw [h3, h1], by rw [h4, h2]⟩

/-- C1. From the start state of any representable configuration whose
simulator has `num_sets >= 1` and `ways >= 1`, the replay of every trace (any
operation codes, addresses and random draws) completes, and in the state it
ends in `load_hits + load_misses = total_loads` and
`store_hits + store_misses = total_stores`. -/
theorem hit_miss_counters_sum_to_totals (cfg : Config) (w0 : Machine) (tr : List Access)
    (hrep : cfg.representable) (h0 : start cfg = .ok w0)
    (hns : 1 ≤ w0.cache.num_sets) (hwy : 1 ≤ w0.cache.ways) :
    ∃ w, run w0 tr = .ok w ∧
      w.stats.load_hits + w.stats.load_misses = w.stats.total_loads ∧
      w.stats.store_hits + w.stats.store_misses = w.stats.total_stores := by
  obtain ⟨w, hrun, _⟩ := run_total (start_wf hrep h0 hns hwy) tr
  refine ⟨w, hrun, ?_⟩
  have hinit : w0.stats.balanced := by
    rw [(start_stats h0).1]
    exact ⟨rfl, rfl⟩
  refine run_induct (fun m => m.stats.balanced) ?_ tr w0 w hinit hrun
  intro m m1 type addr rnd hm hacc
  obtain ⟨blk, idx, tag, hw, _, hcore, _⟩ := access_core hacc
  exact core_balanced hcore (account_balanced type blk hw.isSome hm)

/-- C1, instance: the example configuration and a trace of two loads, a store
and a record with another operation code. -/
theorem hit_miss_counters_sum_to_totals_witness :
    ∃ w, run { config := exampleConfig, stats := {}, global_time := 0, seen_blocks := [],
               cache := { sets := List.replicate 4 (List.replicate 1 {}),
                          num_sets := 4, ways := 1 } }
        [ld 0, st 4, ld 0, { type := 'X', addr := 64, rnd := 7 }] = .ok w ∧
      w.stats.load_hits + w.stats.load_misses = w.stats.total_loads ∧
      w.stats.store_hits + w.stats.store_misses = w.stats.total_stores :=
  hit_miss_counters_sum_to_totals exampleConfig _ _ (by decide) (by decide) (by decide)
    (by decide)

/-- C2. From the start state (zeroed statistics, empty ledger) of any
representable configuration whose simulator has `num_sets >= 1` and
`ways >= 1`, the replay of every trace completes, and in the state it ends in
`compulsory_misses + capacity_misses + conflict_misses =
load_misses + store_misses`. -/
theorem miss_classes_sum_to_misses (cfg : Config) (w0 : Machine) (tr : List Access)
    (hrep : cfg.representable) (h0 : start cfg = .ok w0)
    (hns : 1 ≤ w0.cache.num_sets) (hwy : 1 ≤ w0.cache.ways) :
    ∃ w, run w0 tr = .ok w ∧
      w.stats.compulsory_misses + w.stats.capacity_misses + w.stats.conflict_misses =
        w.stats.load_misses + w.stats.store_misses := by
  obtain ⟨w, hrun, _⟩ := run_total (start_wf hrep h0 hns hwy) tr
  refine ⟨w, hrun, ?_⟩
  have hinit : w0.stats.classified := by
    rw [(start_stats h0).1]
    rfl
  refine run_induct (fun m => m.stats.classified) ?_ tr w0 w hinit hrun
  intro m m1 type addr rnd hm hacc
  obtain ⟨blk, idx, tag, hw, _, hcore, _⟩ := access_core hacc
  exact core_classified hcore (account_classified type blk hw.isSome hm)

/-- C2, instance: a fully associative cache of two ways replaying loads and
stores that miss in all three classes of the simulator. -/
theorem miss_classes_sum_to_misses_witness :
    ∃ w, run { config := { exampleConfig with cache_size := 8, associativity := 0 },
               stats := {}, global_time := 0, seen_blocks := [],
               cache := { sets := List.replicate 1 (List.replicate 2 {}),
                          num_sets := 1, ways := 2 } }
        [ld 0, st 4, ld 8, ld 0, st 4] = .ok w ∧
      w.stats.compulsory_misses + w.stats.capacity_misses + w.stats.conflict_misses =
        w.stats.load_misses + w.stats.store_misses :=
  miss_classes_sum_to_misses { exampleConfig with cache_size := 8, associativity := 0 } _ _
    (by decide) (by decide) (by decide) (by decide)

/-! ## The end-to-end example -/

/-- C3, as stated, fails on the code: the example configuration does not give 2
sets, and the trace does not end with 3 compulsory misses, 0 hits and 3 memory
reads. -/
theorem example_trace_counterexample :
    ∃ w0 w, start exampleConfig = .ok w0 ∧ run w0 exampleTrace = .ok w ∧
      w0.cache.num_sets ≠ 2 ∧ w0.cache.sets.length ≠ 2 ∧
      w.stats.compulsory_misses ≠ 3 ∧ w.stats.load_hits + w.stats.store_hits ≠ 0 ∧
      w.stats.memory_reads ≠ 3 := by
  refine ⟨exampleStart, ?_, by decide, ?_⟩
  · exact { exampleStart with
      stats := { total_loads := 3, load_hits := 1, load_misses := 2, compulsory_misses := 2,
                 memory_reads := 2 }
      global_time := 3
      seen_blocks := [1, 0]
      cache := { sets := [[{ valid := true, last_access_time := 3, insertion_time := 1 }],
                          [{ valid := true, last_access_time := 2, insertion_time := 2 }],
                          [{}], [{}]],
                 num_sets := 4, ways := 1 } }
  · decide

/-- C3, amended. The example configuration (cache_size 16, block_size 4,
associativity 1, LRU, WRITE_BACK, write_allocate 1) constructs 4 sets of 1 way
each; the loads `R 0x0, R 0x4, R 0x0` have block ids 0, 1, 0 and map to sets
0, 1, 0; the first two are compulsory misses and the third hits the block the
first one installed, so the replay ends with 2 compulsory misses, no capacity
or conflict miss, 1 hit, memory_reads = 2 and memory_writes = 0. -/
theorem example_trace_outcome :
    ∃ w0 w, start exampleConfig = .ok w0 ∧
      w0.cache.num_sets = 4 ∧ w0.cache.ways = 1 ∧ w0.cache.sets.length = 4 ∧
      (∀ row ∈ w0.cache.sets, row.length = 1) ∧
      decompose w0 0 = .ok (0, 0, 0) ∧ decompose w0 4 = .ok (1, 1, 0) ∧
      run w0 [ld 0, ld 4] = .ok
        { w0 with
          stats := { total_loads := 2, load_misses := 2, compulsory_misses := 2,
                     memory_reads := 2 }
          global_time := 2
          seen_blocks := [1, 0]
          cache := { w0.cache with
            sets := [[{ valid := true, last_access_time := 1, insertion_time := 1 }],
                     [{ valid := true, last_access_time := 2, insertion_time := 2 }],
                     [{}], [{}]] } } ∧
      run w0 exampleTrace = .ok w ∧
      w.stats.total_loads = 3 ∧ w.stats.total_stores = 0 ∧
      w.stats.load_misses = 2 ∧ w.stats.store_misses = 0 ∧
      w.stats.load_hits = 1 ∧ w.stats.store_hits = 0 ∧
      w.stats.compulsory_misses = 2 ∧ w.stats.capacity_misses = 0 ∧
      w.stats.conflict_misses = 0 ∧
      w.stats.memory_reads = 2 ∧ w.stats.memory_writes = 0 := by
  refine ⟨exampleStart, ?_, by decide, ?_⟩
  · exact { exampleStart with
      stats := { total_loads := 3, load_hits := 1, load_misses := 2, compulsory_misses := 2,
                 memory_reads := 2 }
      global_time := 3
      seen_blocks := [1, 0]
      cache := { sets := [[{ valid := true, last_access_time := 3, insertion_time := 1 }],
                          [{ valid := true, last_access_time := 2, insertion_time := 2 }],
                          [{}], [{}]],
                 num_sets := 4, ways := 1 } }
  · decide

/-! ## Replacement policies -/

/-- C4. Under LRU, in every state reachable from the start state (with
`num_sets >= 1`, `ways >= 1`), a miss that installs (any access but a store
under no-write-allocate) into a set all of whose ways are valid completes and
replaces exactly the lowest-indexed way whose `last_access_time` is the minimum
over the ways of that set. Scenario: in a 3-way set, after loads of the
distinct blocks A, B, C of that set in this order, a load of a 4th block D of
the set replaces the slot that held A; B and C stay resident. -/
theorem lru_evicts_first_least_recent :
    (∀ (cfg : Config) (w : Machine) (type : Char) (addr rnd blk idx tag : Nat)
        (row : List CacheBlock),
        cfg.representable → cfg.replacement_policy = "LRU" → Reachable cfg w →
        1 ≤ w.cache.num_sets → 1 ≤ w.cache.ways →
        lookup w addr = .ok ((blk, idx, tag), none) →
        ¬ (type = 'W' ∧ cfg.write_allocate = 0) →
        w.cache.sets[idx]? = some row → (∀ b ∈ row, b.valid = true) →
        ∃ k w1, IsFirstMin CacheBlock.last_access_time row k ∧
          access w type addr rnd = .ok w1 ∧
          w1.cache.sets =
            w.cache.sets.set idx (row.set k (installedBlock cfg type tag (w.global_time + 1)))) ∧
    (∃ w0, start lruConfig = .ok w0 ∧ run w0 [ld 16, ld 48, ld 80] = .ok lruFull ∧
      ∃ w1, access lruFull 'R' 112 0 = .ok w1 ∧
        w1.cache.sets =
          [[{}, {}, {}],
           [{ valid := true, tag := 3, last_access_time := 4, insertion_time := 4 },
            { valid := true, tag := 1, last_access_time := 2, insertion_time := 2 },
            { valid := true, tag := 2, last_access_time := 3, insertion_time := 3 }]]) := by
  constructor
  · intro cfg w type addr rnd blk idx tag row hrep hp hreach hns hwy hl hna hrow hfull
    have hcfg := reachable_config hreach
    have hw := reachable_wf hrep hreach hns hwy
    have hs := reachable_stamped hreach
    subst hcfg
    obtain ⟨k, b, hk, hb, hacc⟩ := access_evict hw rnd hl hna hrow hfull
    exact ⟨k, _, chooseVictim_lru hw hs hp hrow rnd k hk, hacc, by simp⟩
  · exact ⟨_, rfl, by decide, _, rfl, by decide⟩

/-- C4, instance of the general part: the load of D in the state after A, B, C. -/
theorem lru_evicts_first_least_recent_witness :
    ∃ k w1, IsFirstMin CacheBlock.last_access_time
        [{ valid := true, tag := 0, last_access_time := 1, insertion_time := 1 },
         { valid := true, tag := 1, last_access_time := 2, insertion_time := 2 },
         { valid := true, tag := 2, last_access_time := 3, insertion_time := 3 }] k ∧
      access lruFull 'R' 112 0 = .ok w1 ∧
      w1.cache.sets = lruFull.cache.sets.set 1
        ([{ valid := true, tag := 0, last_access_time := 1, insertion_time := 1 },
          { valid := true, tag := 1, last_access_time := 2, insertion_time := 2 },
          { valid := true, tag := 2, last_access_time := 3, insertion_time := 3 }].set k
          (installedBlock lruConfig 'R' 3 (lruFull.global_time + 1))) :=
  lru_evicts_first_least_recent.1 lruConfig lruFull 'R' 112 0 7 1 3 _ (by decide) (by decide)
    ⟨_, [ld 16, ld 48, ld 80], rfl, by decide⟩ (by decide) (by decide) (by decide) (by decide)
    (by decide) (by decide)

/-- C5. Under FIFO: (1) in every state reachable from the start state (with
`num_sets >= 1`, `ways >= 1`), a miss that installs into a set all of whose
ways are valid completes and replaces exactly the lowest-indexed way whose
`insertion_time` is the minimum over the ways of that set; (2) in every state,
a hit, whatever its operation code, completes and leaves `last_access_time`
and `insertion_time` of every slot of every set unchanged; (3) so after any
number of consecutive hits the stamps and the eviction candidate of every set
are what they were before them. Scenario: in a 2-way set holding A (installed
first) and B, after a load hit and a store hit on A, a load of a third block
replaces A under FIFO, whereas the same trace under LRU replaces B. -/
theorem fifo_evicts_first_inserted :
    (∀ (cfg : Config) (w : Machine) (type : Char) (addr rnd blk idx tag : Nat)
        (row : List CacheBlock),
        cfg.representable → cfg.replacement_policy = "FIFO" → Reachable cfg w →
        1 ≤ w.cache.num_sets → 1 ≤ w.cache.ways →
        lookup w addr = .ok ((blk, idx, tag), none) →
        ¬ (type = 'W' ∧ cfg.write_allocate = 0) →
        w.cache.sets[idx]? = some row → (∀ b ∈ row, b.valid = true) →
        ∃ k w1, IsFirstMin CacheBlock.insertion_time row k ∧
          access w type addr rnd = .ok w1 ∧
          w1.cache.sets =
            w.cache.sets.set idx (row.set k (installedBlock cfg type tag (w.global_time + 1)))) ∧
    (∀ (w : Machine) (type : Char) (addr rnd : Nat) (d : Nat × Nat × Nat) (way : Nat),
        w.config.replacement_policy = "FIFO" → lookup w addr = .ok (d, some way) →
        ∃ w1, access w type addr rnd = .ok w1 ∧
          stampsOf w1.cache.sets = stampsOf w.cache.sets) ∧
    (∀ (w : Machine) (tr : List Access),
        w.config.replacement_policy = "FIFO" → allHit w tr →
        ∃ w1, run w tr = .ok w1 ∧ stampsOf w1.cache.sets = stampsOf w.cache.sets ∧
          ∀ idx rnd, chooseVictim w1 idx rnd = chooseVictim w idx rnd) ∧
    (∃ w0 w1 v0 v1, start fifoConfig = .ok w0 ∧
      run w0 [ld 0, ld 16, ld 0, st 0] = .ok fifoFull ∧
      access fifoFull 'R' 32 0 = .ok w1 ∧
      w1.cache.sets =
        [[{ valid := true, tag := 2, last_access_time := 5, insertion_time := 5 },
          { valid := true, tag := 1, last_access_time := 2, insertion_time := 2 }]] ∧
      start { fifoConfig with replacement_policy := "LRU" } = .ok v0 ∧
      run v0 [ld 0, ld 16, ld 0, st 0, ld 32] = .ok v1 ∧
      v1.cache.sets =
        [[{ valid := true, dirty := true, tag := 0, last_access_time := 4,
            insertion_time := 1 },
          { valid := true, tag := 2, last_access_time := 5, insertion_time := 5 }]]) := by
  refine ⟨?_, ?_, ?_, ?_⟩
  · intro cfg w type addr rnd blk idx tag row hrep hp hreach hns hwy hl hna hrow hfull
    have hcfg := reachable_config hreach
    have hw := reachable_wf hrep hreach hns hwy
    have hs := reachable_stamped hreach
    subst hcfg
    obtain ⟨k, b, hk, hb, hacc⟩ := access_evict hw rnd hl hna hrow hfull
    exact ⟨k, _, chooseVictim_fifo hw hs hp hrow rnd k hk, hacc, by simp⟩
  · intro w type addr rnd d way hp hl
    have hne : w.config.replacement_policy ≠ "LRU" := by rw [hp]; decide
    obtain ⟨blk, idx, tag⟩ := d
    obtain ⟨row, b, _, _, _, hacc⟩ := access_hit type rnd hl
    exact ⟨_, hacc, hit_stamps hne hl hacc⟩
  · intro w tr hp hall
    have hne : w.config.replacement_policy ≠ "LRU" := by rw [hp]; decide
    obtain ⟨w1, hr⟩ := allHit_run hall
    have hst := allHit_stamps hne hall hr
    obtain ⟨hc, _, hwy, _⟩ := run_frame hr
    exact ⟨w1, hr, hst, fun idx rnd => chooseVictim_stamps hc hwy hst idx rnd⟩
  · exact ⟨_, _, _, _, rfl, by decide, rfl, by decide, rfl, rfl, by decide⟩

/-- C5, instance of the eviction part: the load of a third block in the state
after A, B and two hits on A. -/
theorem fifo_evicts_first_inserted_witness :
    ∃ k w1, IsFirstMin CacheBlock.insertion_time
        [{ valid := true, dirty := true, tag := 0, last_access_time := 1, insertion_time := 1 },
         { valid := true, tag := 1, last_access_time := 2, insertion_time := 2 }] k ∧
      access fifoFull 'R' 32 0 = .ok w1 ∧
      w1.cache.sets = fifoFull.cache.sets.set 0
        ([{ valid := true, dirty := true, tag := 0, last_access_time := 1, insertion_time := 1 },
          { valid := true, tag := 1, last_access_time := 2, insertion_time := 2 }].set k
          (installedBlock fifoConfig 'R' 2 (fifoFull.global_time + 1))) :=
  fifo_evicts_first_inserted.1 fifoConfig fifoFull 'R' 32 0 2 0 2 _ (by decide) (by decide)
    ⟨_, [ld 0, ld 16, ld 0, st 0], rfl, by decide⟩ (by decide) (by decide) (by decide)
    (by decide) (by decide) (by decide)

/-! ## Write policies -/

/-- C6. When `write_allocate` is 0, in every state and for every write policy,
replacement policy, address and random draw, a store (`'W'`) that misses
completes, leaves the whole cache (every slot of every set: valid, dirty, tag
and both time stamps) unchanged, increases `memory_writes` by exactly 1 and
leaves `memory_reads` unchanged. -/
theorem store_miss_no_allocate (w : Machine) (addr rnd : Nat) (d : Nat × Nat × Nat)
    (hwa : w.config.write_allocate = 0) (hl : lookup w addr = .ok (d, none)) :
    ∃ w1, access w 'W' addr rnd = .ok w1 ∧ w1.cache = w.cache ∧
      w1.stats.memory_writes = w.stats.memory_writes + 1 ∧
      w1.stats.memory_reads = w.stats.memory_reads := by
  obtain ⟨blk, idx, tag⟩ := d
  refine ⟨_, access_store_noalloc rnd hwa hl, by simp, ?_, ?_⟩
  · show (missBase w 'W' blk).stats.memory_writes + 1 = _
    rw [(missBase_traffic w 'W' blk).2]
  · show (missBase w 'W' blk).stats.memory_reads = _
    rw [(missBase_traffic w 'W' blk).1]

/-- C6, instance: a store to address 32 in the state after loads of A and B
under FIFO, with `write_allocate` switched off. -/
theorem store_miss_no_allocate_witness :
    ∃ w1, access { fifoFull with config := { fifoConfig with write_allocate := 0 } }
        'W' 32 0 = .ok w1 ∧
      w1.cache = fifoFull.cache ∧
      w1.stats.memory_writes = fifoFull.stats.memory_writes + 1 ∧
      w1.stats.memory_reads = fifoFull.stats.memory_reads :=
  store_miss_no_allocate { fifoFull with config := { fifoConfig with write_allocate := 0 } }
    32 0 (2, 0, 2) (by decide) (by decide)

/-- C7. Under `WRITE_THROUGH`, for every replacement policy and either
`write_allocate` setting, in every state reachable from the start state by a
sequence of accesses no slot of any set has `dirty` true. -/
theorem write_through_never_dirty (cfg : Config) (w : Machine)
    (hwt : cfg.write_policy = "WRITE_THROUGH") (hreach : Reachable cfg w) :
    ∀ row ∈ w.cache.sets, ∀ c ∈ row, c.dirty = false := by
  obtain ⟨w0, tr, h0, hr⟩ := hreach
  have key : w.config.write_policy = "WRITE_THROUGH" ∧ ∀ c, w.holds c → c.dirty = false := by
    refine run_induct
      (fun m => m.config.write_policy = "WRITE_THROUGH" ∧ ∀ c, m.holds c → c.dirty = false)
      ?_ tr w0 w ?_ hr
    · intro m m1 type addr rnd hm hacc
      obtain ⟨hp, hall⟩ := hm
      refine ⟨by rw [(access_frame hacc).1]; exact hp, ?_⟩
      intro c hc
      rcases access_holds hacc hc with h1 | ⟨b, hb, _, e⟩ | ⟨tag, _, e⟩
      · exact hall c h1
      · subst e
        simp [hitBlock, hp, hall b hb]
      · subst e
        simp [installedBlock, hp]
    · refine ⟨by rw [(start_stats h0).2.2.2]; exact hwt, ?_⟩
      intro c hc
      rw [start_holds h0 hc]
  intro row hrow c hc
  exact key.2 c ⟨row, hrow, hc⟩

/-- C7, instance: the slot written by a store miss and a store hit under
`WRITE_THROUGH` with write-allocate is reachable and not dirty. -/
theorem write_through_never_dirty_witness :
    Reachable wtConfig wtStored ∧
      ({ valid := true, tag := 0, last_access_time := 2, insertion_time := 1 } :
        CacheBlock).dirty = false :=
  ⟨⟨_, [st 0, st 0], rfl, by decide⟩,
   write_through_never_dirty wtConfig wtStored (by decide) ⟨_, [st 0, st 0], rfl, by decide⟩
     [{ valid := true, tag := 0, last_access_time := 2, insertion_time := 1 }] (by decide)
     { valid := true, tag := 0, last_access_time := 2, insertion_time := 1 } (by decide)⟩

/-- C8. Under `WRITE_BACK` with `write_allocate != 0`, in a well-shaped state
a store miss completes and installs its block as a dirty slot; if the slot it
overwrites was invalid or clean, `memory_writes` is unchanged by the store.
If after any further accesses that slot is as the store left it, and a load
misses in the same set, finds every way valid and has that slot as eviction
candidate, then this load completes and increases `memory_writes` by exactly
1. -/
theorem write_back_defers_store (w : Machine) (addr rnd blk idx tag : Nat)
    (hw : WF w) (hwb : w.config.write_policy = "WRITE_BACK")
    (hwa : w.config.write_allocate ≠ 0)
    (hl : lookup w addr = .ok ((blk, idx, tag), none)) :
    ∃ w1 row way b, access w 'W' addr rnd = .ok w1 ∧
      w.cache.sets[idx]? = some row ∧ row[way]? = some b ∧
      w1.cache.sets =
        w.cache.sets.set idx (row.set way (dirtyBlock tag (w.global_time + 1))) ∧
      (b.valid = false ∨ b.dirty = false →
        w1.stats.memory_writes = w.stats.memory_writes) ∧
      ∀ (mid : List Access) (w2 : Machine) (addr2 rnd2 blk2 tag2 : Nat)
        (row2 : List CacheBlock),
        run w1 mid = .ok w2 →
        readSlot w2.cache.sets idx way = readSlot w1.cache.sets idx way →
        lookup w2 addr2 = .ok ((blk2, idx, tag2), none) →
        w2.cache.sets[idx]? = some row2 → (∀ c ∈ row2, c.valid = true) →
        chooseVictim w2 idx rnd2 = .ok (some way) →
        ∃ w3, access w2 'R' addr2 rnd2 = .ok w3 ∧
          w3.stats.memory_writes = w2.stats.memory_writes + 1 := by
  have hnwt : ¬ w.config.write_policy = "WRITE_THROUGH" := by rw [hwb]; decide
  have hblock : installedBlock w.config 'W' tag (w.global_time + 1) =
      dirtyBlock tag (w.global_time + 1) := by
    simp [installedBlock, newBlock, dirtyBlock, hnwt]
  obtain ⟨w1, hacc⟩ := access_total hw 'W' addr rnd
  have hw1 := access_wf hw hacc
  obtain ⟨blk0, idx0, tag0, _, hcase⟩ := access_cases hacc
  rcases hcase with ⟨way, row, b, hl2, _⟩ | ⟨_, hc, _⟩ |
    ⟨hl2, _, way, row, b, hrow, hb, hcase2⟩
  · rw [hl] at hl2
    simp at hl2
  · exact absurd hc.2 hwa
  · rw [hl] at hl2
    simp only [Except.ok.injEq, Prod.mk.injEq, and_true] at hl2
    obtain ⟨e1, e2, e3⟩ := hl2
    subst e1 e2 e3
    have hsets : w1.cache.sets =
        w.cache.sets.set idx (row.set way (dirtyBlock tag (w.global_time + 1))) := by
      rcases hcase2 with ⟨_, _, e⟩ | ⟨_, _, e⟩ <;> subst e <;> simp [hblock]
    have hwrites : b.valid = false ∨ b.dirty = false →
        w1.stats.memory_writes = w.stats.memory_writes := by
      intro hclean
      rcases hcase2 with ⟨_, _, e⟩ | ⟨he, _, e⟩
      · subst e
        rw [(putSlot_traffic _ _ _ _ _ _).2, (countRead_traffic _).2,
          (missBase_traffic _ _ _).2]
        simp [hnwt]
      · have hvalid := emptyCheck_none_full hw hrow he b (List.getElem?_mem hb)
        have hd : b.dirty = false := by
          rcases hclean with h1 | h1
          · rw [hvalid] at h1; cases h1
          · exact h1
        subst e
        rw [(putSlot_traffic _ _ _ _ _ _).2, (evictCount_traffic _ _).2,
          (countRead_traffic _).2, (missBase_traffic _ _ _).2]
        simp [hnwt, hd]
    refine ⟨w1, row, way, b, hacc, hrow, hb, hsets, hwrites, ?_⟩
    intro mid w2 addr2 rnd2 blk2 tag2 row2 hrun hsame hl3 hrow2 hfull hvictim
    have hw2 := run_wf hw1 hrun
    have hcfg2 : w2.config = w.config := by
      rw [(run_frame hrun).1, (access_frame hacc).1]
    have hna : ¬ ('R' = 'W' ∧ w2.config.write_allocate = 0) := by
      intro hx
      exact absurd hx.1 (by decide)
    obtain ⟨k, b2, hk, hb2, hacc3⟩ := access_evict hw2 rnd2 hl3 hna hrow2 hfull
    rw [hvictim] at hk
    simp only [Except.ok.injEq, Option.some.injEq] at hk
    subst hk
    have hread1 : readSlot w1.cache.sets idx way =
        .ok (dirtyBlock tag (w.global_time + 1)) := by
      rw [hsets]
      have h1 := getElem?_lt hrow
      have h2 := getElem?_lt hb
      have e1 : (w.cache.sets.set idx
          (row.set way (dirtyBlock tag (w.global_time + 1))))[idx]? =
          some (row.set way (dirtyBlock tag (w.global_time + 1))) := by
        simp [List.getElem?_set, h1]
      rw [readSlot_row e1]
      simp [List.getElem?_set, h2]
    have hread2 : readSlot w2.cache.sets idx way = .ok b2 := by
      rw [readSlot_row hrow2, hb2]
    rw [hread1, hread2] at hsame
    simp only [Except.ok.injEq] at hsame
    refine ⟨_, hacc3, ?_⟩
    rw [(putSlot_traffic _ _ _ _ _ _).2, (evictCount_traffic _ _).2,
      (countRead_traffic _).2, (missBase_traffic _ _ _).2]
    simp [hsame, dirtyBlock, hcfg2, hwb]

/-- C8, instance: a store to address 0 in the start state of a direct-mapped
write-back cache; replaying the store and then a load of address 8, which
evicts the stored block, counts no memory write at the store and one at the
load. -/
theorem write_back_defers_store_witness :
    (∃ w1 row way b, access wbStart 'W' 0 0 = .ok w1 ∧
      wbStart.cache.sets[0]? = some row ∧ row[way]? = some b ∧
      w1.cache.sets = wbStart.cache.sets.set 0 (row.set way (dirtyBlock 0 (0 + 1))) ∧
      (b.valid = false ∨ b.dirty = false →
        w1.stats.memory_writes = wbStart.stats.memory_writes) ∧
      ∀ (mid : List Access) (w2 : Machine) (addr2 rnd2 blk2 tag2 : Nat)
        (row2 : List CacheBlock),
        run w1 mid = .ok w2 →
        readSlot w2.cache.sets 0 way = readSlot w1.cache.sets 0 way →
        lookup w2 addr2 = .ok ((blk2, 0, tag2), none) →
        w2.cache.sets[0]? = some row2 → (∀ c ∈ row2, c.valid = true) →
        chooseVictim w2 0 rnd2 = .ok (some way) →
        ∃ w3, access w2 'R' addr2 rnd2 = .ok w3 ∧
          w3.stats.memory_writes = w2.stats.memory_writes + 1) ∧
    (run wbStart [st 0]).map (fun m => m.stats.memory_writes) = .ok 0 ∧
    (run wbStart [st 0, ld 8]).map (fun m => m.stats.memory_writes) = .ok 1 :=
  ⟨write_back_defers_store wbStart 0 0 0 0 0
    { block_size := by decide
      num_sets_pos := by decide
      num_sets_u32 := by decide
      ways_pos := by decide
      sets_length := by decide
      row_length := by decide }
    (by decide) (by decide) (by decide), by decide, by decide⟩

/-! ## Classification of misses -/

/-- C9. With `associativity = 0`: (1) no completed access, in any state,
changes `conflict_misses`; (2) from the start state (zeroed statistics) of a
representable configuration with `ways >= 1` the replay of every trace
completes with `conflict_misses = 0`; (3) every completed access that misses
on a block id already in the seen-block ledger increases `capacity_misses` by
exactly 1 and leaves `compulsory_misses` and the ledger unchanged; (4) in a
well-shaped state every access completes. -/
theorem fully_associative_no_conflict :
    (∀ (w w1 : Machine) (type : Char) (addr rnd : Nat),
        w.config.associativity = 0 → access w type addr rnd = .ok w1 →
        w1.stats.conflict_misses = w.stats.conflict_misses) ∧
    (∀ (cfg : Config) (w0 : Machine) (tr : List Access),
        cfg.representable → cfg.associativity = 0 → start cfg = .ok w0 →
        1 ≤ w0.cache.ways →
        ∃ w, run w0 tr = .ok w ∧ w.stats.conflict_misses = 0) ∧
    (∀ (w w1 : Machine) (type : Char) (addr rnd blk idx tag : Nat),
        w.config.associativity = 0 → lookup w addr = .ok ((blk, idx, tag), none) →
        blk ∈ w.seen_blocks → access w type addr rnd = .ok w1 →
        w1.stats.capacity_misses = w.stats.capacity_misses + 1 ∧
        w1.stats.compulsory_misses = w.stats.compulsory_misses ∧
        w1.stats.conflict_misses = w.stats.conflict_misses ∧
        w1.seen_blocks = w.seen_blocks) ∧
    (∀ (w : Machine) (type : Char) (addr rnd : Nat), WF w →
        ∃ w1, access w type addr rnd = .ok w1) := by
  have step : ∀ (w w1 : Machine) (type : Char) (addr rnd : Nat),
      w.config.associativity = 0 → access w type addr rnd = .ok w1 →
      w1.stats.conflict_misses = w.stats.conflict_misses := by
    intro w w1 type addr rnd ha hacc
    obtain ⟨blk, idx, tag, hw, _, _, _, h3, _⟩ := access_classes hacc
    rw [h3]
    cases hw with
    | some way => exact (account_hit_classes w type blk).2.2.1
    | none =>
      rw [Option.isSome_none, (account_miss_classes w type blk).2.2.1]
      simp [ha]
  refine ⟨step, ?_, ?_, fun w type addr rnd hw => access_total hw type addr rnd⟩
  · intro cfg w0 tr hrep ha h0 hwy
    have hns : w0.cache.num_sets = 1 := by
      obtain ⟨ns, wy, hg, _, _, e⟩ := start_ok h0
      obtain ⟨_, _, hcase⟩ := geometry_ok hg
      subst e
      rcases hcase with ⟨_, h1, _⟩ | ⟨h1, _⟩
      · exact h1
      · exact absurd ha h1
    obtain ⟨w, hrun, _⟩ := run_total (start_wf hrep h0 (by omega) hwy) tr
    refine ⟨w, hrun, ?_⟩
    have hinit : w0.config.associativity = 0 ∧ w0.stats.conflict_misses = 0 := by
      obtain ⟨h1, _, _, h4⟩ := start_stats h0
      rw [h1, h4]
      exact ⟨ha, rfl⟩
    exact (run_induct
      (fun m => m.config.associativity = 0 ∧ m.stats.conflict_misses = 0)
      (fun m m1 type addr rnd hm hacc =>
        ⟨by rw [(access_frame hacc).1]; exact hm.1,
         by rw [step m m1 type addr rnd hm.1 hacc]; exact hm.2⟩)
      tr w0 w hinit hrun).2
  · intro w w1 type addr rnd blk idx tag ha hl hseen hacc
    obtain ⟨blk2, idx2, tag2, hw, hl2, h1, h2, h3, h4⟩ := access_classes hacc
    rw [hl] at hl2
    simp only [Except.ok.injEq, Prod.mk.injEq] at hl2
    obtain ⟨⟨e1, _, _⟩, e2⟩ := hl2
    subst e1 e2
    obtain ⟨g1, g2, g3, g4⟩ := account_miss_classes w type blk
    rw [Option.isSome_none] at h1 h2 h3 h4
    rw [h1, h2, h3, h4, g1, g2, g3, g4]
    simp [ha, hseen]

/-- C9, instance of part (2): a fully associative cache of two ways replaying
a trace that misses on blocks it has seen before. -/
theorem fully_associative_no_conflict_witness :
    ∃ w, run { config := faConfig, stats := {}, global_time := 0, seen_blocks := [],
               cache := { sets := List.replicate 1 (List.replicate 2 {}),
                          num_sets := 1, ways := 2 } }
        [ld 0, ld 4, ld 8, ld 0, ld 4] = .ok w ∧ w.stats.conflict_misses = 0 :=
  fully_associative_no_conflict.2.1 faConfig _ _ (by decide) (by decide) (by decide)
    (by decide)

/-- C10, as stated, fails on the code. In the direct-mapped `wtConfig` the
addresses 0 and 8 have the block ids 0 and 2, both of set 0. Replaying two
loads, the second miss is counted as compulsory, not as conflict; and with
`write_allocate = 0` the store to address 8 installs nothing, so the load of
address 0 after it is a hit. -/
theorem direct_mapped_thrash_counterexample :
    (∃ w0 w, start wtConfig = .ok w0 ∧
      decompose w0 0 = .ok (0, 0, 0) ∧ decompose w0 8 = .ok (2, 0, 1) ∧
      run w0 (alternate 0 8 [('R', 0), ('R', 0)]) = .ok w ∧
      w.stats.load_misses = 2 ∧ w.stats.compulsory_misses = 2 ∧
      w.stats.conflict_misses = 0) ∧
    (∃ w0 w, start { wtConfig with write_allocate := 0 } = .ok w0 ∧
      run w0 (alternate 0 8 [('R', 0), ('W', 0), ('R', 0)]) = .ok w ∧
      w.stats.load_hits = 1 ∧ w.stats.load_misses = 1 ∧ w.stats.store_misses = 1) := by
  refine ⟨⟨_, ?_, rfl, by decide, by decide, ?_⟩, ⟨_, ?_, rfl, ?_⟩⟩
  · exact { config := wtConfig
            stats := { total_loads := 2, load_misses := 2, compulsory_misses := 2,
                       memory_reads := 2 }
            global_time := 2
            seen_blocks := [2, 0]
            cache := { sets := [[{ valid := true, tag := 1, last_access_time := 2,
                                   insertion_time := 2 }], [{}]]
                       num_sets := 2, ways := 1 } }
  · decide
  · exact { config := { wtConfig with write_allocate := 0 }
            stats := { total_loads := 2, total_stores := 1, load_hits := 1, load_misses := 1,
                       store_misses := 1, compulsory_misses := 2, memory_reads := 1,
                       memory_writes := 1 }
            global_time := 3
            seen_blocks := [2, 0]
            cache := { sets := [[{ valid := true, tag := 0, last_access_time := 3,
                                   insertion_time := 1 }], [{}]]
                       num_sets := 2, ways := 1 } }
  · decide

/-- C10, amended. In a direct-mapped cache (`associativity = 1`,
`num_sets >= 1`) started empty, for every two addresses whose block ids differ
but map to the same set and every trace alternating between them (any
operation codes and random draws): the replay completes; no miss is counted
as capacity; the compulsory misses are exactly the first access to each of the
two blocks (`min n 2` after `n` accesses) and every other miss is counted as
conflict. If moreover no access is a store under no-write-allocate, every
access is a miss (both hit counters stay 0), so after `n` accesses there are
`n` misses, of which `n - min n 2` are conflict misses. -/
theorem direct_mapped_thrash (cfg : Config) (w0 : Machine) (a b ba bb idx ta tb : Nat)
    (ops : List (Char × Nat))
    (hrep : cfg.representable) (hassoc : cfg.associativity = 1) (h0 : start cfg = .ok w0)
    (hns : 1 ≤ w0.cache.num_sets)
    (hda : decompose w0 a = .ok (ba, idx, ta)) (hdb : decompose w0 b = .ok (bb, idx, tb))
    (hne : ba ≠ bb) :
    ∃ w, run w0 (alternate a b ops) = .ok w ∧
      w.stats.capacity_misses = 0 ∧
      w.stats.compulsory_misses = min (ops.length : Int) 2 ∧
      w.stats.compulsory_misses + w.stats.conflict_misses =
        w.stats.load_misses + w.stats.store_misses ∧
      ((∀ op ∈ ops, ¬ (op.1 = 'W' ∧ cfg.write_allocate = 0)) →
        w.stats.load_hits = 0 ∧ w.stats.store_hits = 0 ∧
        w.stats.load_misses + w.stats.store_misses = ops.length ∧
        w.stats.conflict_misses = ops.length - min (ops.length : Int) 2) := by
  obtain ⟨hstats, hseen, _, hcfg⟩ := start_stats h0
  have hways : w0.cache.ways = 1 := by
    obtain ⟨ns, wy, hg, _, _, e⟩ := start_ok h0
    obtain ⟨_, _, hcase⟩ := geometry_ok hg
    subst e
    rcases hcase with ⟨h1, _⟩ | ⟨_, h1, _⟩
    · rw [hassoc] at h1; cases h1
    · simp only [h1, hassoc]
  have hw := start_wf hrep h0 hns (by rw [hways])
  have hassoc0 : w0.config.associativity ≠ 0 := by rw [hcfg, hassoc]; decide
  have htag : ta ≠ tb := by
    have e1 := decompose_eq hw a
    have e2 := decompose_eq hw b
    rw [hda] at e1
    rw [hdb] at e2
    simp only [hassoc0, if_false, Except.ok.injEq, Prod.mk.injEq] at e1 e2
    obtain ⟨a1, a2, a3⟩ := e1
    obtain ⟨b1, b2, b3⟩ := e2
    intro heq
    apply hne
    have m1 := Nat.div_add_mod ba w0.cache.num_sets.toNat
    have m2 := Nat.div_add_mod bb w0.cache.num_sets.toNat
    rw [a1, ← a2, ← a3] at m1
    rw [b1, ← b2, ← b3] at m2
    rw [← a1, ← b1] at *
    rw [← m1, ← m2, heq]
  have hempty : ∀ (t : Nat) (s : CacheBlock), w0.cache.sets[idx]? = some [s] →
      isHit t s = false := by
    intro t s hs
    have : w0.holds s := ⟨[s], List.getElem?_mem hs, List.mem_singleton.mpr rfl⟩
    rw [start_holds h0 this]
    rfl
  obtain ⟨w, hrun, hcap, hcom, hhits⟩ := alternate_run ops w0 a b ba bb idx ta tb hw hways
    hassoc0 hda hdb hne htag (fun s hs => ⟨fun _ => hempty ta s hs, fun _ => hempty tb s hs⟩)
  have hcls := run_classified (w := w0) (by rw [hstats]; rfl) hrun
  have hbal := run_balanced (w := w0) (by rw [hstats]; exact ⟨rfl, rfl⟩) hrun
  have htot := run_totals hrun
  rw [alternate_length] at htot
  rw [hstats, hseen] at hcom
  rw [hstats] at hcap htot
  simp only [List.not_mem_nil, not_false_eq_true, and_true] at hcom
  have hcap0 : w.stats.capacity_misses = 0 := hcap
  have hcom0 : w.stats.compulsory_misses = min (ops.length : Int) 2 := by
    rw [hcom]
    show (0 : Int) + _ + _ = _
    by_cases h1 : 1 ≤ ops.length <;> by_cases h2 : 2 ≤ ops.length <;>
      simp only [h1, h2, if_true, if_false] <;> omega
  unfold Stats.classified at hcls
  unfold Stats.balanced at hbal
  refine ⟨w, hrun, hcap0, hcom0, by omega, ?_⟩
  intro hall
  obtain ⟨h1, h2⟩ := hhits (fun o ho => by rw [hcfg]; exact hall o ho)
    (fun s hs => hempty ta s hs)
  rw [hstats] at h1 h2
  have h1z : w.stats.load_hits = 0 := h1
  have h2z : w.stats.store_hits = 0 := h2
  have htz : w.stats.total_loads + w.stats.total_stores = ops.length := by
    rw [htot]
    show (0 : Int) + 0 + _ = _
    omega
  refine ⟨h1z, h2z, by omega, by omega⟩

/-- C10, instance: the example configuration (four sets of one way), the
addresses 0 and 16 of set 0, and a trace of loads and stores. -/
theorem direct_mapped_thrash_witness :
    ∃ w, run exampleStart
        (alternate 0 16 [('R', 0), ('W', 0), ('R', 0), ('W', 1), ('R', 2)]) = .ok w ∧
      w.stats.capacity_misses = 0 ∧
      w.stats.compulsory_misses = min ((5 : Nat) : Int) 2 ∧
      w.stats.compulsory_misses + w.stats.conflict_misses =
        w.stats.load_misses + w.stats.store_misses ∧
      ((∀ op ∈ [('R', 0), ('W', 0), ('R', 0), ('W', 1), ('R', 2)],
          ¬ (op.1 = 'W' ∧ exampleConfig.write_allocate = 0)) →
        w.stats.load_hits = 0 ∧ w.stats.store_hits = 0 ∧
        w.stats.load_misses + w.stats.store_misses = (5 : Nat) ∧
        w.stats.conflict_misses = (5 : Nat) - min ((5 : Nat) : Int) 2) :=
  direct_mapped_thrash exampleConfig exampleStart 0 16 0 4 0 0 1 _ (by decide) (by decide)
    (by decide) (by decide) (by decide) (by decide) (by decide)

/-! ## Invariants of the slots -/

/-- C16. In every state reachable from the start state of any configuration
by a sequence of accesses, every slot with `valid = false` has
`dirty = false`. -/
theorem invalid_slot_not_dirty (cfg : Config) (w : Machine) (hreach : Reachable cfg w) :
    ∀ row ∈ w.cache.sets, ∀ c ∈ row, c.valid = false → c.dirty = false := by
  obtain ⟨w0, tr, h0, hr⟩ := hreach
  have key : ∀ c, w.holds c → c.valid = false → c.dirty = false := by
    refine run_induct (fun m => ∀ c, m.holds c → c.valid = false → c.dirty = false)
      ?_ tr w0 w ?_ hr
    · intro m m1 type addr rnd hm hacc c hc hv
      rcases access_holds hacc hc with h1 | ⟨b, _, hb, e⟩ | ⟨tag, _, e⟩
      · exact hm c h1 hv
      · subst e
        simp [hitBlock, hb] at hv
      · subst e
        simp [installedBlock, newBlock] at hv
    · intro c hc _
      rw [start_holds h0 hc]
  intro row hrow c hc
  exact key c ⟨row, hrow, hc⟩

/-- C16, instance: after a write-back store to address 0 the slot of set 1 is
still invalid, and it is not dirty. -/
theorem invalid_slot_not_dirty_witness :
    Reachable { wtConfig with write_policy := "WRITE_BACK" } wbStored ∧
      (∃ row ∈ wbStored.cache.sets, ∃ c ∈ row, c.valid = false ∧ c.dirty = false) :=
  ⟨⟨_, [st 0], rfl, by decide⟩,
   [{}], by decide, {}, by decide, rfl,
   invalid_slot_not_dirty { wtConfig with write_policy := "WRITE_BACK" } wbStored
     ⟨_, [st 0], rfl, by decide⟩ [{}] (by decide) {} (by decide) rfl⟩

/-! ## Absence of faults -/

/-- A machine with a positive block size, `num_sets >= 1` sets and `ways >= 1`
ways, whose vectors have these sizes, is well shaped. -/
theorem wf_of_geometry {w : Machine}
    (hbs : 1 ≤ w.config.block_size) (hbs32 : isInt32 w.config.block_size)
    (hns : 1 ≤ w.cache.num_sets) (hns32 : isInt32 w.cache.num_sets)
    (hwy : 1 ≤ w.cache.ways)
    (hlen : w.cache.sets.length = w.cache.num_sets.toNat)
    (hrows : ∀ row ∈ w.cache.sets, row.length = w.cache.ways.toNat) : WF w :=
  { block_size := by
      obtain ⟨_, h2⟩ := hbs32
      simp only [toU32]
      omega
    num_sets_pos := hns
    num_sets_u32 := by
      obtain ⟨_, h2⟩ := hns32
      omega
    ways_pos := hwy
    sets_length := hlen
    row_length := hrows }

/-- C14. For a cache with `block_size >= 1`, `num_sets >= 1` sets and
`ways >= 1` ways per set (the vectors having these sizes), in every such state
and for every operation code, address, replacement policy and random draw:
`access` completes without any fault (no division by zero, no index outside
`sets` or a set); the set index it computes is `< num_sets`; a hit way is
`< ways`; and on a miss that installs, the chosen way, which is the first
invalid way or else the eviction candidate of the policy, is `< ways` and
names a slot of the indexed set. -/
theorem access_in_range (w : Machine) (type : Char) (addr rnd : Nat)
    (hbs : 1 ≤ w.config.block_size) (hbs32 : isInt32 w.config.block_size)
    (hns : 1 ≤ w.cache.num_sets) (hns32 : isInt32 w.cache.num_sets)
    (hwy : 1 ≤ w.cache.ways)
    (hlen : w.cache.sets.length = w.cache.num_sets.toNat)
    (hrows : ∀ row ∈ w.cache.sets, row.length = w.cache.ways.toNat) :
    (∃ w1, access w type addr rnd = .ok w1) ∧
    ∃ blk idx tag hw row, lookup w addr = .ok ((blk, idx, tag), hw) ∧
      (idx : Int) < w.cache.num_sets ∧ w.cache.sets[idx]? = some row ∧
      (∀ way, hw = some way → (way : Int) < w.cache.ways ∧ ∃ b, row[way]? = some b) ∧
      (hw = none → ¬ (type = 'W' ∧ w.config.write_allocate = 0) →
        ∃ way : Nat, (way : Int) < w.cache.ways ∧ (∃ b, row[way]? = some b) ∧
          (emptyCheck w.cache.sets idx w.cache.ways.toNat 0 = .ok (some way) ∨
           (emptyCheck w.cache.sets idx w.cache.ways.toNat 0 = .ok none ∧
            chooseVictim w idx rnd = .ok (some way)))) := by
  have hw := wf_of_geometry hbs hbs32 hns hns32 hwy hlen hrows
  obtain ⟨w1, hacc⟩ := access_total hw type addr rnd
  refine ⟨⟨w1, hacc⟩, ?_⟩
  obtain ⟨blk, idx, tag, hit, row, hl, hd, hrow⟩ := lookup_total hw addr
  have hidx := decompose_index_lt hw hd
  have hrl := hw.row_of hrow
  have hlt : ∀ (way : Nat) (b : CacheBlock), row[way]? = some b →
      (way : Int) < w.cache.ways := by
    intro way b hb
    have := getElem?_lt hb
    omega
  refine ⟨blk, idx, tag, hit, row, hl, by omega, hrow, ?_, ?_⟩
  · intro way hway
    subst hway
    obtain ⟨_, row2, b, hrow2, hb, _⟩ := lookup_hit hl
    rw [hrow] at hrow2
    cases hrow2
    exact ⟨hlt way b hb, b, hb⟩
  · intro hnone hna
    subst hnone
    obtain ⟨blk2, idx2, tag2, _, hcase⟩ := access_cases hacc
    rcases hcase with ⟨way, row2, b, hl2, _⟩ | ⟨_, hc, _⟩ |
      ⟨hl2, _, way, row2, b, hrow2, hb, hcase2⟩
    · rw [hl] at hl2
      simp at hl2
    · exact absurd hc hna
    · rw [hl] at hl2
      simp only [Except.ok.injEq, Prod.mk.injEq, and_true] at hl2
      obtain ⟨e1, e2, e3⟩ := hl2
      subst e1 e2 e3
      rw [hrow] at hrow2
      cases hrow2
      refine ⟨way, hlt way b hb, ⟨b, hb⟩, ?_⟩
      rcases hcase2 with ⟨he, _, _⟩ | ⟨he, hv, _⟩
      · exact Or.inl he
      · exact Or.inr ⟨he, hv⟩

/-- C14, instance: a load of address 112 in the full LRU state `lruFull`
under the RANDOM policy with the random draw 7. -/
theorem access_in_range_witness :
    (∃ w1, access { lruFull with config := { lruConfig with replacement_policy := "RANDOM" } }
        'R' 112 7 = .ok w1) ∧
    ∃ blk idx tag hw row,
      lookup { lruFull with config := { lruConfig with replacement_policy := "RANDOM" } } 112 =
        .ok ((blk, idx, tag), hw) ∧
      (idx : Int) < 2 ∧ lruFull.cache.sets[idx]? = some row ∧
      (∀ way, hw = some way → (way : Int) < 3 ∧ ∃ b, row[way]? = some b) ∧
      (hw = none → ¬ ('R' = 'W' ∧ (1 : Int) = 0) →
        ∃ way : Nat, (way : Int) < 3 ∧ (∃ b, row[way]? = some b) ∧
          (emptyCheck lruFull.cache.sets idx (3 : Int).toNat 0 = .ok (some way) ∨
           (emptyCheck lruFull.cache.sets idx (3 : Int).toNat 0 = .ok none ∧
            chooseVictim
              { lruFull with config := { lruConfig with replacement_policy := "RANDOM" } }
              idx 7 = .ok (some way)))) :=
  access_in_range { lruFull with config := { lruConfig with replacement_policy := "RANDOM" } }
    'R' 112 7 (by decide) (by decide) (by decide) (by decide) (by decide) (by decide)
    (by decide)

/-! ## Memory traffic of one access -/

/-- Induction rule for the replay of a trace all of whose records satisfy `Q`. -/
theorem run_induct_on (Q : Access → Prop) (P : Machine → Prop)
    (hstep : ∀ w w1 a, Q a → P w → access w a.type a.addr a.rnd = .ok w1 → P w1) :
    ∀ (tr : List Access), (∀ a ∈ tr, Q a) → ∀ (w w1 : Machine), P w →
      run w tr = .ok w1 → P w1 := by
  intro tr
  induction tr with
  | nil =>
    intro _ w w1 hP h
    simp only [run, Except.ok.injEq] at h
    exact h ▸ hP
  | cons a rest ih =>
    intro hQ w w1 hP h
    rw [run] at h
    cases ha : access w a.type a.addr a.rnd with
    | error e => simp [ha] at h
    | ok w2 =>
      simp only [ha] at h
      exact ih (fun b hb => hQ b (List.mem_cons_of_mem _ hb)) w2 w1
        (hstep w w2 a (hQ a (List.mem_cons_self _ _)) hP ha) h

/-- The store and miss counters after the counter update of lines 110-117. -/
theorem countAccess_stores (s : Stats) (type : Char) (hit : Bool) :
    (countAccess s type hit).total_stores = s.total_stores + (if type = 'R' then 0 else 1) ∧
    (countAccess s type hit).load_misses =
      s.load_misses + (if type = 'R' ∧ hit = false then 1 else 0) ∧
    (countAccess s type hit).store_misses =
      s.store_misses + (if ¬ type = 'R' ∧ hit = false then 1 else 0) := by
  unfold countAccess
  by_cases ht : type = 'R' <;> cases hit <;> simp [ht]

theorem classifyMiss_stores (w : Machine) (blk : Nat) :
    (classifyMiss w blk).stats.total_stores = w.stats.total_stores ∧
    (classifyMiss w blk).stats.load_misses = w.stats.load_misses ∧
    (classifyMiss w blk).stats.store_misses = w.stats.store_misses := by
  unfold classifyMiss
  by_cases h1 : blk ∈ w.seen_blocks
  · by_cases h2 : w.config.associativity = 0 <;> simp [h1, h2]
  · simp [h1]

/-- The store and miss counters after a completed access. -/
theorem access_stores {w w1 : Machine} {type : Char} {addr rnd : Nat}
    (h : access w type addr rnd = .ok w1) :
    ∃ blk idx tag hw, lookup w addr = .ok ((blk, idx, tag), hw) ∧
      w1.stats.total_stores = w.stats.total_stores + (if type = 'R' then 0 else 1) ∧
      w1.stats.load_misses =
        w.stats.load_misses + (if type = 'R' ∧ hw = none then 1 else 0) ∧
      w1.stats.store_misses =
        w.stats.store_misses + (if ¬ type = 'R' ∧ hw = none then 1 else 0) := by
  obtain ⟨blk, idx, tag, hw, hl, hcore, _⟩ := access_core h
  have e1 := congrArg Stats.total_stores hcore
  have e2 := congrArg Stats.load_misses hcore
  have e3 := congrArg Stats.store_misses hcore
  simp only [Stats.core] at e1 e2 e3
  refine ⟨blk, idx, tag, hw, hl, ?_⟩
  rw [e1, e2, e3]
  cases hw with
  | some way =>
    obtain ⟨g1, g2, g3⟩ := countAccess_stores w.stats type true
    simp only [account, Option.isSome_some, if_true, counted_stats]
    rw [g1, g2, g3]
    simp
  | none =>
    obtain ⟨g1, g2, g3⟩ := countAccess_stores w.stats type false
    obtain ⟨c1, c2, c3⟩ := classifyMiss_stores (counted w type false) blk
    simp only [account, Option.isSome_none, Bool.false_eq_true, if_false, missBase]
    rw [c1, c2, c3]
    simp only [counted_stats]
    rw [g1, g2, g3]
    simp

theorem ite_decide_int (p : Prop) [Decidable p] :
    (if decide p = true then (1 : Int) else 0) = if p then 1 else 0 := by
  by_cases h : p <;> simp [h]

/-- The memory traffic of a completed access: one read for every miss that
brings its block in; one write for a store under `WRITE_THROUGH` or a store
miss under no-write-allocate; and `ev`, one more write only when a dirty slot
is evicted under `WRITE_BACK`. -/
theorem access_traffic {w w1 : Machine} {type : Char} {addr rnd : Nat}
    (h : access w type addr rnd = .ok w1) :
    ∃ blk idx tag hw, lookup w addr = .ok ((blk, idx, tag), hw) ∧
      w1.stats.memory_reads = w.stats.memory_reads +
        (if hw = none ∧ ¬ (type = 'W' ∧ w.config.write_allocate = 0) then 1 else 0) ∧
      ∃ ev : Int, (ev = 0 ∨ (ev = 1 ∧ w.config.write_policy = "WRITE_BACK" ∧ hw = none)) ∧
        w1.stats.memory_writes = w.stats.memory_writes +
          (if type = 'W' ∧ (w.config.write_policy = "WRITE_THROUGH" ∨
              (hw = none ∧ w.config.write_allocate = 0)) then 1 else 0) + ev := by
  obtain ⟨blk, idx, tag, _, hcase⟩ := access_cases h
  obtain ⟨r0, w0⟩ := countAccess_traffic w.stats type true
  obtain ⟨r1, w1e⟩ := missBase_traffic w type blk
  rcases hcase with ⟨way, row, b, hl, _, _, _, e⟩ | ⟨hl, hc, e⟩ |
    ⟨hl, hna, way, row, b, _, _, ⟨_, _, e⟩ | ⟨_, _, e⟩⟩
  · have hAB : (type = 'W' ∧ (w.config.write_policy = "WRITE_THROUGH" ∨
        ((some way : Option Nat) = none ∧ w.config.write_allocate = 0))) ↔
        (type = 'W' ∧ w.config.write_policy = "WRITE_THROUGH") := by
      constructor
      · rintro ⟨h1, h2 | ⟨h2, _⟩⟩
        · exact ⟨h1, h2⟩
        · cases h2
      · rintro ⟨h1, h2⟩
        exact ⟨h1, Or.inl h2⟩
    have hR : ¬ ((some way : Option Nat) = none ∧
        ¬ (type = 'W' ∧ w.config.write_allocate = 0)) := by
      rintro ⟨h1, _⟩
      cases h1
    refine ⟨blk, idx, tag, some way, hl, ?_, 0, Or.inl rfl, ?_⟩
    · subst e
      rw [(putSlot_traffic _ _ _ _ _ _).1, counted_stats, r0, if_neg hR, add_zero]
    · subst e
      rw [(putSlot_traffic _ _ _ _ _ _).2, counted_stats, w0, ite_decide_int, add_zero]
      by_cases hc : type = 'W' ∧ w.config.write_policy = "WRITE_THROUGH"
      · rw [if_pos hc, if_pos (hAB.mpr hc)]
      · rw [if_neg hc, if_neg (mt hAB.mp hc)]
  · have hB : type = 'W' ∧ (w.config.write_policy = "WRITE_THROUGH" ∨
        ((none : Option Nat) = none ∧ w.config.write_allocate = 0)) :=
      ⟨hc.1, Or.inr ⟨rfl, hc.2⟩⟩
    have hR : ¬ ((none : Option Nat) = none ∧
        ¬ (type = 'W' ∧ w.config.write_allocate = 0)) := by
      rintro ⟨_, h2⟩
      exact h2 hc
    refine ⟨blk, idx, tag, none, hl, ?_, 0, Or.inl rfl, ?_⟩
    · subst e
      show (missBase w type blk).stats.memory_reads = _
      rw [r1, if_neg hR, add_zero]
    · subst e
      show (missBase w type blk).stats.memory_writes + 1 = _
      rw [w1e, if_pos hB, add_zero]
  · have hAB : (type = 'W' ∧ (w.config.write_policy = "WRITE_THROUGH" ∨
        ((none : Option Nat) = none ∧ w.config.write_allocate = 0))) ↔
        (type = 'W' ∧ w.config.write_policy = "WRITE_THROUGH") := by
      constructor
      · rintro ⟨h1, h2 | ⟨_, h2⟩⟩
        · exact ⟨h1, h2⟩
        · exact absurd ⟨h1, h2⟩ hna
      · rintro ⟨h1, h2⟩
        exact ⟨h1, Or.inl h2⟩
    have hR : (none : Option Nat) = none ∧
        ¬ (type = 'W' ∧ w.config.write_allocate = 0) := ⟨rfl, hna⟩
    refine ⟨blk, idx, tag, none, hl, ?_, 0, Or.inl rfl, ?_⟩
    · subst e
      rw [(putSlot_traffic _ _ _ _ _ _).1, (countRead_traffic _).1, r1, if_pos hR]
    · subst e
      rw [(putSlot_traffic _ _ _ _ _ _).2, (countRead_traffic _).2, w1e, ite_decide_int,
        add_zero]
      by_cases hc : type = 'W' ∧ w.config.write_policy = "WRITE_THROUGH"
      · rw [if_pos hc, if_pos (hAB.mpr hc)]
      · rw [if_neg hc, if_neg (mt hAB.mp hc)]
  · have hAB : (type = 'W' ∧ (w.config.write_policy = "WRITE_THROUGH" ∨
        ((none : Option Nat) = none ∧ w.config.write_allocate = 0))) ↔
        (type = 'W' ∧ w.config.write_policy = "WRITE_THROUGH") := by
      constructor
      · rintro ⟨h1, h2 | ⟨_, h2⟩⟩
        · exact ⟨h1, h2⟩
        · exact absurd ⟨h1, h2⟩ hna
      · rintro ⟨h1, h2⟩
        exact ⟨h1, Or.inl h2⟩
    have hR : (none : Option Nat) = none ∧
        ¬ (type = 'W' ∧ w.config.write_allocate = 0) := ⟨rfl, hna⟩
    refine ⟨blk, idx, tag, none, hl, ?_,
      (if b.dirty = true ∧ w.config.write_policy = "WRITE_BACK" then 1 else 0), ?_, ?_⟩
    · subst e
      rw [(putSlot_traffic _ _ _ _ _ _).1, (evictCount_traffic _ _).1,
        (countRead_traffic _).1, r1, if_pos hR]
    · by_cases hd : b.dirty = true ∧ w.config.write_policy = "WRITE_BACK"
      · exact Or.inr ⟨if_pos hd, hd.2, rfl⟩
      · exact Or.inl (if_neg hd)
    · subst e
      rw [(putSlot_traffic _ _ _ _ _ _).2, (evictCount_traffic _ _).2,
        (countRead_traffic _).2, w1e, ite_decide_int]
      rw [show (missBase w type blk).countRead.config = w.config from by simp]
      generalize (if b.dirty = true ∧ w.config.write_policy = "WRITE_BACK" then (1 : Int)
        else 0) = x
      by_cases hc : type = 'W' ∧ w.config.write_policy = "WRITE_THROUGH"
      · rw [if_pos hc, if_pos (hAB.mpr hc)]
        omega
      · rw [if_neg hc, if_neg (mt hAB.mp hc)]
        omega

/-- Under `WRITE_THROUGH` a completed `'R'` or `'W'` access counts one memory
write exactly when it counts one store. -/
theorem write_through_step {w w1 : Machine} {type : Char} {addr rnd : Nat}
    (hwt : w.config.write_policy = "WRITE_THROUGH") (ht : type = 'R' ∨ type = 'W')
    (h : access w type addr rnd = .ok w1) :
    w1.stats.memory_writes = w.stats.memory_writes + (if type = 'W' then 1 else 0) ∧
    w1.stats.total_stores = w.stats.total_stores + (if type = 'W' then 1 else 0) := by
  obtain ⟨blk, idx, tag, hw, hl, _, ev, hev, hwr⟩ := access_traffic h
  obtain ⟨blk2, idx2, tag2, hw2, _, hts, _, _⟩ := access_stores h
  have hev0 : ev = 0 := by
    rcases hev with h0 | ⟨_, hwb, _⟩
    · exact h0
    · rw [hwt] at hwb
      exact absurd hwb (by decide)
  rw [hwr, hts, hev0, add_zero]
  rcases ht with ht | ht
  · subst ht
    have hne : ¬ ('R' = 'W') := by decide
    simp only [hne, false_and, if_false, if_true, and_self]
  · subst ht
    have hne : ¬ ('W' = 'R') := by decide
    simp only [hwt, true_or, and_self, if_true, hne, if_false]

/-- C17. Under `WRITE_THROUGH`, for either `write_allocate` setting and any
replacement policy: (1) from the start state (with `num_sets >= 1`,
`ways >= 1`) the replay of every trace whose operation codes are all `'R'` or
`'W'` completes with `memory_writes = total_stores`, hence after every access;
(2) every completed store `'W'`, hit or miss, in any state adds exactly one
memory write and one store; (3) every completed load `'R'` adds none. -/
theorem write_through_writes_equal_stores :
    (∀ (cfg : Config) (w0 : Machine) (tr : List Access),
        cfg.representable → cfg.write_policy = "WRITE_THROUGH" → start cfg = .ok w0 →
        1 ≤ w0.cache.num_sets → 1 ≤ w0.cache.ways →
        (∀ a ∈ tr, a.type = 'R' ∨ a.type = 'W') →
        ∃ w, run w0 tr = .ok w ∧ w.stats.memory_writes = w.stats.total_stores) ∧
    (∀ (w w1 : Machine) (addr rnd : Nat), w.config.write_policy = "WRITE_THROUGH" →
        access w 'W' addr rnd = .ok w1 →
        w1.stats.memory_writes = w.stats.memory_writes + 1 ∧
        w1.stats.total_stores = w.stats.total_stores + 1) ∧
    (∀ (w w1 : Machine) (addr rnd : Nat), w.config.write_policy = "WRITE_THROUGH" →
        access w 'R' addr rnd = .ok w1 →
        w1.stats.memory_writes = w.stats.memory_writes ∧
        w1.stats.total_stores = w.stats.total_stores) := by
  refine ⟨?_, ?_, ?_⟩
  · intro cfg w0 tr hrep hwt h0 hns hwy hops
    obtain ⟨hstats, _, _, hcfg⟩ := start_stats h0
    obtain ⟨w, hrun, _⟩ := run_total (start_wf hrep h0 hns hwy) tr
    refine ⟨w, hrun, ?_⟩
    have key := run_induct_on (fun a => a.type = 'R' ∨ a.type = 'W')
      (fun m => m.config.write_policy = "WRITE_THROUGH" ∧
        m.stats.memory_writes = m.stats.total_stores)
      (by
        intro m m1 a ha hm hacc
        obtain ⟨h1, h2⟩ := write_through_step hm.1 ha hacc
        refine ⟨by rw [(access_frame hacc).1]; exact hm.1, ?_⟩
        rw [h1, h2, hm.2])
      tr hops w0 w ⟨by rw [hcfg]; exact hwt, by rw [hstats]⟩ hrun
    exact key.2
  · intro w w1 addr rnd hwt hacc
    have := write_through_step hwt (Or.inr rfl) hacc
    simpa using this
  · intro w w1 addr rnd hwt hacc
    have := write_through_step hwt (Or.inl rfl) hacc
    have hne : ¬ ('R' = 'W') := by decide
    simpa [hne] using this

/-- C17, instance of part (1): a write-through cache replaying store misses,
a store hit and loads. -/
theorem write_through_writes_equal_stores_witness :
    ∃ w, run { config := wtConfig, stats := {}, global_time := 0, seen_blocks := [],
               cache := { sets := List.replicate 2 (List.replicate 1 {}),
                          num_sets := 2, ways := 1 } }
        [st 0, st 0, ld 8, st 8, ld 4, st 0] = .ok w ∧
      w.stats.memory_writes = w.stats.total_stores :=
  write_through_writes_equal_stores.1 wtConfig _ _ (by decide) (by decide) (by decide)
    (by decide) (by decide) (by decide)

/-- The memory reads of a completed access against its miss counters. -/
theorem reads_step {w w1 : Machine} {type : Char} {addr rnd : Nat}
    (h : access w type addr rnd = .ok w1) :
    ∃ hw : Option Nat,
      w1.stats.memory_reads = w.stats.memory_reads +
        (if hw = none ∧ ¬ (type = 'W' ∧ w.config.write_allocate = 0) then 1 else 0) ∧
      w1.stats.load_misses =
        w.stats.load_misses + (if type = 'R' ∧ hw = none then 1 else 0) ∧
      w1.stats.store_misses =
        w.stats.store_misses + (if ¬ type = 'R' ∧ hw = none then 1 else 0) := by
  obtain ⟨blk, idx, tag, hw, hl, hrd, _⟩ := access_traffic h
  obtain ⟨blk2, idx2, tag2, hw2, hl2, _, hlm, hsm⟩ := access_stores h
  rw [hl] at hl2
  simp only [Except.ok.injEq, Prod.mk.injEq] at hl2
  obtain ⟨_, e⟩ := hl2
  subst e
  exact ⟨hw, hrd, hlm, hsm⟩

/-- C18. From the start state (with `num_sets >= 1`, `ways >= 1`), for every
write policy and replacement policy, the replay of every trace whose operation
codes are all `'R'` or `'W'` completes, and in the state it ends in (hence
after every access) `memory_reads = load_misses + store_misses` when
`write_allocate != 0`, and `memory_reads = load_misses` when
`write_allocate = 0`. -/
theorem memory_reads_equal_fetching_misses (cfg : Config) (w0 : Machine) (tr : List Access)
    (hrep : cfg.representable) (h0 : start cfg = .ok w0)
    (hns : 1 ≤ w0.cache.num_sets) (hwy : 1 ≤ w0.cache.ways)
    (hops : ∀ a ∈ tr, a.type = 'R' ∨ a.type = 'W') :
    ∃ w, run w0 tr = .ok w ∧
      (cfg.write_allocate ≠ 0 →
        w.stats.memory_reads = w.stats.load_misses + w.stats.store_misses) ∧
      (cfg.write_allocate = 0 → w.stats.memory_reads = w.stats.load_misses) := by
  obtain ⟨hstats, _, _, hcfg⟩ := start_stats h0
  obtain ⟨w, hrun, _⟩ := run_total (start_wf hrep h0 hns hwy) tr
  refine ⟨w, hrun, ?_⟩
  have key := run_induct_on (fun a => a.type = 'R' ∨ a.type = 'W')
    (fun m => m.config = cfg ∧
      (cfg.write_allocate ≠ 0 →
        m.stats.memory_reads = m.stats.load_misses + m.stats.store_misses) ∧
      (cfg.write_allocate = 0 → m.stats.memory_reads = m.stats.load_misses))
    (by
      intro m m1 a ha hm hacc
      obtain ⟨hc, i1, i2⟩ := hm
      obtain ⟨hw, hrd, hlm, hsm⟩ := reads_step hacc
      rw [hc] at hrd
      refine ⟨by rw [(access_frame hacc).1]; exact hc, ?_, ?_⟩
      · intro hwa
        rw [hrd, hlm, hsm, i1 hwa]
        cases hw with
        | some way => simp
        | none =>
          by_cases hr : a.type = 'R'
          · simp [hr, hwa]
            omega
          · simp [hr, hwa]
            omega
      · intro hwa
        rw [hrd, hlm, i2 hwa]
        cases hw with
        | some way => simp
        | none =>
          rcases ha with hr | hr
          · have hne : ¬ a.type = 'W' := by rw [hr]; decide
            simp [hr, hne]
          · have hne : ¬ a.type = 'R' := by rw [hr]; decide
            simp [hr, hne, hwa])
    tr hops w0 w ⟨hcfg, by intro _; rw [hstats]; decide, by intro _; rw [hstats]⟩ hrun
  exact key.2

/-- C18, instance: a write-through cache without write-allocate replaying
store misses and load misses. -/
theorem memory_reads_equal_fetching_misses_witness :
    ∃ w, run { config := { wtConfig with write_allocate := 0 }, stats := {},
               global_time := 0, seen_blocks := [],
               cache := { sets := List.replicate 2 (List.replicate 1 {}),
                          num_sets := 2, ways := 1 } }
        [st 0, ld 0, st 8, ld 8, ld 0, st 0] = .ok w ∧
      (({ wtConfig with write_allocate := 0 } : Config).write_allocate ≠ 0 →
        w.stats.memory_reads = w.stats.load_misses + w.stats.store_misses) ∧
      (({ wtConfig with write_allocate := 0 } : Config).write_allocate = 0 →
        w.stats.memory_reads = w.stats.load_misses) :=
  memory_reads_equal_fetching_misses { wtConfig with write_allocate := 0 } _ _ (by decide)
    (by decide) (by decide) (by decide) (by decide)

/-! ## The seen-block ledger -/

theorem decompose_block {w : Machine} {addr blk idx tag : Nat}
    (h : decompose w addr = .ok (blk, idx, tag)) :
    get_block_address w.config addr = .ok blk := by
  unfold decompose at h
  cases hg : get_block_address w.config addr with
  | error e => simp [hg] at h
  | ok b =>
    simp only [hg] at h
    by_cases h1 : toU32 w.cache.num_sets = 0
    · simp [h1] at h
    · by_cases h2 : w.config.associativity = 0
      · simp only [h1, h2, if_false, if_true, Except.ok.injEq, Prod.mk.injEq] at h
        rw [h.1]
      · simp only [h1, h2, if_false, Except.ok.injEq, Prod.mk.injEq] at h
        rw [h.1]

theorem lookup_decompose {w : Machine} {addr : Nat} {d : Nat × Nat × Nat} {hw : Option Nat}
    (h : lookup w addr = .ok (d, hw)) : decompose w addr = .ok d := by
  obtain ⟨blk, idx, tag⟩ := d
  cases hw with
  | some way => exact (lookup_hit h).1
  | none => exact (lookup_miss h).1

/-- The ledger and the compulsory counter after a completed access: either
both are unchanged (a hit, or a miss on a block id in the ledger), or the
access missed on a block id outside the ledger, which is entered and counted. -/
theorem access_ledger {w w1 : Machine} {type : Char} {addr rnd : Nat}
    (h : access w type addr rnd = .ok w1) :
    ∃ blk idx tag hw, lookup w addr = .ok ((blk, idx, tag), hw) ∧
      get_block_address w.config addr = .ok blk ∧
      (((hw ≠ none ∨ blk ∈ w.seen_blocks) ∧
          w1.stats.compulsory_misses = w.stats.compulsory_misses ∧
          w1.seen_blocks = w.seen_blocks) ∨
       (hw = none ∧ blk ∉ w.seen_blocks ∧
          w1.stats.compulsory_misses = w.stats.compulsory_misses + 1 ∧
          w1.seen_blocks = blk :: w.seen_blocks)) := by
  obtain ⟨blk, idx, tag, hw, hl, h1, _, _, h4⟩ := access_classes h
  refine ⟨blk, idx, tag, hw, hl, decompose_block (lookup_decompose hl), ?_⟩
  cases hw with
  | some way =>
    obtain ⟨g1, _, _, g4⟩ := account_hit_classes w type blk
    rw [Option.isSome_some] at h1 h4
    exact Or.inl ⟨Or.inl (by simp), by rw [h1, g1], by rw [h4, g4]⟩
  | none =>
    obtain ⟨g1, _, _, g4⟩ := account_miss_classes w type blk
    rw [Option.isSome_none] at h1 h4
    by_cases hs : blk ∈ w.seen_blocks
    · refine Or.inl ⟨Or.inr hs, ?_, ?_⟩
      · rw [h1, g1, if_pos hs, add_zero]
      · rw [h4, g4, if_pos hs]
    · refine Or.inr ⟨rfl, hs, ?_, ?_⟩
      · rw [h1, g1, if_neg hs]
      · rw [h4, g4, if_neg hs]

/-- The ledger never loses an id in a completed access. -/
theorem access_ledger_mono {w w1 : Machine} {type : Char} {addr rnd : Nat}
    (h : access w type addr rnd = .ok w1) {b : Nat} (hb : b ∈ w.seen_blocks) :
    b ∈ w1.seen_blocks := by
  obtain ⟨blk, idx, tag, hw, _, _, hcase⟩ := access_ledger h
  rcases hcase with ⟨_, _, e⟩ | ⟨_, _, _, e⟩
  · rw [e]; exact hb
  · rw [e]; exact List.mem_cons_of_mem _ hb

/-- From any state, at most one access on block id `b` is counted as
compulsory, and none when `b` is in the ledger already. -/
theorem compulsoryFor_le (b : Nat) (tr : List Access) :
    ∀ w : Machine, compulsoryFor b w tr ≤ (if b ∈ w.seen_blocks then 0 else 1) := by
  induction tr with
  | nil => intro w; simp [compulsoryFor]
  | cons a rest ih =>
    intro w
    rw [compulsoryFor]
    cases hacc : access w a.type a.addr a.rnd with
    | error e => simp
    | ok w1 =>
      simp only
      have hrec := ih w1
      obtain ⟨blk, idx, tag, hw, _, hg, hcase⟩ := access_ledger hacc
      rcases hcase with ⟨_, hc, hs⟩ | ⟨_, hnot, hc, hs⟩
      · have h0 : ¬ (get_block_address w.config a.addr = .ok b ∧
            w1.stats.compulsory_misses = w.stats.compulsory_misses + 1) := by
          rintro ⟨_, h2⟩
          omega
        rw [if_neg h0]
        rw [hs] at hrec
        omega
      · by_cases hb : blk = b
        · subst hb
          have hin : blk ∈ w1.seen_blocks := by rw [hs]; exact List.mem_cons_self _ _
          rw [if_pos hin] at hrec
          rw [if_neg hnot]
          split <;> omega
        · have h0 : ¬ (get_block_address w.config a.addr = .ok b ∧
              w1.stats.compulsory_misses = w.stats.compulsory_misses + 1) := by
            rintro ⟨h1, _⟩
            rw [hg] at h1
            simp only [Except.ok.injEq] at h1
            exact hb h1
          rw [if_neg h0]
          by_cases hin : b ∈ w.seen_blocks
          · have hin1 : b ∈ w1.seen_blocks := access_ledger_mono hacc hin
            rw [if_pos hin1] at hrec
            rw [if_pos hin]
            omega
          · rw [if_neg hin]
            split at hrec <;> omega

/-- C11. (1) A completed access that misses is counted as compulsory exactly
when its block id is not in the seen-block ledger, and then it enters the id
at the ledger; a miss on an id in the ledger changes neither. (2) A hit
changes neither. (3) The ledger never loses an id along a replay. (4) From the
start state (empty ledger, zeroed statistics; `num_sets >= 1`, `ways >= 1`)
the replay of every trace completes with a ledger without repetition and
`compulsory_misses` equal to the number of ids in it. (5) In the replay of any
trace from a start state, at most one access is counted as a compulsory miss
for any block id `b`. -/
theorem compulsory_once_per_block :
    (∀ (w w1 : Machine) (type : Char) (addr rnd blk idx tag : Nat),
        lookup w addr = .ok ((blk, idx, tag), none) → access w type addr rnd = .ok w1 →
        (blk ∉ w.seen_blocks →
          w1.stats.compulsory_misses = w.stats.compulsory_misses + 1 ∧
          w1.seen_blocks = blk :: w.seen_blocks) ∧
        (blk ∈ w.seen_blocks →
          w1.stats.compulsory_misses = w.stats.compulsory_misses ∧
          w1.seen_blocks = w.seen_blocks)) ∧
    (∀ (w w1 : Machine) (type : Char) (addr rnd : Nat) (d : Nat × Nat × Nat) (way : Nat),
        lookup w addr = .ok (d, some way) → access w type addr rnd = .ok w1 →
        w1.stats.compulsory_misses = w.stats.compulsory_misses ∧
        w1.seen_blocks = w.seen_blocks) ∧
    (∀ (w w1 : Machine) (tr : List Access), run w tr = .ok w1 →
        ∀ b ∈ w.seen_blocks, b ∈ w1.seen_blocks) ∧
    (∀ (cfg : Config) (w0 : Machine) (tr : List Access),
        cfg.representable → start cfg = .ok w0 →
        1 ≤ w0.cache.num_sets → 1 ≤ w0.cache.ways →
        ∃ w, run w0 tr = .ok w ∧ w.seen_blocks.Nodup ∧
          w.stats.compulsory_misses = w.seen_blocks.length) ∧
    (∀ (cfg : Config) (w0 : Machine) (tr : List Access) (b : Nat),
        start cfg = .ok w0 → compulsoryFor b w0 tr ≤ 1) := by
  refine ⟨?_, ?_, ?_, ?_, ?_⟩
  · intro w w1 type addr rnd blk idx tag hl hacc
    obtain ⟨blk2, idx2, tag2, hw, hl2, _, hcase⟩ := access_ledger hacc
    rw [hl] at hl2
    simp only [Except.ok.injEq, Prod.mk.injEq] at hl2
    obtain ⟨⟨e1, _, _⟩, e2⟩ := hl2
    subst e1 e2
    rcases hcase with ⟨hor, hc, hs⟩ | ⟨_, hnot, hc, hs⟩
    · rcases hor with hne | hin
      · exact absurd rfl hne
      · exact ⟨fun hn => absurd hin hn, fun _ => ⟨hc, hs⟩⟩
    · exact ⟨fun _ => ⟨hc, hs⟩, fun hin => absurd hin hnot⟩
  · intro w w1 type addr rnd d way hl hacc
    obtain ⟨blk2, idx2, tag2, hw, hl2, _, hcase⟩ := access_ledger hacc
    rw [hl] at hl2
    simp only [Except.ok.injEq, Prod.mk.injEq] at hl2
    obtain ⟨_, e2⟩ := hl2
    subst e2
    rcases hcase with ⟨_, hc, hs⟩ | ⟨hnone, _⟩
    · exact ⟨hc, hs⟩
    · cases hnone
  · intro w w1 tr hrun
    exact run_induct (fun m => ∀ b ∈ w.seen_blocks, b ∈ m.seen_blocks)
      (fun m m1 type addr rnd hm hacc b hb => access_ledger_mono hacc (hm b hb))
      tr w w1 (fun b hb => hb) hrun
  · intro cfg w0 tr hrep h0 hns hwy
    obtain ⟨hstats, hseen, _, _⟩ := start_stats h0
    obtain ⟨w, hrun, _⟩ := run_total (start_wf hrep h0 hns hwy) tr
    refine ⟨w, hrun, ?_⟩
    refine run_induct
      (fun m => m.seen_blocks.Nodup ∧ m.stats.compulsory_misses = m.seen_blocks.length)
      ?_ tr w0 w ?_ hrun
    · intro m m1 type addr rnd hm hacc
      obtain ⟨blk, idx, tag, hw, _, _, hcase⟩ := access_ledger hacc
      rcases hcase with ⟨_, hc, hs⟩ | ⟨_, hnot, hc, hs⟩
      · rw [hc, hs]
        exact hm
      · rw [hc, hs, hm.2]
        exact ⟨List.nodup_cons.mpr ⟨hnot, hm.1⟩, by simp⟩
    · show w0.seen_blocks.Nodup ∧ w0.stats.compulsory_misses = w0.seen_blocks.length
      rw [hstats, hseen]
      exact ⟨List.nodup_nil, rfl⟩
  · intro cfg w0 tr b h0
    have := compulsoryFor_le b tr w0
    rw [(start_stats h0).2.1] at this
    simpa using this

/-- C11, instance of part (4): a direct-mapped cache replaying accesses that
miss several times on the block ids 0 and 2. -/
theorem compulsory_once_per_block_witness :
    ∃ w, run { config := wtConfig, stats := {}, global_time := 0, seen_blocks := [],
               cache := { sets := List.replicate 2 (List.replicate 1 {}),
                          num_sets := 2, ways := 1 } }
        [ld 0, ld 8, ld 0, st 8, ld 4] = .ok w ∧
      w.seen_blocks.Nodup ∧ w.stats.compulsory_misses = w.seen_blocks.length :=
  compulsory_once_per_block.2.2.2.1 wtConfig _ _ (by decide) (by decide) (by decide)
    (by decide)

/-! ## Construction -/

/-- The machine `start` returns for a geometry. -/
theorem start_of_geometry {cfg : Config} {ns wy : Int} (hg : geometry cfg = .ok (ns, wy))
    (hns : 0 ≤ ns) (hwy : 0 ≤ wy) :
    start cfg = .ok
      { config := cfg, stats := {}, global_time := 0, seen_blocks := [],
        cache := { sets := List.replicate ns.toNat (List.replicate wy.toNat {}),
                   num_sets := ns, ways := wy } } := by
  have h1 : ¬ wy < 0 := by omega
  have h2 : ¬ ns < 0 := by omega
  simp only [start, CacheSimulator.construct, hg, h1, h2, if_false]

/-- A negative derived size makes the construction fail. -/
theorem start_of_negative {cfg : Config} {ns wy : Int} (hg : geometry cfg = .ok (ns, wy))
    (hneg : ns < 0 ∨ wy < 0) : start cfg = .error .lengthError := by
  simp only [start, CacheSimulator.construct, hg]
  by_cases h1 : wy < 0
  · simp only [h1, if_true]
  · have h2 : ns < 0 := by omega
    simp only [h1, h2, if_false, if_true]

theorem intDiv_of_pos {a b : Int} (ha : 0 ≤ a) (hb : 0 < b) (ha32 : isInt32 a) :
    intDiv a b = .ok (a / b) ∧ 0 ≤ a / b := by
  have h0 : b ≠ 0 := by omega
  have e : a.tdiv b = a / b := Int.tdiv_eq_ediv ha (le_of_lt hb)
  have h1 : 0 ≤ a / b := Int.ediv_nonneg ha (le_of_lt hb)
  have h2 : a / b ≤ a := Int.ediv_le_self b ha
  have h3 : isInt32 (a / b) := by
    obtain ⟨_, hlt⟩ := ha32
    exact ⟨by omega, by omega⟩
  refine ⟨?_, h1⟩
  unfold intDiv
  rw [if_neg h0, e, if_pos h3]

/-- The geometry of a configuration with positive sizes whose product
`block_size * associativity` fits an `int`. -/
theorem geometry_of_pos {cfg : Config} (hrep : cfg.representable)
    (hcs : 0 < cfg.cache_size) (hbs : 0 < cfg.block_size) (hassoc : 0 ≤ cfg.associativity)
    (hprod : isInt32 (cfg.block_size * cfg.associativity)) :
    (cfg.associativity = 0 ∧
      geometry cfg = .ok (1, cfg.cache_size / cfg.block_size) ∧
      0 ≤ cfg.cache_size / cfg.block_size) ∨
    (0 < cfg.associativity ∧
      geometry cfg =
        .ok (cfg.cache_size / (cfg.block_size * cfg.associativity), cfg.associativity) ∧
      0 ≤ cfg.cache_size / (cfg.block_size * cfg.associativity)) := by
  by_cases ha : cfg.associativity = 0
  · left
    obtain ⟨h1, h2⟩ := intDiv_of_pos (le_of_lt hcs) hbs hrep.1
    refine ⟨ha, ?_, h2⟩
    simp only [geometry, ha, if_true, h1]
  · right
    have hpos : 0 < cfg.associativity := by omega
    have hd : 0 < cfg.block_size * cfg.associativity := Int.mul_pos hbs hpos
    obtain ⟨h1, h2⟩ := intDiv_of_pos (le_of_lt hcs) hd hrep.1
    refine ⟨hpos, ?_, h2⟩
    simp only [geometry, ha, if_false, intMul, hprod, if_true, h1]

theorem map_set_same {α β : Type} (f : α → β) {l : List α} {i : Nat} {a c : α}
    (ha : l[i]? = some a) (hf : f c = f a) : (l.set i c).map f = l.map f := by
  apply List.ext_getElem?
  intro j
  rw [List.map_set, List.getElem?_set, List.getElem?_map]
  by_cases hj : i = j
  · subst hj
    have hlt : i < (List.map f l).length := by
      rw [List.length_map]; exact getElem?_lt ha
    simp only [if_true, hlt, ha, hf, Option.map_some']
  · simp only [hj, if_false]

/-- No completed access changes the number of sets or the number of slots of
any set, whatever the state. -/
theorem access_shape {w w1 : Machine} {type : Char} {addr rnd : Nat}
    (h : access w type addr rnd = .ok w1) :
    w1.cache.sets.map List.length = w.cache.sets.map List.length := by
  obtain ⟨blk, idx, tag, _, hc⟩ := access_cases h
  rcases hc with ⟨way, row, b, _, hrow, _, _, e⟩ | ⟨_, _, e⟩ |
    ⟨_, _, way, row, b, hrow, _, ⟨_, _, e⟩ | ⟨_, _, e⟩⟩ <;> subst e
  · simp only [putSlot_sets, counted_cache]
    exact map_set_same List.length hrow (List.length_set _ _ _)
  · simp only [countWrite_cache, missBase_cache]
  · simp only [putSlot_sets, countRead_cache, missBase_cache]
    exact map_set_same List.length hrow (List.length_set _ _ _)
  · simp only [putSlot_sets, evictCount_cache, countRead_cache, missBase_cache]
    exact map_set_same List.length hrow (List.length_set _ _ _)

theorem run_shape {w w1 : Machine} {tr : List Access} (h : run w tr = .ok w1) :
    w1.cache.sets.map List.length = w.cache.sets.map List.length :=
  run_induct (fun m => m.cache.sets.map List.length = w.cache.sets.map List.length)
    (fun _ _ _ _ _ hm hacc => (access_shape hacc).trans hm) tr w w1 rfl h

/-- C13, as stated, fails on the code: with cache_size 16 and block_size 4
(powers of two) and associativity 3 the constructor builds 1 set of 3 ways, so
that sets x ways x block_size is 12, not 16. -/
theorem constructed_geometry_counterexample :
    ∃ w0, start { exampleConfig with associativity := 3 } = .ok w0 ∧
      w0.cache.sets.length = 1 ∧ w0.cache.ways = 3 ∧
      (∀ row ∈ w0.cache.sets, row.length = 3) ∧
      (w0.cache.sets.length : Int) * w0.cache.ways *
          ({ exampleConfig with associativity := 3 } : Config).block_size = 12 ∧
      (w0.cache.sets.length : Int) * w0.cache.ways *
          ({ exampleConfig with associativity := 3 } : Config).block_size ≠
        ({ exampleConfig with associativity := 3 } : Config).cache_size :=
  ⟨_, rfl, by decide, by decide, by decide, by decide, by decide⟩

/-- C13, amended. For every configuration with positive `cache_size` and
`block_size`, `associativity >= 0` and a product `block_size * associativity`
that fits an `int`, the construction succeeds and the constructed cache
satisfies: if `associativity = 0` it has exactly 1 set; otherwise
sets x ways x block_size equals `cache_size` minus the remainder of
`cache_size` by `block_size * associativity`, hence equals `cache_size`
exactly when `block_size * associativity` divides `cache_size`; every set has
exactly `ways` slots; and no replay changes the number of sets, the number of
slots of any set, or the members `num_sets` and `ways`. -/
theorem constructed_geometry (cfg : Config) (hrep : cfg.representable)
    (hcs : 0 < cfg.cache_size) (hbs : 0 < cfg.block_size) (hassoc : 0 ≤ cfg.associativity)
    (hprod : isInt32 (cfg.block_size * cfg.associativity)) :
    ∃ w0, start cfg = .ok w0 ∧
      (w0.cache.sets.length : Int) = w0.cache.num_sets ∧
      (cfg.associativity = 0 → w0.cache.sets.length = 1) ∧
      (cfg.associativity ≠ 0 →
        (w0.cache.sets.length : Int) * w0.cache.ways * cfg.block_size =
          cfg.cache_size - cfg.cache_size % (cfg.block_size * cfg.associativity) ∧
        ((w0.cache.sets.length : Int) * w0.cache.ways * cfg.block_size = cfg.cache_size ↔
          cfg.block_size * cfg.associativity ∣ cfg.cache_size)) ∧
      (∀ row ∈ w0.cache.sets, (row.length : Int) = w0.cache.ways) ∧
      ∀ (tr : List Access) (w : Machine), run w0 tr = .ok w →
        w.cache.sets.map List.length = w0.cache.sets.map List.length ∧
        w.cache.num_sets = w0.cache.num_sets ∧ w.cache.ways = w0.cache.ways := by
  have hframe : ∀ (w0 : Machine) (tr : List Access) (w : Machine), run w0 tr = .ok w →
      w.cache.sets.map List.length = w0.cache.sets.map List.length ∧
      w.cache.num_sets = w0.cache.num_sets ∧ w.cache.ways = w0.cache.ways := by
    intro w0 tr w hrun
    obtain ⟨_, h2, h3, _⟩ := run_frame hrun
    exact ⟨run_shape hrun, h2, h3⟩
  rcases geometry_of_pos hrep hcs hbs hassoc hprod with ⟨ha, hg, hq⟩ | ⟨ha, hg, hq⟩
  · refine ⟨_, start_of_geometry hg (by decide) hq, ?_, ?_, ?_, ?_, hframe _⟩
    · simp
    · intro _
      simp
    · intro hne
      exact absurd ha hne
    · intro row hrow
      rw [List.eq_of_mem_replicate hrow, List.length_replicate]
      exact Int.toNat_of_nonneg hq
  · have hwy : 0 ≤ cfg.associativity := le_of_lt ha
    refine ⟨_, start_of_geometry hg hq hwy, ?_, ?_, ?_, ?_, hframe _⟩
    · simp only [List.length_replicate]
      exact Int.toNat_of_nonneg hq
    · intro h0
      omega
    · intro _
      simp only [List.length_replicate]
      rw [Int.toNat_of_nonneg hq]
      have hdiv := Int.emod_add_ediv cfg.cache_size (cfg.block_size * cfg.associativity)
      have hprodeq : cfg.cache_size / (cfg.block_size * cfg.associativity) *
          cfg.associativity * cfg.block_size =
          cfg.block_size * cfg.associativity *
            (cfg.cache_size / (cfg.block_size * cfg.associativity)) := by ring
      rw [hprodeq]
      refine ⟨by omega, ?_⟩
      constructor
      · intro heq
        apply Int.dvd_of_emod_eq_zero
        omega
      · intro hdvd
        have := Int.emod_eq_zero_of_dvd hdvd
        omega
    · intro row hrow
      rw [List.eq_of_mem_replicate hrow, List.length_replicate]
      exact Int.toNat_of_nonneg hwy

/-- C13, instance: the example configuration (16 bytes, blocks of 4, direct
mapped), where the product is the whole cache size. -/
theorem constructed_geometry_witness :
    ∃ w0, start exampleConfig = .ok w0 ∧
      (w0.cache.sets.length : Int) = w0.cache.num_sets ∧
      (exampleConfig.associativity = 0 → w0.cache.sets.length = 1) ∧
      (exampleConfig.associativity ≠ 0 →
        (w0.cache.sets.length : Int) * w0.cache.ways * exampleConfig.block_size =
          exampleConfig.cache_size -
            exampleConfig.cache_size % (exampleConfig.block_size * exampleConfig.associativity) ∧
        ((w0.cache.sets.length : Int) * w0.cache.ways * exampleConfig.block_size =
            exampleConfig.cache_size ↔
          exampleConfig.block_size * exampleConfig.associativity ∣ exampleConfig.cache_size)) ∧
      (∀ row ∈ w0.cache.sets, (row.length : Int) = w0.cache.ways) ∧
      ∀ (tr : List Access) (w : Machine), run w0 tr = .ok w →
        w.cache.sets.map List.length = w0.cache.sets.map List.length ∧
        w.cache.num_sets = w0.cache.num_sets ∧ w.cache.ways = w0.cache.ways :=
  constructed_geometry exampleConfig (by decide) (by decide) (by decide) (by decide)
    (by decide)

/-- With `num_sets = 0` every access divides by zero. -/
theorem access_no_sets {w : Machine} (hns : w.cache.num_sets = 0) (type : Char)
    (addr rnd : Nat) : access w type addr rnd = .error .divByZero := by
  have hl : lookup w addr = .error .divByZero := by
    unfold lookup decompose get_block_address
    by_cases hb : toU32 w.config.block_size = 0
    · simp [hb]
    · have h0 : toU32 w.cache.num_sets = 0 := by rw [hns]; rfl
      simp [hb, h0]
  rw [access_eq, hl]

/-- With `ways = 0` every access that must install its block faults. -/
theorem access_no_ways {w : Machine} (hwy : w.cache.ways = 0) {type : Char}
    (hna : ¬ (type = 'W' ∧ w.config.write_allocate = 0)) (addr rnd : Nat) :
    ∃ e, access w type addr rnd = .error e := by
  rw [access_eq]
  cases hl : lookup w addr with
  | error e => exact ⟨e, rfl⟩
  | ok v =>
    obtain ⟨⟨blk, idx, tag⟩, hw⟩ := v
    have hnone : hw = none := by
      unfold lookup at hl
      cases hd : decompose w addr with
      | error e => simp [hd] at hl
      | ok d =>
        simp only [hd, hitCheck, hwy, Int.toNat_zero, firstWay, Except.ok.injEq,
          Prod.mk.injEq] at hl
        exact hl.2.symm
    subst hnone
    simp only
    unfold missCase
    simp only [classifyMiss_config, counted_config, hna, if_false]
    have hf : ∃ e, findWay (classifyMiss (counted w type false) blk).countRead idx rnd =
        .error e := by
      unfold findWay
      simp only [countRead_cache, classifyMiss_cache, counted_cache, hwy, Int.toNat_zero,
        emptyCheck, firstWay]
      unfold chooseVictim
      simp only [countRead_cache, classifyMiss_cache, counted_cache, countRead_config,
        classifyMiss_config, counted_config, hwy, Int.toNat_zero, minScan, if_true]
      by_cases h1 : w.config.replacement_policy = "LRU"
      · exact ⟨.outOfRange, by simp only [h1, if_true]⟩
      · by_cases h2 : w.config.replacement_policy = "FIFO"
        · exact ⟨.outOfRange, by rw [if_neg h1, if_pos h2]⟩
        · exact ⟨.divByZero, by simp only [h1, h2, if_false]⟩
    obtain ⟨e, he⟩ := hf
    exact ⟨e, by rw [he]⟩

/-- C12, as stated, fails on the code: the two degenerate configurations of
the claim are constructed without any error, with no set at all and with one
set of no ways, and it is the first access that fails. -/
theorem degenerate_configuration_counterexample :
    (∃ w0, start noSetsConfig = .ok w0 ∧ w0.cache.num_sets = 0 ∧ w0.cache.ways = 8 ∧
      w0.cache.sets = [] ∧ access w0 'R' 0 0 = .error .divByZero) ∧
    (∃ w0, start noWaysConfig = .ok w0 ∧ w0.cache.num_sets = 1 ∧ w0.cache.ways = 0 ∧
      w0.cache.sets = [[]] ∧ access w0 'R' 0 0 = .error .outOfRange) :=
  ⟨⟨_, rfl, by decide, by decide, by decide, by decide⟩,
   ⟨_, rfl, by decide, by decide, by decide, by decide⟩⟩

/-- C12, amended. Whatever geometry `(num_sets, ways)` the constructor derives:
(1) if neither is negative, zero included, the construction completes and
yields a simulator with these members; (2) if one is negative, the
construction fails with a length error, before any access; (3) in a simulator
with `num_sets = 0` every access divides by zero; (4) in a simulator with
`ways = 0` every access other than a store under no-write-allocate faults. -/
theorem degenerate_configuration :
    (∀ (cfg : Config) (ns wy : Int), geometry cfg = .ok (ns, wy) → 0 ≤ ns → 0 ≤ wy →
        ∃ w0, start cfg = .ok w0 ∧ w0.cache.num_sets = ns ∧ w0.cache.ways = wy ∧
          w0.cache.sets.length = ns.toNat) ∧
    (∀ (cfg : Config) (ns wy : Int), geometry cfg = .ok (ns, wy) → ns < 0 ∨ wy < 0 →
        start cfg = .error .lengthError) ∧
    (∀ (w : Machine) (type : Char) (addr rnd : Nat), w.cache.num_sets = 0 →
        access w type addr rnd = .error .divByZero) ∧
    (∀ (w : Machine) (type : Char) (addr rnd : Nat), w.cache.ways = 0 →
        ¬ (type = 'W' ∧ w.config.write_allocate = 0) →
        ∃ e, access w type addr rnd = .error e) :=
  ⟨fun _ _ _ hg hns hwy => ⟨_, start_of_geometry hg hns hwy, rfl, rfl, by simp⟩,
   fun _ _ _ hg hneg => start_of_negative hg hneg,
   fun _ type addr rnd hns => access_no_sets hns type addr rnd,
   fun _ _ addr rnd hwy hna => access_no_ways hwy hna addr rnd⟩

/-- C12, instance of parts (1) and (2): the configuration with derived
`num_sets = 0` is constructed, and one with a negative `cache_size` is not. -/
theorem degenerate_configuration_witness :
    (∃ w0, start noSetsConfig = .ok w0 ∧ w0.cache.num_sets = 0 ∧ w0.cache.ways = 8 ∧
      w0.cache.sets.length = (0 : Int).toNat) ∧
    start { exampleConfig with cache_size := -16 } = .error .lengthError :=
  ⟨degenerate_configuration.1 noSetsConfig 0 8 (by decide) (by decide) (by decide),
   degenerate_configuration.2.1 { exampleConfig with cache_size := -16 } (-4) 1 (by decide)
     (by decide)⟩

/-! ## Uniqueness of tags within a set -/

theorem access_rowsFit {w w1 : Machine} {type : Char} {addr rnd : Nat} (hf : RowsFit w)
    (h : access w type addr rnd = .ok w1) : RowsFit w1 := by
  intro row hrow
  have hlen : row.length ∈ w1.cache.sets.map List.length := List.mem_map_of_mem _ hrow
  rw [access_shape h] at hlen
  obtain ⟨row0, hrow0, e⟩ := List.mem_map.mp hlen
  rw [← e, (access_frame h).2.2.1]
  exact hf row0 hrow0

theorem start_rowsFit {cfg : Config} {w0 : Machine} (h : start cfg = .ok w0) : RowsFit w0 := by
  obtain ⟨ns, wy, _, _, _, e⟩ := start_ok h
  subst e
  intro row hrow
  simp only at hrow
  rw [List.eq_of_mem_replicate hrow]
  simp

theorem reachable_rowsFit {cfg : Config} {w : Machine} (h : Reachable cfg w) : RowsFit w := by
  obtain ⟨w0, tr, h0, hr⟩ := h
  exact run_induct RowsFit (fun _ _ _ _ _ hf ha => access_rowsFit hf ha) tr w0 w
    (start_rowsFit h0) hr

/-- After a miss in a set whose row has `ways` slots, no slot of the row is
valid with the tag looked for. -/
theorem miss_no_slot {w : Machine} (hf : RowsFit w) {addr blk idx tag : Nat}
    (hl : lookup w addr = .ok ((blk, idx, tag), none)) {row : List CacheBlock}
    (hrow : w.cache.sets[idx]? = some row) {j : Nat} {c : CacheBlock}
    (hc : row[j]? = some c) : isHit tag c = false := by
  obtain ⟨_, hh⟩ := lookup_miss hl
  have hspec := firstWay_spec hrow _ _ _ hh
  simp only at hspec
  have hj := getElem?_lt hc
  rw [hf row (List.getElem?_mem hrow)] at hj
  obtain ⟨c2, h1, h2⟩ := hspec j (Nat.zero_le _) (by omega)
  rw [hc] at h1
  cases h1
  exact h2

/-- Replacing a slot by one with the same `valid` and `tag` keeps the tags of
a row distinct. -/
theorem noDupTags_set_same {row : List CacheBlock} {way : Nat} {b c : CacheBlock}
    (hn : NoDupTags row) (hb : row[way]? = some b) (hv : c.valid = b.valid)
    (ht : c.tag = b.tag) : NoDupTags (row.set way c) := by
  have hlt := getElem?_lt hb
  have key : ∀ (i : Nat) (x : CacheBlock), (row.set way c)[i]? = some x →
      ∃ y, row[i]? = some y ∧ x.valid = y.valid ∧ x.tag = y.tag := by
    intro i x hx
    rw [List.getElem?_set] at hx
    by_cases hi : way = i
    · subst hi
      simp only [if_true, hlt, Option.some.injEq] at hx
      subst hx
      exact ⟨b, hb, hv, ht⟩
    · simp only [hi, if_false] at hx
      exact ⟨x, hx, rfl, rfl⟩
  intro i j x y hx hy vx vy txy
  obtain ⟨x0, hx0, e1, e2⟩ := key i x hx
  obtain ⟨y0, hy0, e3, e4⟩ := key j y hy
  exact hn i j x0 y0 hx0 hy0 (by rw [← e1]; exact vx) (by rw [← e3]; exact vy)
    (by rw [← e2, ← e4]; exact txy)

/-- Installing a block whose tag no slot of the row holds validly keeps the
tags of the row distinct. -/
theorem noDupTags_set_new {row : List CacheBlock} {way tag : Nat} {c : CacheBlock}
    (hn : NoDupTags row) (hmiss : ∀ (j : Nat) (x : CacheBlock), row[j]? = some x →
      isHit tag x = false) (ht : c.tag = tag) : NoDupTags (row.set way c) := by
  have other : ∀ (i : Nat) (x : CacheBlock), i ≠ way → (row.set way c)[i]? = some x →
      row[i]? = some x := by
    intro i x hi hx
    rw [List.getElem?_set] at hx
    simpa [Ne.symm hi] using hx
  have this_way : ∀ (x : CacheBlock), (row.set way c)[way]? = some x → x = c := by
    intro x hx
    rw [List.getElem?_set] at hx
    simp only [if_true] at hx
    split at hx
    · exact (Option.some.inj hx).symm
    · cases hx
  have clash : ∀ (i : Nat) (x : CacheBlock), i ≠ way → (row.set way c)[i]? = some x →
      x.valid = true → x.tag = tag → False := by
    intro i x hi hx vx tx
    have := hmiss i x (other i x hi hx)
    simp [isHit, vx, tx] at this
  intro i j x y hx hy vx vy txy
  by_cases hi : i = way
  · by_cases hj : j = way
    · rw [hi, hj]
    · subst hi
      have := this_way x hx
      subst this
      exact (clash j y hj hy vy (by rw [← txy, ht])).elim
  · by_cases hj : j = way
    · subst hj
      have := this_way y hy
      subst this
      exact (clash i x hi hx vx (by rw [txy, ht])).elim
    · exact hn i j x y (other i x hi hx) (other j y hj hy) vx vy txy

/-- Distinct tags in every set are kept by every completed access of a state
whose rows have `ways` slots. -/
theorem access_noDupTags {w w1 : Machine} {type : Char} {addr rnd : Nat} (hf : RowsFit w)
    (hn : ∀ row ∈ w.cache.sets, NoDupTags row) (h : access w type addr rnd = .ok w1) :
    ∀ row ∈ w1.cache.sets, NoDupTags row := by
  intro r hr
  obtain ⟨blk, idx, tag, _, hc⟩ := access_cases h
  have install : ∀ (way : Nat) (row : List CacheBlock),
      lookup w addr = .ok ((blk, idx, tag), none) → w.cache.sets[idx]? = some row →
      r ∈ w.cache.sets.set idx
        (row.set way (installedBlock w.config type tag (w.global_time + 1))) →
      NoDupTags r := by
    intro way row hl hrow hmem
    rcases List.mem_or_eq_of_mem_set hmem with h1 | h1
    · exact hn r h1
    · rw [h1]
      exact noDupTags_set_new (hn row (List.getElem?_mem hrow))
        (fun j x hx => miss_no_slot hf hl hrow hx) (by simp [installedBlock, newBlock])
  rcases hc with ⟨way, row, b, _, hrow, hb, _, e⟩ | ⟨_, _, e⟩ |
    ⟨hl, _, way, row, b, hrow, _, ⟨_, _, e⟩ | ⟨_, _, e⟩⟩ <;> subst e
  · simp only [putSlot_sets, counted_cache] at hr
    rcases List.mem_or_eq_of_mem_set hr with h1 | h1
    · exact hn r h1
    · rw [h1]
      exact noDupTags_set_same (hn row (List.getElem?_mem hrow)) hb
        (by simp [hitBlock]) (by simp [hitBlock])
  · simp only [countWrite_cache, missBase_cache] at hr
    exact hn r hr
  · simp only [putSlot_sets, countRead_cache, missBase_cache] at hr
    exact install way row hl hrow hr
  · simp only [putSlot_sets, evictCount_cache, countRead_cache, missBase_cache] at hr
    exact install way row hl hrow hr

/-- C15. In every state reachable from the start state of any configuration
by a sequence of accesses, under any replacement policy and any random draws,
no set contains two valid slots with the same tag; hence for every tag at most
one way of a set satisfies the condition of the hit scan, and the way the scan
returns is the only one. -/
theorem no_duplicate_tags (cfg : Config) (w : Machine) (hreach : Reachable cfg w) :
    (∀ row ∈ w.cache.sets, ∀ (i j : Nat) (b c : CacheBlock),
      row[i]? = some b → row[j]? = some c →
      b.valid = true → c.valid = true → b.tag = c.tag → i = j) ∧
    (∀ row ∈ w.cache.sets, ∀ (tag i j : Nat) (b c : CacheBlock),
      row[i]? = some b → row[j]? = some c →
      isHit tag b = true → isHit tag c = true → i = j) := by
  have hfit : ∀ m, Reachable cfg m → RowsFit m := fun m hm => reachable_rowsFit hm
  obtain ⟨w0, tr, h0, hr⟩ := hreach
  have key : RowsFit w ∧ ∀ row ∈ w.cache.sets, NoDupTags row := by
    refine run_induct (fun m => RowsFit m ∧ ∀ row ∈ m.cache.sets, NoDupTags row)
      (fun m m1 _ _ _ hm ha => ⟨access_rowsFit hm.1 ha, access_noDupTags hm.1 hm.2 ha⟩)
      tr w0 w ⟨start_rowsFit h0, ?_⟩ hr
    intro row hrow i j b c hb _ vb _ _
    have : w0.holds b := ⟨row, hrow, List.getElem?_mem hb⟩
    rw [start_holds h0 this] at vb
    cases vb
  refine ⟨fun row hrow => key.2 row hrow, ?_⟩
  intro row hrow tag i j b c hb hc h1 h2
  simp only [isHit, Bool.and_eq_true, decide_eq_true_eq] at h1 h2
  exact key.2 row hrow i j b c hb hc h1.1 h2.1 (by rw [h1.2, h2.2])

/-- C15, instance: the two valid slots of the FIFO state `fifoFull` sit in
different ways, so they carry different tags. -/
theorem no_duplicate_tags_witness :
    Reachable fifoConfig fifoFull ∧
      ∃ row ∈ fifoFull.cache.sets, ∃ b c, row[0]? = some b ∧ row[1]? = some c ∧
        b.valid = true ∧ c.valid = true ∧ b.tag ≠ c.tag :=
  ⟨⟨_, [ld 0, ld 16, ld 0, st 0], rfl, by decide⟩,
   _, List.mem_singleton.mpr rfl, _, _, rfl, rfl, rfl, rfl,
   fun heq => absurd
     ((no_duplicate_tags fifoConfig fifoFull ⟨_, [ld 0, ld 16, ld 0, st 0], rfl, by decide⟩).1
       _ (List.mem_singleton.mpr rfl) 0 1 _ _ rfl rfl rfl rfl heq) (by decide)⟩

/-! ## Temporal reuse -/

/-- In a well-shaped state, an address whose set holds a valid slot with its
tag hits. -/
theorem lookup_hit_of_slot {w : Machine} (hw : WF w) {addr blk idx tag way : Nat}
    {row : List CacheBlock} {c : CacheBlock}
    (hd : decompose w addr = .ok (blk, idx, tag))
    (hrow : w.cache.sets[idx]? = some row) (hc : row[way]? = some c)
    (hit : isHit tag c = true) :
    ∃ k, lookup w addr = .ok ((blk, idx, tag), some k) := by
  have hlen := hw.row_of hrow
  obtain ⟨r, hr⟩ := firstWay_total (p := isHit tag) hrow w.cache.ways.toNat 0
    (by rw [hlen]; omega)
  cases r with
  | some k =>
    refine ⟨k, ?_⟩
    unfold lookup
    rw [hd]
    simp only [hitCheck, hr]
  | none =>
    have hspec := firstWay_spec hrow _ _ _ hr
    simp only at hspec
    have hlt := getElem?_lt hc
    obtain ⟨c2, h1, h2⟩ := hspec way (Nat.zero_le _) (by omega)
    rw [hc] at h1
    cases h1
    rw [hit] at h2
    cases h2

/-- The decomposition only depends on the block id. -/
theorem decompose_same_block (w : Machine) {addr addr2 : Nat}
    (h : get_block_address w.config addr2 = get_block_address w.config addr) :
    decompose w addr2 = decompose w addr := by
  unfold decompose
  rw [h]

/-- After a completed access that is not a store under no-write-allocate, the
set of its address holds a valid slot with its tag. -/
theorem access_resident {w w1 : Machine} {type : Char} {addr rnd : Nat}
    (hna : ¬ (type = 'W' ∧ w.config.write_allocate = 0))
    (h : access w type addr rnd = .ok w1) :
    ∃ (blk idx tag way : Nat) (row : List CacheBlock) (c : CacheBlock),
      decompose w addr = .ok (blk, idx, tag) ∧
      w1.cache.sets[idx]? = some row ∧ row[way]? = some c ∧ isHit tag c = true := by
  obtain ⟨blk, idx, tag, hd, hcase⟩ := access_cases h
  have slot : ∀ {row : List CacheBlock} {way : Nat} {b : CacheBlock} (c : CacheBlock),
      w.cache.sets[idx]? = some row → row[way]? = some b →
      (w.cache.sets.set idx (row.set way c))[idx]? = some (row.set way c) ∧
      (row.set way c)[way]? = some c := by
    intro row way b c hrow hb
    have h1 := getElem?_lt hrow
    have h2 := getElem?_lt hb
    exact ⟨by simp [List.getElem?_set, h1], by simp [List.getElem?_set, h2]⟩
  rcases hcase with ⟨way, row, b, _, hrow, hb, hp, e⟩ | ⟨_, hc, _⟩ |
    ⟨_, _, way, row, b, hrow, hb, ⟨_, _, e⟩ | ⟨_, _, e⟩⟩
  · obtain ⟨s1, s2⟩ := slot (hitBlock w.config type (w.global_time + 1) b) hrow hb
    refine ⟨blk, idx, tag, way, _, _, hd, ?_, s2, by rw [isHit_hitBlock]; exact hp⟩
    subst e
    simpa using s1
  · exact absurd hc hna
  · obtain ⟨s1, s2⟩ := slot (installedBlock w.config type tag (w.global_time + 1)) hrow hb
    refine ⟨blk, idx, tag, way, _, _, hd, ?_, s2, by rw [isHit_installedBlock]; simp⟩
    subst e
    simpa using s1
  · obtain ⟨s1, s2⟩ := slot (installedBlock w.config type tag (w.global_time + 1)) hrow hb
    refine ⟨blk, idx, tag, way, _, _, hd, ?_, s2, by rw [isHit_installedBlock]; simp⟩
    subst e
    simpa using s1

/-- The counters after a completed hit: no memory read, one more hit of the
kind of the access. -/
theorem hit_counters {w w1 : Machine} {type : Char} {addr rnd : Nat} {d : Nat × Nat × Nat}
    {way : Nat} (hl : lookup w addr = .ok (d, some way))
    (h : access w type addr rnd = .ok w1) :
    w1.stats.memory_reads = w.stats.memory_reads ∧
    w1.stats.load_hits + w1.stats.store_hits = w.stats.load_hits + w.stats.store_hits + 1 ∧
    w1.stats.load_misses = w.stats.load_misses ∧
    w1.stats.store_misses = w.stats.store_misses := by
  obtain ⟨blk, idx, tag⟩ := d
  obtain ⟨row, b, _, _, _, hacc⟩ := access_hit type rnd hl
  rw [hacc] at h
  simp only [Except.ok.injEq] at h
  subst h
  have hcore := putSlot_core (counted w type true) idx way row
    (hitBlock w.config type (w.global_time + 1) b)
    (decide (type = 'W' ∧ w.config.write_policy = "WRITE_THROUGH"))
  have e1 := congrArg Stats.load_hits hcore
  have e2 := congrArg Stats.store_hits hcore
  have e3 := congrArg Stats.load_misses hcore
  have e4 := congrArg Stats.store_misses hcore
  simp only [Stats.core, counted_stats] at e1 e2 e3 e4
  rw [(putSlot_traffic _ _ _ _ _ _).1, counted_stats, (countAccess_traffic _ _ _).1, e1, e2,
    e3, e4]
  unfold countAccess
  by_cases ht : type = 'R' <;> simp [ht] <;> omega

/-- C20. In every well-shaped state (`num_sets >= 1`, `ways >= 1`, a non-zero
block size, vectors of these sizes), for every replacement and write policy and
every address: an access that is not a store under no-write-allocate (a load,
or a store with `write_allocate != 0`) completes, and an access that follows
it immediately, of any kind and to any address of the same block, is a hit: it
completes, counts one hit and no miss, and counts no memory read. -/
theorem reaccess_hits (w : Machine) (type type2 : Char) (addr addr2 rnd rnd2 : Nat)
    (hw : WF w) (hna : ¬ (type = 'W' ∧ w.config.write_allocate = 0))
    (hblk : get_block_address w.config addr2 = get_block_address w.config addr) :
    ∃ w1 d way w2, access w type addr rnd = .ok w1 ∧
      lookup w1 addr2 = .ok (d, some way) ∧ access w1 type2 addr2 rnd2 = .ok w2 ∧
      w2.stats.memory_reads = w1.stats.memory_reads ∧
      w2.stats.load_hits + w2.stats.store_hits =
        w1.stats.load_hits + w1.stats.store_hits + 1 ∧
      w2.stats.load_misses = w1.stats.load_misses ∧
      w2.stats.store_misses = w1.stats.store_misses := by
  obtain ⟨w1, hacc⟩ := access_total hw type addr rnd
  have hw1 := access_wf hw hacc
  obtain ⟨hcfg, hns, _, _⟩ := access_frame hacc
  obtain ⟨blk, idx, tag, way, row, c, hd, hrow, hc, hit⟩ := access_resident hna hacc
  have hd2 : decompose w1 addr2 = .ok (blk, idx, tag) := by
    rw [decompose_congr hcfg hns, decompose_same_block w hblk]
    exact hd
  obtain ⟨k, hl⟩ := lookup_hit_of_slot hw1 hd2 hrow hc hit
  obtain ⟨w2, hacc2⟩ := access_total hw1 type2 addr2 rnd2
  obtain ⟨h1, h2, h3, h4⟩ := hit_counters hl hacc2
  exact ⟨w1, _, k, w2, hacc, hl, hacc2, h1, h2, h3, h4⟩

/-- C20, instance: in the full LRU state `lruFull`, a store to address 112
(not resident) followed by a load of address 120 of the same block. -/
theorem reaccess_hits_witness :
    ∃ w1 d way w2, access lruFull 'W' 112 0 = .ok w1 ∧
      lookup w1 120 = .ok (d, some way) ∧ access w1 'R' 120 0 = .ok w2 ∧
      w2.stats.memory_reads = w1.stats.memory_reads ∧
      w2.stats.load_hits + w2.stats.store_hits =
        w1.stats.load_hits + w1.stats.store_hits + 1 ∧
      w2.stats.load_misses = w1.stats.load_misses ∧
      w2.stats.store_misses = w1.stats.store_misses :=
  reaccess_hits lruFull 'W' 'R' 112 120 0 0
    { block_size := by decide
      num_sets_pos := by decide
      num_sets_u32 := by decide
      ways_pos := by decide
      sets_length := by decide
      row_length := by decide }
    (by decide) (by decide)

/-! ## First accesses and the ledger -/

/-- What a successful decomposition returns. -/
theorem decompose_spec {w : Machine} {addr blk idx tag : Nat}
    (h : decompose w addr = .ok (blk, idx, tag)) :
    toU32 w.config.block_size ≠ 0 ∧ blk = addr / toU32 w.config.block_size ∧
    toU32 w.cache.num_sets ≠ 0 ∧
    (w.config.associativity = 0 → idx = 0 ∧ tag = blk) ∧
    (w.config.associativity ≠ 0 →
      idx = blk % toU32 w.cache.num_sets ∧ tag = blk / toU32 w.cache.num_sets) := by
  unfold decompose get_block_address at h
  by_cases hb : toU32 w.config.block_size = 0
  · simp [hb] at h
  · by_cases hn : toU32 w.cache.num_sets = 0
    · simp [hb, hn] at h
    · by_cases ha : w.config.associativity = 0
      · simp only [hb, hn, ha, if_false, if_true, Except.ok.injEq, Prod.mk.injEq] at h
        obtain ⟨e1, e2, e3⟩ := h
        exact ⟨hb, e1.symm, hn, fun _ => ⟨e2.symm, by rw [← e3, e1]⟩,
          fun hne => absurd ha hne⟩
      · simp only [hb, hn, ha, if_false, Except.ok.injEq, Prod.mk.injEq] at h
        obtain ⟨e1, e2, e3⟩ := h
        refine ⟨hb, e1.symm, hn, fun h0 => absurd h0 ha, fun _ => ?_⟩
        rw [← e1]
        exact ⟨e2.symm, e3.symm⟩

/-- The decomposition is inverted by `blockOf`. -/
theorem decompose_blockOf {w : Machine} {addr blk idx tag : Nat}
    (h : decompose w addr = .ok (blk, idx, tag)) : blockOf w idx tag = blk := by
  obtain ⟨_, _, _, h0, h1⟩ := decompose_spec h
  unfold blockOf
  by_cases ha : w.config.associativity = 0
  · rw [if_pos ha]
    exact (h0 ha).2
  · rw [if_neg ha]
    obtain ⟨e1, e2⟩ := h1 ha
    rw [e1, e2, Nat.mul_comm]
    exact Nat.div_add_mod blk (toU32 w.cache.num_sets)

theorem blockOf_congr {w w1 : Machine} (hc : w1.config = w.config)
    (hn : w1.cache.num_sets = w.cache.num_sets) (index tag : Nat) :
    blockOf w1 index tag = blockOf w index tag := by
  unfold blockOf
  rw [hc, hn]

theorem classifyMiss_seen (w : Machine) (blk : Nat) :
    blk ∈ (classifyMiss w blk).seen_blocks ∧
    ∀ z ∈ w.seen_blocks, z ∈ (classifyMiss w blk).seen_blocks := by
  unfold classifyMiss
  by_cases h1 : blk ∈ w.seen_blocks
  · by_cases h2 : w.config.associativity = 0
    · rw [if_pos h1, if_pos h2]
      exact ⟨h1, fun z hz => hz⟩
    · rw [if_pos h1, if_neg h2]
      exact ⟨h1, fun z hz => hz⟩
  · rw [if_neg h1]
    exact ⟨List.mem_cons_self _ _, fun z hz => List.mem_cons_of_mem _ hz⟩

/-- A slot of the sets after one slot was replaced is the new slot at its
place or an old slot at the same place. -/
theorem slot_of_set {sets : List (List CacheBlock)} {index way i k : Nat}
    {row r : List CacheBlock} {c x : CacheBlock} (hrow : sets[index]? = some row)
    (hr : (sets.set index (row.set way c))[i]? = some r) (hx : r[k]? = some x) :
    (i = index ∧ k = way ∧ x = c) ∨ ∃ r0, sets[i]? = some r0 ∧ r0[k]? = some x := by
  rw [List.getElem?_set] at hr
  by_cases hi : index = i
  · subst hi
    simp only [if_true, getElem?_lt hrow, Option.some.injEq] at hr
    subst hr
    rw [List.getElem?_set] at hx
    by_cases hk : way = k
    · subst hk
      simp only [if_true] at hx
      split at hx
      · exact Or.inl ⟨rfl, rfl, (Option.some.inj hx).symm⟩
      · cases hx
    · simp only [hk, if_false] at hx
      exact Or.inr ⟨row, hrow, hx⟩
  · simp only [hi, if_false] at hr
    exact Or.inr ⟨r, hr, hx⟩

/-- The ledger covers the valid slots after every completed access. -/
theorem access_ledgerCovers {w w1 : Machine} {type : Char} {addr rnd : Nat}
    (hcov : LedgerCovers w) (h : access w type addr rnd = .ok w1) : LedgerCovers w1 := by
  obtain ⟨hcfg, hns, _, _⟩ := access_frame h
  intro i k r x hr hx vx
  rw [blockOf_congr hcfg hns]
  obtain ⟨blk, idx, tag, hd, hc⟩ := access_cases h
  have hmiss : blk ∈ (missBase w type blk).seen_blocks ∧
      ∀ z ∈ w.seen_blocks, z ∈ (missBase w type blk).seen_blocks :=
    classifyMiss_seen (counted w type false) blk
  have install : ∀ (way : Nat) (row : List CacheBlock) (b : CacheBlock),
      w.cache.sets[idx]? = some row →
      (w.cache.sets.set idx
        (row.set way (installedBlock w.config type tag (w.global_time + 1))))[i]? = some r →
      blockOf w i x.tag ∈ (missBase w type blk).seen_blocks := by
    intro way row b hrow hr2
    rcases slot_of_set hrow hr2 hx with ⟨e1, _, e3⟩ | ⟨r0, h1, h2⟩
    · subst e1 e3
      have : (installedBlock w.config type tag (w.global_time + 1)).tag = tag := by
        simp [installedBlock, newBlock]
      rw [this, decompose_blockOf hd]
      exact hmiss.1
    · exact hmiss.2 _ (hcov i k r0 x h1 h2 vx)
  rcases hc with ⟨way, row, b, _, hrow, hb, hp, e⟩ | ⟨_, _, e⟩ |
    ⟨_, _, way, row, b, hrow, _, ⟨_, _, e⟩ | ⟨_, _, e⟩⟩ <;> subst e
  · simp only [putSlot_sets, counted_cache] at hr
    simp only [putSlot_seen, counted_seen]
    rcases slot_of_set hrow hr hx with ⟨e1, e2, e3⟩ | ⟨r0, h1, h2⟩
    · subst e1 e2 e3
      have ht : (hitBlock w.config type (w.global_time + 1) b).tag = b.tag := by
        simp [hitBlock]
      simp only [isHit, Bool.and_eq_true] at hp
      rw [ht]
      exact hcov i k row b hrow hb hp.1
    · exact hcov i k r0 x h1 h2 vx
  · simp only [countWrite_cache, missBase_cache] at hr
    simp only [countWrite_seen]
    exact hmiss.2 _ (hcov i k r x hr hx vx)
  · simp only [putSlot_sets, countRead_cache, missBase_cache] at hr
    simp only [putSlot_seen, countRead_seen]
    exact install way row b hrow hr
  · simp only [putSlot_sets, evictCount_cache, countRead_cache, missBase_cache] at hr
    simp only [putSlot_seen, evictCount_seen, countRead_seen]
    exact install way row b hrow hr

theorem start_ledgerCovers {cfg : Config} {w0 : Machine} (h : start cfg = .ok w0) :
    LedgerCovers w0 := by
  intro i k r x hr hx vx
  have : w0.holds x := ⟨r, List.getElem?_mem hr, List.getElem?_mem hx⟩
  rw [start_holds h this] at vx
  cases vx

theorem reachable_ledgerCovers {cfg : Config} {w : Machine} (h : Reachable cfg w) :
    LedgerCovers w := by
  obtain ⟨w0, tr, h0, hr⟩ := h
  exact run_induct LedgerCovers (fun _ _ _ _ _ hc ha => access_ledgerCovers hc ha) tr w0 w
    (start_ledgerCovers h0) hr

/-- A hit is on a block whose id is in the ledger. -/
theorem hit_in_ledger {w : Machine} (hcov : LedgerCovers w) {addr blk idx tag way : Nat}
    (hl : lookup w addr = .ok ((blk, idx, tag), some way)) : blk ∈ w.seen_blocks := by
  obtain ⟨hd, row, b, hrow, hb, hp, _⟩ := lookup_hit hl
  simp only [isHit, Bool.and_eq_true, decide_eq_true_eq] at hp
  have := hcov idx way row b hrow hb hp.1
  rw [hp.2, decompose_blockOf hd] at this
  exact this

/-- In a well-shaped state whose ledger covers the valid slots, an address
whose block id is not in the ledger misses. -/
theorem first_access_misses {w : Machine} (hw : WF w) (hcov : LedgerCovers w) {addr : Nat}
    (hnew : addr / toU32 w.config.block_size ∉ w.seen_blocks) :
    ∃ idx tag, lookup w addr = .ok ((addr / toU32 w.config.block_size, idx, tag), none) := by
  obtain ⟨blk, idx, tag, hit, row, hl, hd, _⟩ := lookup_total hw addr
  obtain ⟨_, hblk, _⟩ := decompose_spec hd
  subst hblk
  cases hit with
  | none => exact ⟨idx, tag, hl⟩
  | some way => exact absurd (hit_in_ledger hcov hl) hnew

/-- After a completed access the ledger holds what it held and the block id
of the access. -/
theorem access_seen_iff {w w1 : Machine} {type : Char} {addr rnd : Nat}
    (hcov : LedgerCovers w) (h : access w type addr rnd = .ok w1) :
    ∀ z, z ∈ w1.seen_blocks ↔ z ∈ w.seen_blocks ∨ z = addr / toU32 w.config.block_size := by
  obtain ⟨blk, idx, tag, hw, hl, _, hcase⟩ := access_ledger h
  obtain ⟨_, hblk, _⟩ := decompose_spec (lookup_decompose hl)
  subst hblk
  intro z
  rcases hcase with ⟨hor, _, hs⟩ | ⟨_, _, _, hs⟩
  · have hin : addr / toU32 w.config.block_size ∈ w.seen_blocks := by
      rcases hor with hne | hin
      · cases hw with
        | none => exact absurd rfl hne
        | some way => exact hit_in_ledger hcov hl
      · exact hin
    rw [hs]
    constructor
    · exact fun hz => Or.inl hz
    · rintro (hz | hz)
      · exact hz
      · rw [hz]; exact hin
  · rw [hs, List.mem_cons]
    constructor
    · rintro (hz | hz)
      · exact Or.inr hz
      · exact Or.inl hz
    · rintro (hz | hz)
      · exact Or.inr hz
      · exact Or.inl hz

/-- The ledger after a replay from a well-shaped state whose ledger covers the
valid slots: what it held, and the block ids of the trace. -/
theorem run_seen_iff (tr : List Access) :
    ∀ (w : Machine), WF w → LedgerCovers w →
      ∃ w1, run w tr = .ok w1 ∧
        ∀ z, z ∈ w1.seen_blocks ↔ z ∈ w.seen_blocks ∨ z ∈ tr.map (blockId w.config) := by
  induction tr with
  | nil =>
    intro w _ _
    exact ⟨w, rfl, fun z => by simp⟩
  | cons a rest ih =>
    intro w hw hcov
    obtain ⟨w1, hacc⟩ := access_total hw a.type a.addr a.rnd
    obtain ⟨w2, hrun, hiff⟩ := ih w1 (access_wf hw hacc) (access_ledgerCovers hcov hacc)
    have hstep := access_seen_iff hcov hacc
    refine ⟨w2, by simp only [run, hacc, hrun], ?_⟩
    intro z
    rw [hiff z, hstep z, (access_frame hacc).1, List.map_cons, List.mem_cons]
    constructor
    · rintro ((hz | hz) | hz)
      · exact Or.inl hz
      · exact Or.inr (Or.inl hz)
      · exact Or.inr (Or.inr hz)
    · rintro (hz | hz | hz)
      · exact Or.inl (Or.inl hz)
      · exact Or.inl (Or.inr hz)
      · exact Or.inr hz

/-- A ledger without repetition whose length is the compulsory counter stays
so along a replay. -/
theorem run_ledger_count {w w1 : Machine} {tr : List Access}
    (h0 : w.seen_blocks.Nodup ∧ w.stats.compulsory_misses = w.seen_blocks.length)
    (hrun : run w tr = .ok w1) :
    w1.seen_blocks.Nodup ∧ w1.stats.compulsory_misses = w1.seen_blocks.length := by
  refine run_induct
    (fun m => m.seen_blocks.Nodup ∧ m.stats.compulsory_misses = m.seen_blocks.length)
    ?_ tr w w1 h0 hrun
  intro m m1 type addr rnd hm hacc
  obtain ⟨blk, idx, tag, hw, _, _, hcase⟩ := access_ledger hacc
  rcases hcase with ⟨_, hc, hs⟩ | ⟨_, hnot, hc, hs⟩
  · rw [hc, hs]
    exact hm
  · rw [hc, hs, hm.2]
    exact ⟨List.nodup_cons.mpr ⟨hnot, hm.1⟩, by simp⟩

/-- C19. From the start state (empty cache, empty ledger) of a representable
configuration with `num_sets >= 1` and `ways >= 1`: (1) the replay of every
trace completes, the ledger then holds exactly the block ids
`address / block_size` of the trace, and `compulsory_misses` is the number of
distinct block ids of the trace; (2) an access whose block id does not occur
earlier in the trace is a miss, is counted as compulsory and enters its block
id at the ledger. This rests on (3) the decomposition being invertible: with
`associativity = 0` the index is 0 and the tag is the block id, otherwise
block id = tag x num_sets + index with index < num_sets; and on (4) every
valid slot of a reachable state holding a block whose id is in the ledger. -/
theorem compulsory_counts_distinct_blocks :
    (∀ (cfg : Config) (w0 : Machine) (tr : List Access),
        cfg.representable → start cfg = .ok w0 →
        1 ≤ w0.cache.num_sets → 1 ≤ w0.cache.ways →
        ∃ w, run w0 tr = .ok w ∧
          (∀ b, b ∈ w.seen_blocks ↔ b ∈ tr.map (blockId cfg)) ∧
          w.stats.compulsory_misses = ((tr.map (blockId cfg)).dedup.length : Int)) ∧
    (∀ (cfg : Config) (w0 : Machine) (pre : List Access) (a : Access),
        cfg.representable → start cfg = .ok w0 →
        1 ≤ w0.cache.num_sets → 1 ≤ w0.cache.ways →
        (∀ p ∈ pre, blockId cfg p ≠ blockId cfg a) →
        ∃ w w1 idx tag, run w0 pre = .ok w ∧
          lookup w a.addr = .ok ((blockId cfg a, idx, tag), none) ∧
          access w a.type a.addr a.rnd = .ok w1 ∧
          w1.stats.compulsory_misses = w.stats.compulsory_misses + 1 ∧
          w1.seen_blocks = blockId cfg a :: w.seen_blocks) ∧
    (∀ (w : Machine) (addr blk idx tag : Nat), decompose w addr = .ok (blk, idx, tag) →
        blockOf w idx tag = blk ∧
        (w.config.associativity = 0 → idx = 0 ∧ tag = blk) ∧
        (w.config.associativity ≠ 0 →
          blk = tag * toU32 w.cache.num_sets + idx ∧ idx < toU32 w.cache.num_sets)) ∧
    (∀ (cfg : Config) (w : Machine), Reachable cfg w →
        ∀ (index way : Nat) (row : List CacheBlock) (c : CacheBlock),
          w.cache.sets[index]? = some row → row[way]? = some c → c.valid = true →
          blockOf w index c.tag ∈ w.seen_blocks) := by
  have ledger : ∀ (cfg : Config) (w0 : Machine) (tr : List Access),
      cfg.representable → start cfg = .ok w0 →
      1 ≤ w0.cache.num_sets → 1 ≤ w0.cache.ways →
      ∃ w, run w0 tr = .ok w ∧ WF w ∧ LedgerCovers w ∧ w.config = cfg ∧
        (∀ b, b ∈ w.seen_blocks ↔ b ∈ tr.map (blockId cfg)) ∧
        w.seen_blocks.Nodup ∧ w.stats.compulsory_misses = w.seen_blocks.length := by
    intro cfg w0 tr hrep h0 hns hwy
    obtain ⟨hstats, hseen, _, hcfg⟩ := start_stats h0
    have hw0 := start_wf hrep h0 hns hwy
    obtain ⟨w, hrun, hiff⟩ := run_seen_iff tr w0 hw0 (start_ledgerCovers h0)
    have hcount := run_ledger_count (w := w0)
      (by rw [hstats, hseen]; exact ⟨List.nodup_nil, rfl⟩) hrun
    refine ⟨w, hrun, run_wf hw0 hrun, reachable_ledgerCovers ⟨w0, tr, h0, hrun⟩,
      by rw [(run_frame hrun).1, hcfg], ?_, hcount⟩
    intro b
    rw [hiff b, hseen, hcfg]
    simp
  refine ⟨?_, ?_, ?_, ?_⟩
  · intro cfg w0 tr hrep h0 hns hwy
    obtain ⟨w, hrun, _, _, _, hiff, hnd, hcnt⟩ := ledger cfg w0 tr hrep h0 hns hwy
    refine ⟨w, hrun, hiff, ?_⟩
    rw [hcnt]
    have hperm : w.seen_blocks.Perm (tr.map (blockId cfg)).dedup :=
      (List.perm_ext_iff_of_nodup hnd (List.nodup_dedup _)).mpr
        (fun b => by rw [hiff b, List.mem_dedup])
    rw [hperm.length_eq]
  · intro cfg w0 pre a hrep h0 hns hwy hfirst
    obtain ⟨w, hrun, hw, hcov, hcfg, hiff, _, _⟩ := ledger cfg w0 pre hrep h0 hns hwy
    have hnew : a.addr / toU32 w.config.block_size ∉ w.seen_blocks := by
      intro hin
      rw [hcfg] at hin
      obtain ⟨p, hp, hpe⟩ := List.mem_map.mp ((hiff _).mp hin)
      exact hfirst p hp hpe
    obtain ⟨idx, tag, hl⟩ := first_access_misses hw hcov hnew
    obtain ⟨w1, hacc⟩ := access_total hw a.type a.addr a.rnd
    obtain ⟨blk2, idx2, tag2, hw2, hl2, _, hcase⟩ := access_ledger hacc
    rw [hl] at hl2
    simp only [Except.ok.injEq, Prod.mk.injEq] at hl2
    obtain ⟨⟨e1, _, _⟩, e2⟩ := hl2
    subst e1 e2
    rw [hcfg] at hl hcase hnew
    refine ⟨w, w1, idx, tag, hrun, hl, hacc, ?_⟩
    rcases hcase with ⟨hor, _, _⟩ | ⟨_, _, hc, hs⟩
    · rcases hor with hne | hin
      · exact absurd rfl hne
      · exact absurd hin hnew
    · exact ⟨hc, hs⟩
  · intro w addr blk idx tag hd
    obtain ⟨_, _, hn, h0, h1⟩ := decompose_spec hd
    refine ⟨decompose_blockOf hd, h0, fun ha => ?_⟩
    obtain ⟨e1, e2⟩ := h1 ha
    refine ⟨?_, by rw [e1]; exact Nat.mod_lt _ (Nat.pos_of_ne_zero hn)⟩
    rw [e1, e2, Nat.mul_comm]
    exact (Nat.div_add_mod blk (toU32 w.cache.num_sets)).symm
  · intro cfg w hreach
    exact reachable_ledgerCovers hreach

/-- C19, instance of part (1): a trace over the block ids 0, 2 and 1 with
repeated accesses, hits and misses. -/
theorem compulsory_counts_distinct_blocks_witness :
    ∃ w, run { config := wtConfig, stats := {}, global_time := 0, seen_blocks := [],
               cache := { sets := List.replicate 2 (List.replicate 1 {}),
                          num_sets := 2, ways := 1 } }
        [ld 0, ld 1, st 8, ld 0, ld 4, st 6, ld 8] = .ok w ∧
      (∀ b, b ∈ w.seen_blocks ↔
        b ∈ [ld 0, ld 1, st 8, ld 0, ld 4, st 6, ld 8].map (blockId wtConfig)) ∧
      w.stats.compulsory_misses =
        (([ld 0, ld 1, st 8, ld 0, ld 4, st 6, ld 8].map (blockId wtConfig)).dedup.length : Int) :=
  compulsory_counts_distinct_blocks.1 wtConfig _ _ (by decide) (by decide) (by decide)
    (by decide)

end CacheSim
